import Mathlib

/-
  Verification development for the Chinese smart-completion engine
  (src/智能续写引擎.js).  The JavaScript source is shallowly embedded:
  strings are `List Char`, JS numbers are modelled as exact rationals
  (the structural fraction type `Q`, interpreted in `ℚ` by `Q.toRat`),
  the result cache is an association list, and the external
  numeric/date/clock runtime (Math.sqrt, Math.cbrt, Date arithmetic,
  Intl.DateTimeFormat) is a record of functions `JsRuntime` passed to
  the engine, with the current instant `now : ℕ` an explicit argument.
  JS exceptions at the dispatch boundary are modelled with `Except`.
-/

set_option maxRecDepth 4000

namespace CSC

/-! ### Character classes (JS `\s`, `\d`, `[一-龥]`, `[A-Za-z]`,
  the six full-width punctuation marks of `preprocessInput`, and the
  arithmetic operator class `[+\-*/]`). -/

/-- Principal members of the JS `\s` class (also used by `String.prototype.trim`):
  space, tab, LF, CR, VT, FF, NBSP, ideographic space, BOM. -/
def isWsChar (c : Char) : Bool :=
  c.toNat = 32 || c.toNat = 9 || c.toNat = 10 || c.toNat = 13 ||
  c.toNat = 11 || c.toNat = 12 || c.toNat = 160 || c.toNat = 0x3000 || c.toNat = 0xfeff

def isDigitChar (c : Char) : Bool :=
  48 ≤ c.toNat && c.toNat ≤ 57

/-- The six full-width marks removed by `preprocessInput`: ，。！？；： -/
def isPunctChar (c : Char) : Bool :=
  c.toNat = 0xff0c || c.toNat = 0x3002 || c.toNat = 0xff01 ||
  c.toNat = 0xff1f || c.toNat = 0xff1b || c.toNat = 0xff1a

def isCJKChar (c : Char) : Bool :=
  0x4e00 ≤ c.toNat && c.toNat ≤ 0x9fa5

def isLatinChar (c : Char) : Bool :=
  (65 ≤ c.toNat && c.toNat ≤ 90) || (97 ≤ c.toNat && c.toNat ≤ 122)

def isOpChar (c : Char) : Bool :=
  c = '+' || c = '-' || c = '*' || c = '/'

def skipWs (s : List Char) : List Char := s.dropWhile isWsChar

/-! ### The input normalizer (`preprocessInput`):
  `input.trim().replace(/\s+/g, ' ').replace(/[，。！？；：]/g, '')`. -/

/-- Model of `String.prototype.trim`. -/
def jsTrim (s : List Char) : List Char :=
  ((s.dropWhile isWsChar).reverse.dropWhile isWsChar).reverse

/-- Model of `.replace(/\s+/g, ' ')`: every maximal whitespace run becomes one
  space.  The flag records whether the scanner is inside a whitespace run. -/
def collapseWsAux : Bool → List Char → List Char
  | _, [] => []
  | inRun, c :: rest =>
    if isWsChar c then
      if inRun then collapseWsAux true rest else ' ' :: collapseWsAux true rest
    else c :: collapseWsAux false rest

def collapseWs (s : List Char) : List Char := collapseWsAux false s

/-- Model of `.replace(/[，。！？；：]/g, '')`. -/
def stripPunct (s : List Char) : List Char := s.filter (fun c => !isPunctChar c)

def preprocessInput (s : List Char) : List Char :=
  stripPunct (collapseWs (jsTrim s))

/-! ### Regex models.

  Each regular expression of the rule table is modelled by a deterministic
  scanning function over `List Char`.  The determinization is justified case by
  case: the character classes that separate adjacent regex atoms are disjoint
  (digits / `.` / whitespace / operator chars / the concrete CJK or Latin
  alternation words), so greedy maximal-munch scanning coincides with the
  backtracking regex semantics; alternations are tried in declared order and
  no alternative is a strict prefix of a later one on a shared first character
  (the only shared first character, 英 in 英尺/英寸, leads to disjoint second
  characters). -/

/-- `\d+(?:\.\d+)?` with greedy munch: returns (matched characters, rest). -/
def scanNum (s : List Char) : Option (List Char × List Char) :=
  let ds := s.takeWhile isDigitChar
  let r1 := s.dropWhile isDigitChar
  if ds.isEmpty then none
  else
    match r1 with
    | [] => some (ds, r1)
    | c :: r2 =>
      if c = '.' then
        let fs := r2.takeWhile isDigitChar
        if fs.isEmpty then some (ds, r1)
        else some (ds ++ c :: fs, r2.dropWhile isDigitChar)
      else some (ds, r1)

/-- `\d+` with greedy munch. -/
def scanDigits (s : List Char) : Option (List Char × List Char) :=
  let ds := s.takeWhile isDigitChar
  if ds.isEmpty then none else some (ds, s.dropWhile isDigitChar)

/-- Ordered alternation of literal words `(w1|w2|...)`: first word that is a
  prefix of `s` wins; returns (word, rest). -/
def scanWord (ws : List (List Char)) (s : List Char) : Option (List Char × List Char) :=
  match ws with
  | [] => none
  | w :: rest => if w.isPrefixOf s then some (w, s.drop w.length) else scanWord rest s

/-- `\s*(w1|w2|...)?$` : optional trailing literal word preceded by optional
  whitespace, then end of input. -/
def optWordEnd (ws : List (List Char)) (s : List Char) : Bool :=
  let s1 := skipWs s
  if s1.isEmpty then true
  else
    match scanWord ws s1 with
    | some (_, r) => r.isEmpty
    | none => false

/-! #### The dispatch patterns (see `initializeRules` in the source). -/

/-- Capture-level model of
  `/^(\d+(?:\.\d+)?)\s*([+\-*/])\s*(\d+(?:\.\d+)?)$/` (the handler-internal
  `basicMatch`; the first dispatch pattern of the math rule recognizes the same
  language with the operator in a character class instead of a capture). -/
def basicScan (s : List Char) : Option (List Char × Char × List Char) :=
  match scanNum s with
  | none => none
  | some (a, r1) =>
    match skipWs r1 with
    | [] => none
    | c :: r2 =>
      if isOpChar c then
        match scanNum (skipWs r2) with
        | none => none
        | some (b, r3) => if r3.isEmpty then some (a, c, b) else none
      else none

def math1Match (s : List Char) : Bool := (basicScan s).isSome

/-- `/^(\d+(?:\.\d+)?)\s*(加|减|乘|除)\s*(\d+(?:\.\d+)?)$/` -/
def math2Match (s : List Char) : Bool :=
  match scanNum s with
  | none => false
  | some (_, r1) =>
    match scanWord [['加'], ['减'], ['乘'], ['除']] (skipWs r1) with
    | none => false
    | some (_, r2) =>
      match scanNum (skipWs r2) with
      | none => false
      | some (_, r3) => r3.isEmpty

/-- `/^(\d+(?:\.\d+)?)\s*的\s*(平方根|立方根)$/` -/
def math3Match (s : List Char) : Bool :=
  match scanNum s with
  | none => false
  | some (_, r1) =>
    match scanWord [['的']] (skipWs r1) with
    | none => false
    | some (_, r2) =>
      match scanWord [('平' :: '方' :: '根' :: []), ('立' :: '方' :: '根' :: [])] (skipWs r2) with
      | none => false
      | some (_, r3) => r3.isEmpty

/-- `/^(\d+)\s*(天|日|周|月|年)\s*(后|前)$/`, with captures. -/
def relativeScan (s : List Char) : Option (List Char × List Char × List Char) :=
  match scanDigits s with
  | none => none
  | some (ds, r1) =>
    match scanWord [['天'], ['日'], ['周'], ['月'], ['年']] (skipWs r1) with
    | none => none
    | some (u, r2) =>
      match scanWord [['后'], ['前']] (skipWs r2) with
      | none => none
      | some (d, r3) => if r3.isEmpty then some (ds, u, d) else none

def date1Match (s : List Char) : Bool := (relativeScan s).isSome

/-- `/^(今天|明天|后天|昨天|前天|下周|上周)$/` -/
def date2Match (s : List Char) : Bool :=
  decide (s = ('今' :: '天' :: [])) || decide (s = ('明' :: '天' :: [])) ||
  decide (s = ('后' :: '天' :: [])) || decide (s = ('昨' :: '天' :: [])) ||
  decide (s = ('前' :: '天' :: [])) || decide (s = ('下' :: '周' :: [])) ||
  decide (s = ('上' :: '周' :: []))

/-- `/^([一-龥]+|[A-Za-z]+)\s*时间$/` (the handler-internal `cityMatch`
  and the first dispatch pattern of the timezone rule), with the city capture.
  The greedy backtracking run group is equivalent to this end-anchored reading:
  the input must end with the literal 时间, preceded by optional whitespace,
  preceded by a nonempty all-CJK or all-Latin city (a CJK city absorbs any
  further 时间 characters adjacent to it, exactly as the greedy group does). -/
def cityScan (s : List Char) : Option (List Char) :=
  match s.reverse with
  | '间' :: '时' :: r =>
    let core := (r.dropWhile isWsChar).reverse
    if core.isEmpty then none
    else if core.all isCJKChar || core.all isLatinChar then some core else none
  | _ => none

def tz1Match (s : List Char) : Bool := (cityScan s).isSome

/-- Tail of the second timezone pattern after the hour/minute part:
  `\s*(点|时)\s*([一-龥]+)\s*(时间)?$`. -/
def tz2After (s : List Char) : Bool :=
  match scanWord [['点'], ['时']] (skipWs s) with
  | none => false
  | some (_, r1) =>
    let r2 := skipWs r1
    let run := r2.takeWhile isCJKChar
    let rest := r2.dropWhile isCJKChar
    if run.isEmpty then false
    else
      let r3 := skipWs rest
      r3.isEmpty || decide (r3 = ('时' :: '间' :: []))

/-- `/^(\d{1,2})[:\.]?(\d{2})?\s*(点|时)\s*([一-龥]+)\s*(时间)?$/`:
  finitely many backtracking alternatives for the numeric prefix, tried
  greedily. -/
def tz2Match (s : List Char) : Bool :=
  match s with
  | c1 :: r1 =>
    if isDigitChar c1 then tz2Num r1 || (match r1 with
      | c2 :: r2 => if isDigitChar c2 then tz2Num r2 else false
      | [] => false)
    else false
  | [] => false
where
  /-- after `\d{1,2}` : `[:\.]?(\d{2})?` then the common tail. -/
  tz2Num (s : List Char) : Bool :=
    tz2Opt s || (match s with
      | c :: r => if c = ':' || c = '.' then tz2Opt r else false
      | [] => false)
  /-- `(\d{2})?` then the common tail. -/
  tz2Opt (s : List Char) : Bool :=
    tz2After s || (match s with
      | c1 :: c2 :: r =>
        if isDigitChar c1 && isDigitChar c2 then tz2After r else false
      | _ => false)

/-- words of the temperature-unit alternation -/
def tempWords : List (List Char) :=
  [('摄' :: '氏' :: '度' :: []), ('华' :: '氏' :: '度' :: []), ['℃'], ['℉']]

/-- words of the length-unit alternation -/
def lenWords : List (List Char) :=
  [['米'], ('厘' :: '米' :: []), ('千' :: '米' :: []), ('英' :: '尺' :: []),
   ('英' :: '寸' :: []), ['m'], ('c' :: 'm' :: []), ('k' :: 'm' :: []),
   ('f' :: 't' :: []), ('i' :: 'n' :: [])]

/-- words of the currency alternation of the first currency pattern -/
def curWords : List (List Char) :=
  [('美' :: '元' :: []), ('人' :: '民' :: '币' :: []), ('欧' :: '元' :: []),
   ('英' :: '镑' :: []), ('U' :: 'S' :: 'D' :: []), ('C' :: 'N' :: 'Y' :: []),
   ('E' :: 'U' :: 'R' :: []), ('G' :: 'B' :: 'P' :: [])]

/-- Chinese-name currency words of the second currency pattern -/
def cnCurWords : List (List Char) :=
  [('美' :: '元' :: []), ('人' :: '民' :: '币' :: []), ('欧' :: '元' :: []),
   ('英' :: '镑' :: [])]

/-- `/^(\d+(?:\.\d+)?)\s*(摄氏度|华氏度|℃|℉)\s*(等于|转换为)?$/` -/
def unit1Match (s : List Char) : Bool :=
  match scanNum s with
  | none => false
  | some (_, r1) =>
    match scanWord tempWords (skipWs r1) with
    | none => false
    | some (_, r2) => optWordEnd [('等' :: '于' :: []), ('转' :: '换' :: '为' :: [])] r2

/-- `/^(\d+(?:\.\d+)?)\s*(米|厘米|千米|英尺|英寸|m|cm|km|ft|in)\s*(等于|转换为)?$/` -/
def unit2Match (s : List Char) : Bool :=
  match scanNum s with
  | none => false
  | some (_, r1) =>
    match scanWord lenWords (skipWs r1) with
    | none => false
    | some (_, r2) => optWordEnd [('等' :: '于' :: []), ('转' :: '换' :: '为' :: [])] r2

/-- `/^(\d+(?:\.\d+)?)\s*(美元|人民币|欧元|英镑|USD|CNY|EUR|GBP)$/` (the dispatch
  pattern and the handler-internal `currencyMatch`), with captures. -/
def currencyScan (s : List Char) : Option (List Char × List Char) :=
  match scanNum s with
  | none => none
  | some (a, r1) =>
    match scanWord curWords (skipWs r1) with
    | none => none
    | some (w, r2) => if r2.isEmpty then some (a, w) else none

def cur1Match (s : List Char) : Bool := (currencyScan s).isSome

/-- `/^(\d+(?:\.\d+)?)\s*(美元|人民币|欧元|英镑)\s*(等于|换算成)?$/` -/
def cur2Match (s : List Char) : Bool :=
  match scanNum s with
  | none => false
  | some (_, r1) =>
    match scanWord cnCurWords (skipWs r1) with
    | none => false
    | some (_, r2) => optWordEnd [('等' :: '于' :: []), ('换' :: '算' :: '成' :: [])] r2

/-- `/^(牛顿第[一二三]定律|欧姆定律|万有引力定律)$/` -/
def formula1Match (s : List Char) : Bool :=
  decide (s = "牛顿第一定律".toList) || decide (s = "牛顿第二定律".toList) ||
  decide (s = "牛顿第三定律".toList) || decide (s = "欧姆定律".toList) ||
  decide (s = "万有引力定律".toList)

/-- `/^(勾股定理|二次方程|圆的面积公式)$/` -/
def formula2Match (s : List Char) : Bool :=
  decide (s = "勾股定理".toList) || decide (s = "二次方程".toList) ||
  decide (s = "圆的面积公式".toList)

/-- `/^(水的分子式|二氧化碳|氧气的化学式)$/` -/
def formula3Match (s : List Char) : Bool :=
  decide (s = "水的分子式".toList) || decide (s = "二氧化碳".toList) ||
  decide (s = "氧气的化学式".toList)

/-- The handler-internal temperature regex (no `$` anchor):
  `/^(\d+(?:\.\d+)?)\s*(摄氏度|华氏度|℃|℉)/` -/
def tempScan (s : List Char) : Option (List Char × List Char) :=
  match scanNum s with
  | none => none
  | some (a, r1) =>
    match scanWord tempWords (skipWs r1) with
    | none => none
    | some (u, _) => some (a, u)

/-- The handler-internal length regex (no `$` anchor):
  `/^(\d+(?:\.\d+)?)\s*(米|厘米|千米|英尺|英寸|m|cm|km|ft|in)/` -/
def lengthScan (s : List Char) : Option (List Char × List Char) :=
  match scanNum s with
  | none => none
  | some (a, r1) =>
    match scanWord lenWords (skipWs r1) with
    | none => none
    | some (u, _) => some (a, u)

/-! ### Global literal replacement and substring search
  (models of `String.prototype.replace(new RegExp(lit, 'g'), rep)` and
  `String.prototype.includes`). -/

/-- Left-to-right, non-overlapping global replacement of the literal word `w`
  by `r`; after a match, scanning resumes after the matched occurrence.
  Fuel-based so that it reduces in the kernel; each step consumes at least one
  character, so any fuel of at least `s.length` gives the same value. -/
def replaceAllAux (w r : List Char) : ℕ → List Char → List Char
  | 0, s => s
  | fuel + 1, s =>
    if w.isPrefixOf s && !w.isEmpty then r ++ replaceAllAux w r fuel (s.drop w.length)
    else
      match s with
      | [] => []
      | c :: rest => c :: replaceAllAux w r fuel rest

def replaceAll (w r : List Char) (s : List Char) : List Char :=
  replaceAllAux w r s.length s

/-- Model of `String.prototype.includes` for a literal search word. -/
def containsSub (w : List Char) : List Char → Bool
  | [] => w.isEmpty
  | c :: rest => w.isPrefixOf (c :: rest) || containsSub w rest

/-- The ordered Chinese-operator replacement table of `handleMathCalculation`:
  加→+, 减→-, 乘→*, 除→/, 的平方根→sqrt, 的立方根→cbrt. -/
def repPats : List (List Char × List Char) :=
  [(['加'], ['+']), (['减'], ['-']), (['乘'], ['*']), (['除'], ['/']),
   (('的' :: '平' :: '方' :: '根' :: []), ('s' :: 'q' :: 'r' :: 't' :: [])),
   (('的' :: '立' :: '方' :: '根' :: []), ('c' :: 'b' :: 'r' :: 't' :: []))]

def applyReps (s : List Char) : List Char :=
  repPats.foldl (fun acc p => replaceAll p.1 p.2 acc) s

/-- Model of `parseFloat(expression.replace(/.*?(\d+(?:\.\d+)?).*/, '$1'))`:
  the lazy leading `.*?` finds the first digit, the capture takes the first
  numeric literal greedily, and the trailing `.*` discards the rest, so
  `parseFloat` sees exactly that first unsigned literal.  When the string
  contains no digit the regex does not match, `replace` returns the string
  unchanged and `parseFloat` yields NaN — modelled as `none`. -/
def extractNum (s : List Char) : Option (List Char) :=
  let r := s.dropWhile (fun c => !isDigitChar c)
  match scanNum r with
  | some (n, _) => some n
  | none => none

/-! ### Numeric values.

  JS numbers are IEEE-754 binary64 values; the engine's arithmetic is
  modelled by the type `F64` below (a finite double as an exact dyadic
  `m * 2^e` with odd `m`, plus the infinities and NaN), with every operation
  defined as IEEE round-to-nearest-even of the exact rational result.  The
  exact intermediate arithmetic is carried by `Q`, an unnormalized
  numerator/denominator pair with fully structural operations (Mathlib's `ℚ`
  operations normalize through `Nat.gcd`, well-founded recursion opaque to
  kernel reduction); `Q.toRat` interprets a `Q` in `ℚ` and the `Q` operations
  are proved to agree with the field operations of `ℚ`, so exact-value facts
  can be stated over `ℚ`.  `numVal` is the exact mathematical value of a
  literal matched by `\d+(?:\.\d+)?`; `parseF64` (parseFloat) rounds it to
  binary64. -/

/-- An exact JS number: an unnormalized fraction with positive denominator. -/
structure Q where
  num : ℤ
  den : ℕ
deriving DecidableEq, Repr

def Q.toRat (q : Q) : ℚ := (q.num : ℚ) / (q.den : ℚ)

def qadd (a b : Q) : Q := ⟨a.num * b.den + b.num * a.den, a.den * b.den⟩

def qsub (a b : Q) : Q := ⟨a.num * b.den - b.num * a.den, a.den * b.den⟩

def qmul (a b : Q) : Q := ⟨a.num * b.num, a.den * b.den⟩

def qdiv (a b : Q) : Q :=
  if 0 ≤ b.num then ⟨a.num * b.den, a.den * b.num.natAbs⟩
  else ⟨-(a.num * b.den), a.den * b.num.natAbs⟩

/-- the JS numeric comparison `x !== 0` (negated) -/
def qIsZero (q : Q) : Bool := q.num = 0

/-- the JS comparison `x < 0` -/
def qIsNeg (q : Q) : Bool := q.num < 0

def digitVal (c : Char) : ℕ := c.toNat - 48

def digitsVal (ds : List Char) : ℕ := ds.foldl (fun a c => 10 * a + digitVal c) 0

/-- `parseFloat` on a string of the form `\d+(\.\d+)?`:
  `ip.fp` has the exact value `(ip * 10^|fp| + fp) / 10^|fp|`. -/
def numVal (s : List Char) : Q :=
  let ip := s.takeWhile (fun c => c ≠ '.')
  let fp := (s.dropWhile (fun c => c ≠ '.')).drop 1
  ⟨digitsVal ip * 10 ^ fp.length + digitsVal fp, 10 ^ fp.length⟩

def natToCharsAux : ℕ → ℕ → List Char
  | 0, _ => []
  | fuel + 1, n =>
    if n = 0 then [] else natToCharsAux fuel (n / 10) ++ [Char.ofNat (48 + n % 10)]

def natToChars (n : ℕ) : List Char :=
  if n = 0 then ['0'] else natToCharsAux n n

def intToChars (i : ℤ) : List Char :=
  if i < 0 then '-' :: natToChars i.natAbs else natToChars i.natAbs

def padZeros (k : ℕ) (s : List Char) : List Char :=
  List.replicate (k - s.length) '0' ++ s

/-- The rounding step of `Number.prototype.toFixed f`, applied to the exact
  value of its (already rounded binary64) argument:
  `⌊q·10^f + 1/2⌋ = (2·num·10^f + den).fdiv (2·den)` for positive `den`
  ("pick the larger n" of the spec = round half toward +∞). -/
def ratToFixed (f : ℕ) (q : Q) : List Char :=
  let n : ℤ := Int.fdiv (2 * q.num * 10 ^ f + q.den) (2 * q.den)
  if f = 0 then intToChars n
  else
    (if n < 0 then ['-'] else []) ++
      natToChars (n.natAbs / 10 ^ f) ++ '.' :: padZeros f (natToChars (n.natAbs % 10 ^ f))

/-! ### IEEE-754 binary64.

  A finite double is an exact dyadic `m * 2^e` with `m` odd (or `m = 0`,
  `e = 0`), so equal values have equal representations.  `roundPos` rounds a
  positive rational to the binary64 grid (round to nearest, ties to even,
  subnormals and overflow included): with `e = ⌊log₂(n/d)⌋` the representable
  neighbours of `n/d` are spaced `2^(e-52)` apart (`2^-1074` in the subnormal
  range), so correct rounding is the nearest multiple of the spacing, and a
  result of `2^1024` or more overflows to Infinity.  All arithmetic on
  numbers in the source (`parseFloat`, `+ - * /`, `toString`, `toFixed`) is
  modelled through this type. -/

/-- number of binary digits (0 for 0); fuel-based structural recursion -/
def natBitsAux : ℕ → ℕ → ℕ
  | 0, _ => 0
  | fuel + 1, n => if n = 0 then 0 else natBitsAux fuel (n / 2) + 1

def natBits (n : ℕ) : ℕ := natBitsAux n n

/-- round `a / b` (`b > 0`) to the nearest integer, ties to even -/
def rdivNE (a b : ℕ) : ℕ :=
  let q := a / b
  let r := a % b
  if 2 * r < b then q
  else if b < 2 * r then q + 1
  else if q % 2 = 0 then q else q + 1

/-- `2 ^ E ≤ n / d` (for positive `n`, `d`) -/
def ge2pow (n d : ℕ) (E : ℤ) : Bool :=
  if 0 ≤ E then d * 2 ^ E.toNat ≤ n else d ≤ n * 2 ^ (-E).toNat

/-- divide out factors of two (at most `fuel` of them) -/
def strip2 : ℕ → ℕ → ℤ → ℕ × ℤ
  | 0, m, e => (m, e)
  | fuel + 1, m, e => if m % 2 = 0 ∧ m ≠ 0 then strip2 fuel (m / 2) (e + 1) else (m, e)

/-- Round the positive rational `n / d` to binary64: `some (m, e)` is the
  finite value `m * 2^e` (`m` odd; `(0, 0)` for underflow to zero), `none`
  is overflow to Infinity. -/
def roundPos (n d : ℕ) : Option (ℕ × ℤ) :=
  let E : ℤ := (natBits n : ℤ) - (natBits d : ℤ)
  let e : ℤ := if ge2pow n d E then E else E - 1
  if 1024 ≤ e then none
  else
    let s : ℤ := if -1022 ≤ e then 52 - e else 1074
    let m := if 0 ≤ s then rdivNE (n * 2 ^ s.toNat) d else rdivNE n (d * 2 ^ (-s).toNat)
    if m = 0 then some (0, 0)
    else if s ≤ 0 ∧ 2 ^ (1024 + s).toNat ≤ m then none
    else some (strip2 54 m (-s))

/-- a binary64 value -/
inductive F64
  | fin (m : ℤ) (e : ℤ)
  | inf
  | neginf
  | nan
deriving DecidableEq, Repr

/-- round an exact rational (as a `Q`) to binary64; `den = 0` encodes an
  exact division by zero (reachable only behind the handler's zero guard) -/
def roundF64 (q : Q) : F64 :=
  if q.num = 0 then .fin 0 0
  else if q.den = 0 then (if 0 < q.num then .inf else .neginf)
  else
    match roundPos q.num.natAbs q.den with
    | none => if 0 < q.num then .inf else .neginf
    | some (m, e) =>
      if m = 0 then .fin 0 0
      else if 0 < q.num then .fin (m : ℤ) e else .fin (-(m : ℤ)) e

/-- `parseFloat` on a string matched by `\d+(?:\.\d+)?`: the literal's
  mathematical value rounded to binary64 -/
def parseF64 (s : List Char) : F64 := roundF64 (numVal s)

/-- the exact value of a finite double as a `Q` -/
def F64.toQ : F64 → Q
  | .fin m e => if 0 ≤ e then ⟨m * 2 ^ e.toNat, 1⟩ else ⟨m, 2 ^ (-e).toNat⟩
  | _ => ⟨0, 1⟩

/-- sign used for the infinity cases of `*` and `/` -/
def fsign : F64 → ℤ
  | .fin m _ => if m < 0 then -1 else if 0 < m then 1 else 0
  | .inf => 1
  | .neginf => -1
  | .nan => 0

/-- JS `x !== 0` (negated); NaN and the infinities are nonzero -/
def fIsZero (x : F64) : Bool := x = .fin 0 0

/-- JS `x < 0`; false for NaN -/
def fIsNeg : F64 → Bool
  | .fin m _ => m < 0
  | .neginf => true
  | _ => false

/-- binary64 `+`: correctly rounded exact sum on finite operands -/
def fadd (x y : F64) : F64 :=
  match x, y with
  | .nan, _ => .nan
  | _, .nan => .nan
  | .inf, .neginf => .nan
  | .neginf, .inf => .nan
  | .inf, _ => .inf
  | _, .inf => .inf
  | .neginf, _ => .neginf
  | _, .neginf => .neginf
  | .fin m1 e1, .fin m2 e2 => roundF64 (qadd (F64.toQ (.fin m1 e1)) (F64.toQ (.fin m2 e2)))

/-- binary64 `-` -/
def fsub (x y : F64) : F64 :=
  match x, y with
  | .nan, _ => .nan
  | _, .nan => .nan
  | .inf, .inf => .nan
  | .neginf, .neginf => .nan
  | .inf, _ => .inf
  | .neginf, _ => .neginf
  | _, .inf => .neginf
  | _, .neginf => .inf
  | .fin m1 e1, .fin m2 e2 => roundF64 (qsub (F64.toQ (.fin m1 e1)) (F64.toQ (.fin m2 e2)))

/-- binary64 `*` -/
def fmul (x y : F64) : F64 :=
  match x, y with
  | .nan, _ => .nan
  | _, .nan => .nan
  | .fin m1 e1, .fin m2 e2 => roundF64 (qmul (F64.toQ (.fin m1 e1)) (F64.toQ (.fin m2 e2)))
  | x', y' =>
    let s := fsign x' * fsign y'
    if s = 1 then .inf else if s = -1 then .neginf else .nan

/-- binary64 `/` (division by a zero divisor is guarded in the handler; the
  sign of zero is not modelled, ±0 both being the canonical zero) -/
def fdiv (x y : F64) : F64 :=
  match x, y with
  | .nan, _ => .nan
  | _, .nan => .nan
  | .fin m1 e1, .fin m2 e2 =>
    if m2 = 0 then (if m1 = 0 then .nan else if 0 < m1 then .inf else .neginf)
    else roundF64 (qdiv (F64.toQ (.fin m1 e1)) (F64.toQ (.fin m2 e2)))
  | .fin _ _, _ => .fin 0 0
  | x', .fin m2 _ =>
    if fsign x' * (if m2 < 0 then -1 else 1) = 1 then .inf else .neginf
  | _, _ => .nan

/-- a double given by a decimal literal of the source, e.g. `fLit 71776 10000`
  for the program text `7.1776` -/
def fLit (n d : ℕ) : F64 := roundF64 ⟨(n : ℤ), d⟩

/-! #### JS number-to-string (ECMA-262 Number::toString, radix 10).

  For a finite nonzero double of exact value `x = m·2^e`, the spec picks
  integers `n`, `k ≥ 1`, `s` with `10^(k-1) ≤ s < 10^k`, the double nearest
  `s·10^(n-k)` equal to the argument, `k` minimal, and among those the `s`
  whose value is closest to `x` (ties to even `s`); the digits of `s` are
  then laid out in plain or exponential form according to `n` and `k`.  The
  search below enumerates `k = 1, 2, …` (17 always suffices for binary64)
  and for each `k` tests the two integers nearest `x·10^(k-n)` plus the
  power-of-ten bump candidate, exactly mirroring the specification. -/

def digits10Aux : ℕ → ℕ → ℕ
  | 0, _ => 0
  | fuel + 1, n => if n = 0 then 0 else digits10Aux fuel (n / 10) + 1

def digits10 (n : ℕ) : ℕ := digits10Aux n n

/-- `⌊m·2^e·10^340⌋` (positive for every positive double) -/
def decScaled (m : ℕ) (e : ℤ) : ℕ :=
  if 0 ≤ e then m * 2 ^ e.toNat * 10 ^ 340 else m * 10 ^ 340 / 2 ^ (-e).toNat

/-- the `n` with `10^(n-1) ≤ m·2^e < 10^n` -/
def decExp (m : ℕ) (e : ℤ) : ℤ := (digits10 (decScaled m e) : ℤ) - 340

/-- `⌊m·2^e·10^p⌋` -/
def sCand (m : ℕ) (e p : ℤ) : ℕ :=
  if 0 ≤ e then
    (if 0 ≤ p then m * 2 ^ e.toNat * 10 ^ p.toNat else m * 2 ^ e.toNat / 10 ^ (-p).toNat)
  else
    (if 0 ≤ p then m * 10 ^ p.toNat / 2 ^ (-e).toNat
     else m / (2 ^ (-e).toNat * 10 ^ (-p).toNat))

/-- `s·10^p` as an exact rational -/
def cval (s : ℕ) (p : ℤ) : Q :=
  if 0 ≤ p then ⟨(s : ℤ) * 10 ^ p.toNat, 1⟩ else ⟨(s : ℤ), 10 ^ (-p).toNat⟩

/-- does the decimal `s·10^p` round back to the double `m·2^e`? -/
def rtOK (s : ℕ) (p : ℤ) (m : ℕ) (e : ℤ) : Bool :=
  roundF64 (cval s p) = .fin (m : ℤ) e

/-- `|q1| < |q2|` for positive denominators -/
def qAbsLt (q1 q2 : Q) : Bool := q1.num.natAbs * q2.den < q2.num.natAbs * q1.den

/-- the round-trip candidates with `k` digits, best first unresolved:
  the two integers around `x·10^(k-n)` and the power-of-ten bump -/
def tryK (m : ℕ) (e n : ℤ) (k : ℕ) : Option (ℕ × ℤ) :=
  let s0 := sCand m e ((k : ℤ) - n)
  let cands :=
    (if 10 ^ (k - 1) ≤ s0 ∧ s0 < 10 ^ k ∧ rtOK s0 (n - k) m e then [(s0, n)] else []) ++
    (if 10 ^ (k - 1) ≤ s0 + 1 ∧ s0 + 1 < 10 ^ k ∧ rtOK (s0 + 1) (n - k) m e
     then [(s0 + 1, n)] else []) ++
    (if s0 + 1 = 10 ^ k ∧ rtOK (10 ^ (k - 1)) (n + 1 - k) m e
     then [(10 ^ (k - 1), n + 1)] else [])
  match cands with
  | [] => none
  | [c] => some c
  | c1 :: c2 :: _ =>
    let d1 := qsub (cval c1.1 (c1.2 - k)) (F64.toQ (.fin (m : ℤ) e))
    let d2 := qsub (cval c2.1 (c2.2 - k)) (F64.toQ (.fin (m : ℤ) e))
    if qAbsLt d1 d2 then some c1
    else if qAbsLt d2 d1 then some c2
    else if c1.1 % 2 = 0 then some c1 else some c2

/-- search `k = 1, 2, …` for the shortest round-tripping digit string -/
def shortestAux (m : ℕ) (e n : ℤ) : ℕ → ℕ → ℕ × ℕ × ℤ
  | 0, k => (sCand m e ((k : ℤ) - n), k, n)
  | fuel + 1, k =>
    match tryK m e n k with
    | some sn => (sn.1, k, sn.2)
    | none => shortestAux m e n fuel (k + 1)

def shortestDec (m : ℕ) (e : ℤ) : ℕ × ℕ × ℤ :=
  shortestAux m e (decExp m e) 17 1

/-- lay out `k` digits `s` with decimal exponent `n` (ECMA-262 steps 5-10 of
  the radix-10 conversion: plain integer, fixed, small-fraction, or
  exponential form) -/
def fmtDec (s k : ℕ) (n : ℤ) : List Char :=
  let ds := padZeros k (natToChars s)
  if (k : ℤ) ≤ n ∧ n ≤ 21 then ds ++ List.replicate (n - k).toNat '0'
  else if 0 < n ∧ n ≤ 21 then ds.take n.toNat ++ '.' :: ds.drop n.toNat
  else if -5 ≤ n ∧ n ≤ 0 then '0' :: '.' :: (List.replicate (-n).toNat '0' ++ ds)
  else
    match ds with
    | [] => []
    | d :: rest =>
      d :: (if rest.isEmpty then [] else '.' :: rest)
        ++ 'e' :: (if 0 < n - 1 then '+' :: natToChars (n - 1).toNat
                   else '-' :: natToChars (1 - n).toNat)

/-- JS `String(x)` for a number -/
def f64ToStr : F64 → List Char
  | .nan => "NaN".toList
  | .inf => "Infinity".toList
  | .neginf => "-Infinity".toList
  | .fin m e =>
    if m = 0 then ['0']
    else
      let t := shortestDec m.natAbs e
      (if m < 0 then ['-'] else []) ++ fmtDec t.1 t.2.1 t.2.2

/-- `|m·2^e| ≥ c` -/
def dyGe (m : ℕ) (e : ℤ) (c : ℕ) : Bool :=
  if 0 ≤ e then c ≤ m * 2 ^ e.toNat else c * 2 ^ (-e).toNat ≤ m

/-- JS `Number.prototype.toFixed f`: for `|x| ≥ 10^21` fall back to
  `String(x)`, otherwise round the double's exact value half toward +∞ at
  `f` decimals and pad -/
def f64ToFixed (f : ℕ) : F64 → List Char
  | .nan => "NaN".toList
  | .inf => "Infinity".toList
  | .neginf => "-Infinity".toList
  | .fin m e =>
    if dyGe m.natAbs e (10 ^ 21) then f64ToStr (.fin m e)
    else ratToFixed f (F64.toQ (.fin m e))

/-! ### Data model: Result, runtime record, rules, cache, fixture tables. -/

/-- The `type` tags of the Result tagged union. -/
inductive RType
  | calculation
  | date
  | timezone
  | conversion
  | currency
  | formula
  | error
deriving DecidableEq, Repr

/-- `{ type, result }` as returned by the handlers. -/
structure Result where
  type : RType
  result : List Char
deriving DecidableEq, Repr

/-- The external numeric/date/clock runtime the engine calls into:
  `Math.sqrt` / `Math.cbrt` (on non-NaN, in-domain arguments), the
  `Date` arithmetic used by the date handler (each returns the pair
  `(getMonth() + 1, getDate())` of the shifted date), and
  `Intl.DateTimeFormat(...).format(new Date())` for a zone id at an instant. -/
structure JsRuntime where
  sqrtFn : F64 → F64
  cbrtFn : F64 → F64
  addDays : ℕ → ℤ → ℕ × ℕ
  addMonths : ℕ → ℤ → ℕ × ℕ
  addYears : ℕ → ℤ → ℕ × ℕ
  fmtTime : List Char → ℕ → List Char

/-- `Math.sqrt`: NaN on NaN or a negative argument, otherwise the runtime's
  (correctly rounded) value. -/
def mathSqrt (rt : JsRuntime) (x : F64) : F64 :=
  if x = .nan then .nan else if fIsNeg x then .nan else rt.sqrtFn x

/-- A rule of the rule table.  Handlers receive only the (normalized) input:
  every handler in the source ignores its `match` argument and re-matches the
  input itself.  The `Except` layer models a JS exception escaping a handler,
  caught by the dispatch loop's try/catch. -/
structure Rule where
  category : String
  priority : ℕ
  patterns : List (List Char → Bool)
  handler : List Char → Except String (Option Result)

abbrev Cache := List (List Char × Result)

def assocGet {α : Type} (key : List Char) : List (List Char × α) → Option α
  | [] => none
  | kv :: rest => if kv.1 = key then some kv.2 else assocGet key rest

/-- `Map.set`.  `process` only inserts on a cache miss, so keys are unique and
  prepending is observationally equal to the JS insertion. -/
def cacheSet (key : List Char) (v : Result) (c : Cache) : Cache := (key, v) :: c

/-- `this.timezoneMap` -/
def timezoneMap : List (List Char × List Char) :=
  [("纽约".toList, "America/New_York".toList),
   ("洛杉矶".toList, "America/Los_Angeles".toList),
   ("伦敦".toList, "Europe/London".toList),
   ("巴黎".toList, "Europe/Paris".toList),
   ("东京".toList, "Asia/Tokyo".toList),
   ("首尔".toList, "Asia/Seoul".toList),
   ("新加坡".toList, "Asia/Singapore".toList),
   ("迪拜".toList, "Asia/Dubai".toList)]

/-- `this.formulaDatabase` -/
def formulaDatabase : List (List Char × List Char) :=
  [("牛顿第二定律".toList, "F = ma".toList),
   ("牛顿第一定律".toList, "物体保持静止或匀速直线运动状态".toList),
   ("牛顿第三定律".toList, "作用力与反作用力大小相等，方向相反".toList),
   ("欧姆定律".toList, "V = IR".toList),
   ("万有引力定律".toList, "F = G(m₁m₂)/r²".toList),
   ("勾股定理".toList, "a² + b² = c²".toList),
   ("二次方程".toList, "x = (-b ± √(b²-4ac)) / 2a".toList),
   ("圆的面积公式".toList, "S = πr²".toList),
   ("水的分子式".toList, "H₂O".toList),
   ("二氧化碳".toList, "CO₂".toList),
   ("氧气的化学式".toList, "O₂".toList)]

/-- `this.exchangeRates` (directed rate table) -/
def exchangeRates : List (List Char × List (List Char × F64)) :=
  [("USD".toList, [("CNY".toList, fLit 71776 10000), ("EUR".toList, fLit 8234 10000),
                   ("GBP".toList, fLit 7456 10000)]),
   ("CNY".toList, [("USD".toList, fLit 1393 10000), ("EUR".toList, fLit 1147 10000),
                   ("GBP".toList, fLit 1039 10000)]),
   ("EUR".toList, [("USD".toList, fLit 12143 10000), ("CNY".toList, fLit 87234 10000),
                   ("GBP".toList, fLit 9054 10000)]),
   ("GBP".toList, [("USD".toList, fLit 13416 10000), ("CNY".toList, fLit 96321 10000),
                   ("EUR".toList, fLit 11045 10000)])]

def rateOf (a b : List Char) : F64 :=
  ((assocGet a exchangeRates).bind (assocGet b)).getD (.fin 0 0)

/-- the handler-local `currencyMap` -/
def currencyMap : List (List Char × List Char) :=
  [("美元".toList, "USD".toList), ("人民币".toList, "CNY".toList),
   ("欧元".toList, "EUR".toList), ("英镑".toList, "GBP".toList)]

/-- the handler-local `specialDates` offsets table (no 下周/上周 entries) -/
def specialDates : List (List Char × ℤ) :=
  [("今天".toList, 0), ("明天".toList, 1), ("后天".toList, 2),
   ("昨天".toList, -1), ("前天".toList, -2)]

/-! ### Handlers -/

/-- The `switch (operator)` of the basic-arithmetic branch; division by zero
  assigns the literal notice string to `result`, which is then spliced after
  the prefix in the display. -/
def binDisplay (op : Char) (a b : F64) : List Char :=
  if op = '+' then f64ToStr (fadd a b)
  else if op = '-' then f64ToStr (fsub a b)
  else if op = '*' then f64ToStr (fmul a b)
  else if op = '/' then (if !fIsZero b then f64ToStr (fdiv a b) else "除数不能为0".toList)
  else "undefined".toList

/-- The `expression.includes('sqrt')` branch of `handleMathCalculation`. -/
def sqrtBranch (rt : JsRuntime) (expr : List Char) : Result :=
  match extractNum expr with
  | some n => ⟨.calculation, "= ".toList ++ f64ToStr (mathSqrt rt (parseF64 n))⟩
  | none => ⟨.calculation, "= NaN".toList⟩

/-- The `expression.includes('cbrt')` branch (result shown with `toFixed(4)`;
  a digit-free expression yields NaN and `NaN.toFixed(4)` is "NaN"). -/
def cbrtBranch (rt : JsRuntime) (expr : List Char) : Result :=
  match extractNum expr with
  | some n => ⟨.calculation, "= ".toList ++ f64ToFixed 4 (rt.cbrtFn (parseF64 n))⟩
  | none => ⟨.calculation, "= NaN".toList⟩

def handleMathCalculation (rt : JsRuntime) (input : List Char) :
    Except String (Option Result) :=
  let expression := applyReps input
  if containsSub "sqrt".toList expression then .ok (some (sqrtBranch rt expression))
  else if containsSub "cbrt".toList expression then .ok (some (cbrtBranch rt expression))
  else
    match basicScan expression with
    | some (a, op, b) =>
      .ok (some ⟨.calculation, "= ".toList ++ binDisplay op (parseF64 a) (parseF64 b)⟩)
    | none => .ok none

/-- `（M月D日）` from a (month, day) pair. -/
def dateDisp (md : ℕ × ℕ) : List Char :=
  "（".toList ++ natToChars md.1 ++ "月".toList ++ natToChars md.2 ++ "日）".toList

def handleDateCalculation (rt : JsRuntime) (now : ℕ) (input : List Char) :
    Except String (Option Result) :=
  .ok (match relativeScan input with
  | some (ds, u, dir) =>
    let num : ℤ := digitsVal ds
    let mult : ℤ := if dir = ['后'] then 1 else -1
    let md :=
      if u = ['天'] ∨ u = ['日'] then rt.addDays now (num * mult)
      else if u = ['周'] then rt.addDays now (num * 7 * mult)
      else if u = ['月'] then rt.addMonths now (num * mult)
      else rt.addYears now (num * mult)
    some ⟨.date, dateDisp md⟩
  | none =>
    match assocGet input specialDates with
    | some off => some ⟨.date, dateDisp (rt.addDays now off)⟩
    | none => none)

def handleTimezoneQuery (rt : JsRuntime) (now : ℕ) (input : List Char) :
    Except String (Option Result) :=
  .ok (match cityScan input with
  | some city =>
    match assocGet city timezoneMap with
    | some tz => some ⟨.timezone, "（".toList ++ rt.fmtTime tz now ++ "）".toList⟩
    | none => none
  | none => none)

def handleUnitConversion (input : List Char) : Except String (Option Result) :=
  .ok (match tempScan input with
  | some (v, u) =>
    let num := parseF64 v
    if u = "摄氏度".toList ∨ u = ['℃'] then
      some ⟨.conversion,
        f64ToFixed 1 (fadd (fdiv (fmul num (fLit 9 1)) (fLit 5 1)) (fLit 32 1))
          ++ "华氏度".toList⟩
    else
      some ⟨.conversion,
        f64ToFixed 1 (fdiv (fmul (fsub num (fLit 32 1)) (fLit 5 1)) (fLit 9 1))
          ++ "摄氏度".toList⟩
  | none =>
    match lengthScan input with
    | some (v, u) =>
      let num := parseF64 v
      if u = ['米'] ∨ u = ['m'] then
        some ⟨.conversion, f64ToFixed 2 (fmul num (fLit 328084 100000)) ++ "英尺".toList⟩
      else none
    | none => none)

def handleCurrencyConversion (input : List Char) : Except String (Option Result) :=
  .ok (match currencyScan input with
  | some (a, currency) =>
    let num := parseF64 a
    let fromCurrency := (assocGet currency currencyMap).getD currency
    if fromCurrency = "USD".toList then
      some ⟨.currency,
        "（".toList ++ f64ToFixed 4 (fmul num (rateOf "USD".toList "CNY".toList))
          ++ " 人民币）".toList⟩
    else if fromCurrency = "CNY".toList then
      some ⟨.currency,
        "（".toList ++ f64ToFixed 4 (fmul num (rateOf "CNY".toList "USD".toList))
          ++ " 美元）".toList⟩
    else none
  | none => none)

def handleFormulaQuery (input : List Char) : Except String (Option Result) :=
  .ok ((assocGet input formulaDatabase).map fun f => ⟨.formula, f⟩)

/-! ### Rule table and dispatch engine -/

def mathRule (rt : JsRuntime) : Rule :=
  ⟨"math", 1, [math1Match, math2Match, math3Match], handleMathCalculation rt⟩

def dateRule (rt : JsRuntime) (now : ℕ) : Rule :=
  ⟨"date", 2, [date1Match, date2Match], handleDateCalculation rt now⟩

def timezoneRule (rt : JsRuntime) (now : ℕ) : Rule :=
  ⟨"timezone", 3, [tz1Match, tz2Match], handleTimezoneQuery rt now⟩

def unitRule : Rule :=
  ⟨"unit", 4, [unit1Match, unit2Match], handleUnitConversion⟩

def currencyRule : Rule :=
  ⟨"currency", 5, [cur1Match, cur2Match], handleCurrencyConversion⟩

def formulaRule : Rule :=
  ⟨"formula", 6, [formula1Match, formula2Match, formula3Match], handleFormulaQuery⟩

/-- The ordered rule list built by the constructor (source: initializeRules). -/
def engineRules (rt : JsRuntime) (now : ℕ) : List Rule :=
  [mathRule rt, dateRule rt now, timezoneRule rt now, unitRule, currencyRule, formulaRule]

/-- The inner pattern loop of `process`: try each pattern in declared order;
  on a syntactic match invoke the handler; a non-null result wins; a null
  result or a caught exception (logged to the console in the source) means
  continue with the next pattern. -/
def tryPatterns (h : List Char → Except String (Option Result))
    (ps : List (List Char → Bool)) (input : List Char) : Option Result :=
  match ps with
  | [] => none
  | p :: rest =>
    if p input then
      match h input with
      | .ok (some r) => some r
      | .ok none => tryPatterns h rest input
      | .error _ => tryPatterns h rest input
    else tryPatterns h rest input

/-- The outer rule loop of `process`: rules in declared order, first non-null
  handler result wins. -/
def tryRules (rules : List Rule) (input : List Char) : Option Result :=
  match rules with
  | [] => none
  | r :: rest =>
    match tryPatterns r.handler r.patterns input with
    | some res => some res
    | none => tryRules rest input

/-- `process` over an explicit rule list: normalize, consult the cache
  (hit short-circuits), otherwise dispatch and cache a non-null result. -/
def processWith (rules : List Rule) (cache : Cache) (input : List Char) :
    Option Result × Cache :=
  let cleanInput := preprocessInput input
  match assocGet cleanInput cache with
  | some r => (some r, cache)
  | none =>
    match tryRules rules cleanInput with
    | some r => (some r, cacheSet cleanInput r cache)
    | none => (none, cache)

/-- `process(input)` of the engine (the resolved value of the Promise). -/
def process (rt : JsRuntime) (now : ℕ) (cache : Cache) (input : List Char) :
    Option Result × Cache :=
  processWith (engineRules rt now) cache input

/-- `formatOutput`: every populated tag displays `result.result`; null gives
  the empty string. -/
def formatOutput : Option Result → List Char
  | none => []
  | some r => r.result

/-! ### Abstract numeric literals.

  A `NumLit` is an arbitrary unsigned numeric literal as matched by
  `\d+(?:\.\d+)?`: a nonempty digit string with an optional nonempty
  fractional digit string. -/

structure NumLit where
  intPart : List Char
  fracPart : Option (List Char)

def NumLit.fracChars (L : NumLit) : List Char :=
  match L.fracPart with
  | some f => '.' :: f
  | none => []

/-- the literal's surface string -/
def NumLit.chars (L : NumLit) : List Char := L.intPart ++ L.fracChars

/-- well-formedness -/
def NumLit.wfB (L : NumLit) : Bool :=
  !L.intPart.isEmpty && L.intPart.all isDigitChar &&
    (match L.fracPart with
     | none => true
     | some f => !f.isEmpty && f.all isDigitChar)

/-- the exact value of the literal, as a rational -/
def NumLit.val (L : NumLit) : ℚ := (numVal L.chars).toRat

/-- Separator condition: the rest begins with neither a digit nor `.` (so the
  greedy literal scan stops exactly at the literal's boundary). -/
def sepOkB (rest : List Char) : Bool :=
  match rest.head? with
  | none => true
  | some c => !isDigitChar c && c != '.'

/-- the five leading characters of the replacement table's patterns -/
def repHeadChars : List Char := ['加', '减', '乘', '除', '的']

/-! ### The binary-arithmetic input family:
  `a op b` with optional single spaces, for `op` one of `+ - * /` or its
  Chinese spelling 加/减/乘/除. -/

inductive AOp
  | add
  | sub
  | mul
  | div
deriving DecidableEq, Repr

def opSym : AOp → Char
  | .add => '+'
  | .sub => '-'
  | .mul => '*'
  | .div => '/'

def opCN : AOp → Char
  | .add => '加'
  | .sub => '减'
  | .mul => '乘'
  | .div => '除'

/-- the exact rational value of `a op b` (for division, `b ≠ 0`) -/
def opEval : AOp → ℚ → ℚ → ℚ
  | .add => fun a b => a + b
  | .sub => fun a b => a - b
  | .mul => fun a b => a * b
  | .div => fun a b => a / b

/-- the engine-level `Q` computation of the operator switch -/
def opQ : AOp → Q → Q → Q
  | .add => qadd
  | .sub => qsub
  | .mul => qmul
  | .div => qdiv

/-- the binary64 operation the program performs for each operator -/
def opF : AOp → F64 → F64 → F64
  | .add => fadd
  | .sub => fsub
  | .mul => fmul
  | .div => fdiv

def spc (b : Bool) : List Char := if b then [' '] else []

/-- `a.chars ⟨sp?⟩ op ⟨sp?⟩ b.chars` -/
def mkBin (a : NumLit) (op : Char) (s1 s2 : Bool) (b : NumLit) : List Char :=
  a.chars ++ spc s1 ++ op :: (spc s2 ++ b.chars)

/-- A concrete runtime instance used by closed witness statements. -/
def rtDemo : JsRuntime :=
  ⟨fun q => q, fun q => q, fun _ _ => (1, 1), fun _ _ => (1, 1), fun _ _ => (1, 1),
   fun _ _ => "12:00".toList⟩

/-- A runtime whose clock display differs between instants 0 and 1 (used to
  exhibit the cache/clock interaction). -/
def rtTick : JsRuntime :=
  ⟨fun q => q, fun q => q, fun _ _ => (1, 1), fun _ _ => (1, 1), fun _ _ => (1, 1),
   fun _ t => if t = 0 then "08:00".toList else "08:01".toList⟩

/-- a deliberately faulting rule used by the fault-handling witness -/
def ruleBoom : Rule := ⟨"boom", 0, [fun _ => true], fun _ => .error "x"⟩

/-! ### Normalizer output properties (C5) -/

/-- no two adjacent whitespace characters -/
def noDoubleWsB : List Char → Bool
  | [] => true
  | [_] => true
  | c1 :: c2 :: r => !(isWsChar c1 && isWsChar c2) && noDoubleWsB (c2 :: r)

def headNonWsB (s : List Char) : Bool :=
  match s.head? with
  | none => true
  | some c => !isWsChar c

def lastNonWsB (s : List Char) : Bool :=
  match s.getLast? with
  | none => true
  | some c => !isWsChar c

def noPunctB (s : List Char) : Bool := s.all fun c => !isPunctChar c

/-- side conditions under which the math handler yields null on `lit ++ rest` -/
def mathNullOk (rest : List Char) : Bool :=
  sepOkB rest && headNonWsB rest &&
  decide ('加' ∉ rest) && decide ('减' ∉ rest) && decide ('乘' ∉ rest) &&
  decide ('除' ∉ rest) && decide ('的' ∉ rest) && decide ('q' ∉ rest) &&
  decide ('b' ∉ rest) &&
  (match rest.head? with
   | none => true
   | some c => !isOpChar c)

/-- side conditions under which the date handler yields null on `lit ++ rest` -/
def dateNullOk (rest : List Char) : Bool :=
  sepOkB rest && headNonWsB rest &&
  (scanWord [['天'], ['日'], ['周'], ['月'], ['年']] rest).isNone

/-- side condition under which the timezone handler yields null: the input does
  not end with 间 (so the city regex cannot match). -/
def tzNullOk (rest : List Char) : Bool :=
  match rest.getLast? with
  | none => false
  | some c => c != '间'

/-- side conditions under which the unit handler yields null on `lit ++ rest` -/
def unitNullOk (rest : List Char) : Bool :=
  sepOkB rest && headNonWsB rest && (scanWord tempWords rest).isNone &&
  (match scanWord lenWords rest with
   | none => true
   | some (u, _) => decide (u ≠ "米".toList) && decide (u ≠ "m".toList))

/-- side conditions under which the currency handler yields null on
  `lit ++ rest` -/
def curNullOk (rest : List Char) : Bool :=
  sepOkB rest && headNonWsB rest &&
  (match scanWord curWords rest with
   | none => true
   | some (u, r) =>
     !r.isEmpty ||
       (decide ((assocGet u currencyMap).getD u ≠ "USD".toList) &&
        decide ((assocGet u currencyMap).getD u ≠ "CNY".toList)))

/-- all characters of the word are neither whitespace nor stripped
  punctuation (so the normalizer is the identity on `lit ++ word`) -/
def wordCleanOk (rest : List Char) : Bool :=
  rest.all fun c => !isWsChar c && !isPunctChar c

/-! ### Square-root safety machinery (C10) -/

/-- the disjunction of the math rule's three dispatch patterns -/
def mathAnyMatch (s : List Char) : Bool := math1Match s || math2Match s || math3Match s

/-- the recognized length units with no computation path (and their symbols) -/
def otherLenUnits : List (List Char) :=
  ["厘米".toList, "千米".toList, "英尺".toList, "英寸".toList,
   "cm".toList, "km".toList, "ft".toList, "in".toList]

/-- the optional trailing words of the unit dispatch pattern -/
def unitSuffixes : List (List Char) := [[], "等于".toList, "转换为".toList]

/-- decidable side condition implying `unit2Match` on `lit ++ rest` -/
def unit2Ok (rest : List Char) : Bool :=
  sepOkB rest && headNonWsB rest &&
  (match scanWord lenWords rest with
   | none => false
   | some (_, r) => optWordEnd [('等' :: '于' :: []), ('转' :: '换' :: '为' :: [])] r)

/-- the four currency words whose mapped source currency is EUR or GBP -/
def eurGbpWords : List (List Char) :=
  [('欧' :: '元' :: []), ('英' :: '镑' :: []),
   ('E' :: 'U' :: 'R' :: []), ('G' :: 'B' :: 'P' :: [])]

/-- A (normalized) input matched by a currency pattern whose source currency
  resolves to EUR or GBP: the amount-then-currency-word scan shared by both
  patterns succeeds with a word mapping (via `currencyMap`, falling back to
  the word itself) to EUR or GBP, and one of the two dispatch patterns
  accepts the whole input. -/
def matchedEurGbp (n : List Char) : Bool :=
  (cur1Match n || cur2Match n) &&
  (match scanNum n with
   | none => false
   | some (_, r1) =>
     match scanWord curWords (skipWs r1) with
     | none => false
     | some (u, _) =>
       decide ((assocGet u currencyMap).getD u = "EUR".toList) ||
       decide ((assocGet u currencyMap).getD u = "GBP".toList))

/-- decidable per-word side conditions of the general currency-family
  analysis: the currency word starts with a non-space non-operator
  non-numeric character, neither it nor the suffix contains 间 or any
  replacement-table character, and those characters are not whitespace -/
def famOkB (u S : List Char) : Bool :=
  (match u.head? with
   | none => false
   | some c => !isWsChar c && !isOpChar c && !isDigitChar c && (c != '.')) &&
  u.all (fun c => c != '间') && S.all (fun c => c != '间') &&
  (('加' :: '减' :: '乘' :: '除' :: '的' :: 'q' :: 'b' :: []).all
    (fun c => decide (c ∉ u) && decide (c ∉ S) && !isWsChar c))

/-! ## Theorems -/

theorem isWsChar_of_digit {c : Char} (h : isDigitChar c = true) : isWsChar c = false := by
  simp [isDigitChar] at h
  simp [isWsChar]
  omega

theorem isPunctChar_of_digit {c : Char} (h : isDigitChar c = true) : isPunctChar c = false := by
  simp [isDigitChar] at h
  simp [isPunctChar]
  omega

theorem ne_dot_of_digit {c : Char} (h : isDigitChar c = true) : c ≠ '.' := by
  intro he
  subst he
  simp [isDigitChar] at h

theorem isOpChar_of_digit {c : Char} (h : isDigitChar c = true) : isOpChar c = false := by
  by_contra hne
  rw [Bool.not_eq_false] at hne
  simp only [isOpChar, Bool.or_eq_true, decide_eq_true_eq] at hne
  rcases hne with ((h1 | h1) | h1) | h1 <;> subst h1 <;> exact absurd h (by decide)

/-! ### List scanning utilities -/

theorem length_dropWhile_le (p : Char → Bool) (l : List Char) :
    (l.dropWhile p).length ≤ l.length := by
  induction l with
  | nil => simp
  | cons a l ih =>
    by_cases h : p a <;> simp [List.dropWhile, h]
    omega

theorem mem_of_head? {c : Char} {s : List Char} (h : s.head? = some c) : c ∈ s := by
  cases s with
  | nil => simp at h
  | cons a l =>
    simp only [List.head?_cons, Option.some.injEq] at h
    subst h
    simp

theorem mem_of_getLast? {c : Char} {s : List Char} (h : s.getLast? = some c) : c ∈ s := by
  have h1 : s.reverse.head? = some c := by rwa [List.head?_reverse]
  have h2 := mem_of_head? h1
  simpa using h2

theorem takeWhile_append_all {p : Char → Bool} {xs : List Char} (ys : List Char)
    (h : ∀ c ∈ xs, p c = true) :
    (xs ++ ys).takeWhile p = xs ++ ys.takeWhile p := by
  induction xs with
  | nil => simp
  | cons a l ih =>
    have ha : p a = true := h a (by simp)
    simp [List.takeWhile, ha]
    exact ih fun c hc => h c (by simp [hc])

theorem dropWhile_append_all {p : Char → Bool} {xs : List Char} (ys : List Char)
    (h : ∀ c ∈ xs, p c = true) :
    (xs ++ ys).dropWhile p = ys.dropWhile p := by
  induction xs with
  | nil => simp
  | cons a l ih =>
    have ha : p a = true := h a (by simp)
    simp [List.dropWhile, ha]
    exact ih fun c hc => h c (by simp [hc])

theorem takeWhile_nil_of_head {p : Char → Bool} {s : List Char}
    (h : ∀ c, s.head? = some c → p c = false) :
    s.takeWhile p = [] := by
  cases s with
  | nil => simp
  | cons a l =>
    have := h a rfl
    simp [List.takeWhile, this]

theorem dropWhile_self_of_head {p : Char → Bool} {s : List Char}
    (h : ∀ c, s.head? = some c → p c = false) :
    s.dropWhile p = s := by
  cases s with
  | nil => simp
  | cons a l =>
    have := h a rfl
    simp [List.dropWhile, this]

/-- `skipWs` is the identity on a list whose head is not whitespace. -/
theorem skipWs_eq_self {s : List Char} (h : ∀ c, s.head? = some c → isWsChar c = false) :
    skipWs s = s :=
  dropWhile_self_of_head h

theorem collapseWsAux_nil (b : Bool) : collapseWsAux b [] = [] := by
  cases b <;> rfl

theorem collapseWsAux_cons_nonws (b : Bool) {c : Char} (rest : List Char)
    (h : isWsChar c = false) :
    collapseWsAux b (c :: rest) = c :: collapseWsAux false rest := by
  cases b <;> simp [collapseWsAux, h]

theorem collapseWsAux_cons_ws {c : Char} (rest : List Char) (h : isWsChar c = true) :
    collapseWsAux false (c :: rest) = ' ' :: collapseWsAux true rest := by
  simp [collapseWsAux, h]

/-- Entering and leaving a run agree when the next character is not whitespace. -/
theorem collapseWsAux_true_eq_false {y : List Char}
    (h : ∀ c, y.head? = some c → isWsChar c = false) :
    collapseWsAux true y = collapseWsAux false y := by
  cases y with
  | nil => rfl
  | cons a l =>
    have := h a rfl
    rw [collapseWsAux_cons_nonws true l this, collapseWsAux_cons_nonws false l this]

theorem collapseWsAux_all_nonws (b : Bool) {s : List Char}
    (h : ∀ c ∈ s, isWsChar c = false) :
    collapseWsAux b s = s := by
  induction s generalizing b with
  | nil => exact collapseWsAux_nil b
  | cons a l ih =>
    rw [collapseWsAux_cons_nonws b l (h a (by simp))]
    rw [ih (b := false) fun c hc => h c (by simp [hc])]

theorem collapseWs_all_nonws {s : List Char} (h : ∀ c ∈ s, isWsChar c = false) :
    collapseWs s = s :=
  collapseWsAux_all_nonws false h

theorem collapseWsAux_append_nonws {xs : List Char} (ys : List Char)
    (h : ∀ c ∈ xs, isWsChar c = false) :
    collapseWsAux false (xs ++ ys) = xs ++ collapseWsAux false ys := by
  induction xs with
  | nil => simp
  | cons a l ih =>
    have ha : isWsChar a = false := h a (by simp)
    rw [List.cons_append, collapseWsAux_cons_nonws false _ ha]
    rw [ih fun c hc => h c (by simp [hc])]
    simp

theorem jsTrim_eq_self {s : List Char}
    (hh : ∀ c, s.head? = some c → isWsChar c = false)
    (hl : ∀ c, s.getLast? = some c → isWsChar c = false) :
    jsTrim s = s := by
  unfold jsTrim
  rw [dropWhile_self_of_head hh]
  rw [dropWhile_self_of_head (by
    intro c hc
    apply hl
    rwa [← List.head?_reverse])]
  simp

theorem stripPunct_eq_self {s : List Char} (h : ∀ c ∈ s, isPunctChar c = false) :
    stripPunct s = s := by
  unfold stripPunct
  rw [List.filter_eq_self.mpr]
  intro a ha
  simp [h a ha]

/-- On a string with no whitespace and no full-width punctuation, the normalizer
  is the identity. -/
theorem preprocessInput_eq_self_of_clean {s : List Char}
    (hw : ∀ c ∈ s, isWsChar c = false) (hp : ∀ c ∈ s, isPunctChar c = false) :
    preprocessInput s = s := by
  unfold preprocessInput
  rw [jsTrim_eq_self (fun c hc => hw c (mem_of_head? hc))
        (fun c hc => hw c (mem_of_getLast? hc)),
      collapseWs_all_nonws hw, stripPunct_eq_self hp]

theorem replaceAllAux_nil (w r : List Char) (fuel : ℕ) :
    replaceAllAux w r fuel [] = [] := by
  cases fuel with
  | zero => rfl
  | succ f =>
    rw [replaceAllAux]
    by_cases hw : w = []
    · subst hw
      simp [List.isPrefixOf]
    · have : w.isPrefixOf ([] : List Char) = false := by
        cases w with
        | nil => simp at hw
        | cons a l => rfl
      simp [this]

theorem isPrefixOf_length_le {w s : List Char} (h : w.isPrefixOf s = true) :
    w.length ≤ s.length := by
  rw [List.isPrefixOf_iff_prefix] at h
  exact h.length_le

theorem replaceAllAux_succ (w r : List Char) (fuel : ℕ) (s : List Char) :
    replaceAllAux w r (fuel + 1) s =
      if w.isPrefixOf s && !w.isEmpty then r ++ replaceAllAux w r fuel (s.drop w.length)
      else
        match s with
        | [] => []
        | c :: rest => c :: replaceAllAux w r fuel rest := rfl

theorem replaceAllAux_fuel (w r : List Char) (f1 : ℕ) :
    ∀ (s : List Char) (f2 : ℕ), s.length ≤ f1 → s.length ≤ f2 →
      replaceAllAux w r f1 s = replaceAllAux w r f2 s := by
  induction f1 with
  | zero =>
    intro s f2 h1 _
    have : s = [] := List.eq_nil_of_length_eq_zero (Nat.le_zero.mp h1)
    subst this
    rw [replaceAllAux_nil, replaceAllAux_nil]
  | succ f ih =>
    intro s f2 h1 h2
    cases s with
    | nil => rw [replaceAllAux_nil, replaceAllAux_nil]
    | cons c rest =>
      cases f2 with
      | zero => simp at h2
      | succ f2' =>
        rw [replaceAllAux_succ, replaceAllAux_succ]
        by_cases hcond : (w.isPrefixOf (c :: rest) && !w.isEmpty) = true
        · rw [if_pos hcond, if_pos hcond]
          have hwlen : 1 ≤ w.length := by
            rcases Bool.and_eq_true_iff.mp hcond with ⟨_, hne⟩
            cases w with
            | nil => simp at hne
            | cons a l => simp
          have hdrop : ((c :: rest).drop w.length).length ≤ f := by
            simp only [List.length_drop, List.length_cons]
            simp only [List.length_cons] at h1
            omega
          have hdrop2 : ((c :: rest).drop w.length).length ≤ f2' := by
            simp only [List.length_drop, List.length_cons]
            simp only [List.length_cons] at h2
            omega
          rw [ih _ _ hdrop hdrop2]
        · rw [if_neg hcond, if_neg hcond]
          have hr1 : rest.length ≤ f := by
            simp only [List.length_cons] at h1
            omega
          have hr2 : rest.length ≤ f2' := by
            simp only [List.length_cons] at h2
            omega
          show c :: replaceAllAux w r f rest = c :: replaceAllAux w r f2' rest
          rw [ih _ _ hr1 hr2]

/-- Unfolding: no match at the head, nonempty input. -/
theorem replaceAll_cons_nomatch {w r : List Char} {c : Char} {rest : List Char}
    (h : (w.isPrefixOf (c :: rest) && !w.isEmpty) = false) :
    replaceAll w r (c :: rest) = c :: replaceAll w r rest := by
  unfold replaceAll
  rw [show (c :: rest).length = rest.length + 1 by simp]
  rw [replaceAllAux_succ, if_neg (by simp [h])]

/-- Unfolding: match at the head. -/
theorem replaceAll_match {w r s : List Char}
    (h : (w.isPrefixOf s && !w.isEmpty) = true) :
    replaceAll w r s = r ++ replaceAll w r (s.drop w.length) := by
  have hwlen : 1 ≤ w.length := by
    rcases Bool.and_eq_true_iff.mp h with ⟨_, hne⟩
    cases w with
    | nil => simp at hne
    | cons a l => simp
  have hple : w.length ≤ s.length := isPrefixOf_length_le (Bool.and_eq_true_iff.mp h).1
  unfold replaceAll
  cases hs : s.length with
  | zero =>
    exfalso
    have : s = [] := List.eq_nil_of_length_eq_zero hs
    subst this
    simp only [List.length_nil] at hple
    omega
  | succ n =>
    rw [replaceAllAux_succ, if_pos h]
    congr 1
    apply replaceAllAux_fuel
    · simp only [List.length_drop]
      omega
    · simp [List.length_drop]

theorem replaceAll_nil (w r : List Char) : replaceAll w r [] = [] := by
  unfold replaceAll
  exact replaceAllAux_nil w r 0

theorem NumLit.wf_int_ne {L : NumLit} (h : L.wfB = true) : L.intPart ≠ [] := by
  unfold NumLit.wfB at h
  simp only [Bool.and_eq_true, Bool.not_eq_true', List.isEmpty_eq_false] at h
  exact h.1.1

theorem NumLit.wf_int_digits {L : NumLit} (h : L.wfB = true) :
    ∀ c ∈ L.intPart, isDigitChar c = true := by
  unfold NumLit.wfB at h
  simp only [Bool.and_eq_true, List.all_eq_true] at h
  exact fun c hc => h.1.2 c hc

theorem NumLit.wf_frac {L : NumLit} (h : L.wfB = true) :
    ∀ f, L.fracPart = some f → f ≠ [] ∧ ∀ c ∈ f, isDigitChar c = true := by
  intro f hf
  unfold NumLit.wfB at h
  rw [hf] at h
  simp only [Bool.and_eq_true, Bool.not_eq_true', List.isEmpty_eq_false,
    List.all_eq_true] at h
  exact ⟨h.2.1, fun c hc => h.2.2 c hc⟩

theorem NumLit.chars_head {L : NumLit} (h : L.wfB = true) :
    ∃ d, L.chars.head? = some d ∧ isDigitChar d = true := by
  unfold NumLit.chars
  cases hi : L.intPart with
  | nil => exact absurd hi (L.wf_int_ne h)
  | cons a l =>
    refine ⟨a, by simp, ?_⟩
    have := L.wf_int_digits h
    rw [hi] at this
    exact this a (by simp)

/-- every character of a literal is a digit or the decimal dot -/
theorem NumLit.chars_classes {L : NumLit} (h : L.wfB = true) :
    ∀ c ∈ L.chars, isDigitChar c = true ∨ c = '.' := by
  intro c hc
  unfold NumLit.chars at hc
  rcases List.mem_append.mp hc with hci | hcf
  · exact Or.inl (L.wf_int_digits h c hci)
  · unfold NumLit.fracChars at hcf
    cases hf : L.fracPart with
    | none => rw [hf] at hcf; simp at hcf
    | some f =>
      rw [hf] at hcf
      rcases List.mem_cons.mp hcf with he | hmem
      · exact Or.inr he
      · exact Or.inl ((L.wf_frac h f hf).2 c hmem)

/-- no whitespace and no stripped punctuation in a literal -/
theorem NumLit.chars_clean {L : NumLit} (h : L.wfB = true) :
    ∀ c ∈ L.chars, isWsChar c = false ∧ isPunctChar c = false := by
  intro c hc
  rcases L.chars_classes h c hc with hd | he
  · exact ⟨isWsChar_of_digit hd, isPunctChar_of_digit hd⟩
  · subst he
    exact ⟨by decide, by decide⟩

theorem getLast?_of_ne_nil {s : List Char} (h : s ≠ []) : ∃ d, s.getLast? = some d := by
  cases hs : s with
  | nil => exact absurd hs h
  | cons a l => exact ⟨(a :: l).getLast (by simp), List.getLast?_eq_getLast _ (by simp)⟩

theorem NumLit.chars_last {L : NumLit} (h : L.wfB = true) :
    ∃ d, L.chars.getLast? = some d ∧ isDigitChar d = true := by
  cases hf : L.fracPart with
  | none =>
    have hchars : L.chars = L.intPart := by
      unfold NumLit.chars NumLit.fracChars
      rw [hf]
      simp
    obtain ⟨d, hd⟩ := getLast?_of_ne_nil (L.wf_int_ne h)
    exact ⟨d, by rw [hchars]; exact hd, L.wf_int_digits h d (mem_of_getLast? hd)⟩
  | some f =>
    have hfne := (L.wf_frac h f hf).1
    have hchars : L.chars = L.intPart ++ '.' :: f := by
      unfold NumLit.chars NumLit.fracChars
      rw [hf]
    obtain ⟨d, hd⟩ := getLast?_of_ne_nil hfne
    refine ⟨d, ?_, (L.wf_frac h f hf).2 d (mem_of_getLast? hd)⟩
    rw [hchars, List.getLast?_append_of_ne_nil _ (by simp)]
    rw [show ('.' :: f : List Char) = ['.'] ++ f by simp,
        List.getLast?_append_of_ne_nil _ hfne]
    exact hd

theorem sepOk_head_digit {rest : List Char} (h : sepOkB rest = true) :
    ∀ c, rest.head? = some c → isDigitChar c = false := by
  intro c hc
  unfold sepOkB at h
  rw [hc] at h
  simp only [Bool.and_eq_true, Bool.not_eq_true'] at h
  exact h.1

theorem sepOk_head_dot {rest : List Char} (h : sepOkB rest = true) :
    ∀ c, rest.head? = some c → c ≠ '.' := by
  intro c hc
  unfold sepOkB at h
  rw [hc] at h
  simp only [Bool.and_eq_true, bne_iff_ne] at h
  exact h.2

/-! ### Scanner lemmas on literal-headed strings -/

theorem scanNum_none_of_head {s : List Char}
    (h : ∀ c, s.head? = some c → isDigitChar c = false) :
    scanNum s = none := by
  unfold scanNum
  rw [takeWhile_nil_of_head h]
  simp

theorem scanDigits_none_of_head {s : List Char}
    (h : ∀ c, s.head? = some c → isDigitChar c = false) :
    scanDigits s = none := by
  unfold scanDigits
  rw [takeWhile_nil_of_head h]
  simp

/-- Greedy `\d+(?:\.\d+)?` consumes exactly an abstract literal when the rest
  starts with neither a digit nor a dot. -/
theorem scanNum_lit (L : NumLit) (hL : L.wfB = true) (rest : List Char)
    (hr : sepOkB rest = true) :
    scanNum (L.chars ++ rest) = some (L.chars, rest) := by
  have hdig := L.wf_int_digits hL
  have hne2 : L.intPart.isEmpty = false := List.isEmpty_eq_false.mpr (L.wf_int_ne hL)
  cases hf : L.fracPart with
  | none =>
    have hchars : L.chars = L.intPart := by
      unfold NumLit.chars NumLit.fracChars
      rw [hf]
      simp
    rw [hchars]
    have h3 := takeWhile_nil_of_head (sepOk_head_digit hr)
    have h4 := dropWhile_self_of_head (sepOk_head_digit hr)
    cases rest with
    | nil =>
      have ht : List.takeWhile isDigitChar L.intPart = L.intPart := by
        have h0 := takeWhile_append_all (p := isDigitChar) ([] : List Char) hdig
        simpa using h0
      have hdd : List.dropWhile isDigitChar L.intPart = [] := by
        have h0 := dropWhile_append_all (p := isDigitChar) ([] : List Char) hdig
        simpa using h0
      simp only [scanNum, List.append_nil, ht, hdd, hne2]
      simp
    | cons c r2 =>
      have hcd : c ≠ '.' := sepOk_head_dot hr c rfl
      simp only [scanNum,
        takeWhile_append_all (p := isDigitChar) (c :: r2) hdig,
        dropWhile_append_all (p := isDigitChar) (c :: r2) hdig, h3, h4,
        List.append_nil]
      simp [hne2, hcd]
  | some f =>
    have hfne := (L.wf_frac hL f hf).1
    have hfd := (L.wf_frac hL f hf).2
    have hfne3 : f.isEmpty = false := List.isEmpty_eq_false.mpr hfne
    have hchars : L.chars ++ rest = L.intPart ++ '.' :: (f ++ rest) := by
      unfold NumLit.chars NumLit.fracChars
      rw [hf]
      simp
    have hchars2 : L.chars = L.intPart ++ '.' :: f := by
      unfold NumLit.chars NumLit.fracChars
      rw [hf]
    rw [hchars, hchars2]
    have h3 := takeWhile_nil_of_head (sepOk_head_digit hr)
    have h4 := dropWhile_self_of_head (sepOk_head_digit hr)
    simp only [scanNum,
      takeWhile_append_all (p := isDigitChar) ('.' :: (f ++ rest)) hdig,
      dropWhile_append_all (p := isDigitChar) ('.' :: (f ++ rest)) hdig]
    simp [List.takeWhile_cons, List.dropWhile_cons,
      (by decide : isDigitChar '.' = false), hne2,
      takeWhile_append_all (p := isDigitChar) rest hfd,
      dropWhile_append_all (p := isDigitChar) rest hfd, h3, h4, hfne3]

/-- Greedy `\d+` consumes exactly the integer part of an abstract literal. -/
theorem scanDigits_lit (L : NumLit) (hL : L.wfB = true) (rest : List Char)
    (hr : sepOkB rest = true) :
    scanDigits (L.chars ++ rest) = some (L.intPart, L.fracChars ++ rest) := by
  have hdig := L.wf_int_digits hL
  unfold NumLit.chars
  rw [List.append_assoc]
  unfold scanDigits
  rw [takeWhile_append_all (L.fracChars ++ rest) hdig,
      dropWhile_append_all (L.fracChars ++ rest) hdig]
  have hstop : ∀ c, (L.fracChars ++ rest).head? = some c → isDigitChar c = false := by
    intro c hc
    cases hf : L.fracPart with
    | none =>
      have : L.fracChars = [] := by unfold NumLit.fracChars; rw [hf]
      rw [this] at hc
      simp only [List.nil_append] at hc
      exact sepOk_head_digit hr c hc
    | some f =>
      have : L.fracChars = '.' :: f := by unfold NumLit.fracChars; rw [hf]
      rw [this] at hc
      simp only [List.cons_append, List.head?_cons, Option.some.injEq] at hc
      subst hc
      decide
  rw [takeWhile_nil_of_head hstop, dropWhile_self_of_head hstop]
  have hne2 : L.intPart.isEmpty = false := List.isEmpty_eq_false.mpr (L.wf_int_ne hL)
  rw [if_neg (by simp [hne2])]
  simp

/-! ### Word alternation lemmas -/

theorem scanWord_none (ws : List (List Char)) (s : List Char)
    (h : ∀ w ∈ ws, w.isPrefixOf s = false) :
    scanWord ws s = none := by
  induction ws with
  | nil => rfl
  | cons w rest ih =>
    unfold scanWord
    rw [if_neg (by simp [h w (by simp)])]
    exact ih fun w2 hw2 => h w2 (by simp [hw2])

theorem isPrefixOf_false_of_head {w s : List Char} {cw c : Char}
    (hw : w.head? = some cw) (hs : s.head? = some c) (hne : cw ≠ c) :
    w.isPrefixOf s = false := by
  cases w with
  | nil => simp at hw
  | cons a wl =>
    cases s with
    | nil => simp at hs
    | cons b sl =>
      simp only [List.head?_cons, Option.some.injEq] at hw hs
      subst hw
      subst hs
      simp only [List.isPrefixOf_cons₂]
      simp [hne]

/-! ### Dispatch-loop lemmas -/

theorem tryPatterns_handler_none {hnd : List Char → Except String (Option Result)}
    {input : List Char} (ps : List (List Char → Bool)) (h : hnd input = .ok none) :
    tryPatterns hnd ps input = none := by
  induction ps with
  | nil => rfl
  | cons p rest ih =>
    unfold tryPatterns
    by_cases hp : p input = true
    · rw [if_pos hp, h]
      exact ih
    · rw [if_neg (by simp [hp])]
      exact ih

theorem tryPatterns_handler_error {hnd : List Char → Except String (Option Result)}
    {input : List Char} {e : String} (ps : List (List Char → Bool))
    (h : hnd input = .error e) :
    tryPatterns hnd ps input = none := by
  induction ps with
  | nil => rfl
  | cons p rest ih =>
    unfold tryPatterns
    by_cases hp : p input = true
    · rw [if_pos hp, h]
      exact ih
    · rw [if_neg (by simp [hp])]
      exact ih

theorem tryPatterns_all_false {hnd : List Char → Except String (Option Result)}
    {input : List Char} (ps : List (List Char → Bool))
    (h : ∀ p ∈ ps, p input = false) :
    tryPatterns hnd ps input = none := by
  induction ps with
  | nil => rfl
  | cons p rest ih =>
    unfold tryPatterns
    rw [if_neg (by simp [h p (by simp)])]
    exact ih fun p2 hp2 => h p2 (by simp [hp2])

theorem tryPatterns_hit {hnd : List Char → Except String (Option Result)}
    {input : List Char} {r : Result} (ps : List (List Char → Bool))
    (hres : hnd input = .ok (some r)) (hex : ∃ p ∈ ps, p input = true) :
    tryPatterns hnd ps input = some r := by
  induction ps with
  | nil => simp at hex
  | cons p rest ih =>
    unfold tryPatterns
    by_cases hp : p input = true
    · rw [if_pos hp, hres]
    · rw [if_neg (by simp [hp])]
      apply ih
      rcases hex with ⟨p2, hp2, hp2t⟩
      rcases List.mem_cons.mp hp2 with he | hmem
      · subst he
        exact absurd hp2t hp
      · exact ⟨p2, hmem, hp2t⟩

theorem tryRules_cons_none {r : Rule} {rs : List Rule} {input : List Char}
    (h : tryPatterns r.handler r.patterns input = none) :
    tryRules (r :: rs) input = tryRules rs input := by
  conv_lhs => rw [tryRules]
  rw [h]

theorem tryRules_cons_some {r : Rule} {rs : List Rule} {input : List Char} {res : Result}
    (h : tryPatterns r.handler r.patterns input = some res) :
    tryRules (r :: rs) input = some res := by
  conv_lhs => rw [tryRules]
  rw [h]

theorem processWith_hit {rules : List Rule} {cache : Cache} {input : List Char} {r : Result}
    (h : assocGet (preprocessInput input) cache = some r) :
    processWith rules cache input = (some r, cache) := by
  simp only [processWith, h]

theorem processWith_miss_some {rules : List Rule} {cache : Cache} {input : List Char}
    {r : Result} (hm : assocGet (preprocessInput input) cache = none)
    (ht : tryRules rules (preprocessInput input) = some r) :
    processWith rules cache input = (some r, cacheSet (preprocessInput input) r cache) := by
  simp only [processWith, hm, ht]

theorem processWith_miss_none {rules : List Rule} {cache : Cache} {input : List Char}
    (hm : assocGet (preprocessInput input) cache = none)
    (ht : tryRules rules (preprocessInput input) = none) :
    processWith rules cache input = (none, cache) := by
  simp only [processWith, hm, ht]

theorem assocGet_cacheSet {key : List Char} {v : Result} {c : Cache} :
    assocGet key (cacheSet key v c) = some v := by
  unfold cacheSet assocGet
  simp

theorem assocGet_none_of_digit_head {α : Type} {key : List Char} {d : Char}
    (hk : key.head? = some d) (hd : isDigitChar d = true)
    (table : List (List Char × α))
    (h : table.all (fun kv => match kv.1.head? with
        | some c => !isDigitChar c
        | none => true) = true) :
    assocGet key table = none := by
  induction table with
  | nil => rfl
  | cons kv rest ih =>
    rw [List.all_cons, Bool.and_eq_true] at h
    unfold assocGet
    have hne : kv.1 ≠ key := by
      intro he
      have hkv := h.1
      rw [he, hk] at hkv
      simp only [hd, Bool.not_true] at hkv
      exact Bool.noConfusion hkv
    rw [if_neg hne]
    exact ih h.2

/-! ### Replacement lemmas -/

theorem mem_of_isPrefixOf {w s : List Char} {c : Char}
    (h : w.isPrefixOf s = true) (hc : c ∈ w) : c ∈ s := by
  rw [List.isPrefixOf_iff_prefix] at h
  exact h.sublist.subset hc

/-- A word containing a character absent from `s` never occurs in `s`. -/
theorem containsSub_false_of_not_mem {w s : List Char} {c : Char}
    (hcw : c ∈ w) (hcs : c ∉ s) : containsSub w s = false := by
  induction s with
  | nil =>
    unfold containsSub
    cases w with
    | nil => simp at hcw
    | cons a l => rfl
  | cons b rest ih =>
    unfold containsSub
    have hp : w.isPrefixOf (b :: rest) = false := by
      by_contra hh
      rw [Bool.not_eq_false] at hh
      exact hcs (mem_of_isPrefixOf hh hcw)
    rw [hp]
    simp only [Bool.false_or]
    exact ih fun hm => hcs (by simp [hm])

/-- Replacement is the identity on a string missing one of the word's characters. -/
theorem replaceAll_id {w r s : List Char} {c : Char}
    (hcw : c ∈ w) (hcs : c ∉ s) : replaceAll w r s = s := by
  induction s with
  | nil => exact replaceAll_nil w r
  | cons b rest ih =>
    have hp : w.isPrefixOf (b :: rest) = false := by
      by_contra hh
      rw [Bool.not_eq_false] at hh
      exact hcs (mem_of_isPrefixOf hh hcw)
    rw [replaceAll_cons_nomatch (by simp [hp])]
    rw [ih fun hm => hcs (by simp [hm])]

/-- Replacing a single occurrence sitting between a prefix that lacks the
  word's head character and an arbitrary suffix. -/
theorem replaceAll_boundary {w r x y : List Char} {ch : Char}
    (hw : w.head? = some ch) (hx : ch ∉ x) :
    replaceAll w r (x ++ w ++ y) = x ++ r ++ replaceAll w r y := by
  induction x with
  | nil =>
    simp only [List.nil_append]
    have hne : w ≠ [] := by
      cases w with
      | nil => simp at hw
      | cons a l => simp
    have hpre : w.isPrefixOf (w ++ y) = true := by
      rw [List.isPrefixOf_iff_prefix]
      exact List.prefix_append w y
    rw [replaceAll_match (by simp [hpre, hne])]
    rw [List.drop_left]
  | cons b xr ih =>
    have hbch : ch ≠ b := fun he => hx (by simp [he])
    have hp : w.isPrefixOf (b :: (xr ++ (w ++ y))) = false :=
      isPrefixOf_false_of_head hw rfl hbch
    simp only [List.cons_append, List.append_assoc]
    rw [replaceAll_cons_nomatch (by simp [hp])]
    have ih2 := ih fun hm => hx (by simp [hm])
    simp only [List.append_assoc] at ih2
    rw [ih2]

/-- `applyReps` unfolded to the six ordered replacements. -/
theorem applyReps_eq (s : List Char) :
    applyReps s =
      replaceAll ('的' :: '立' :: '方' :: '根' :: []) ('c' :: 'b' :: 'r' :: 't' :: [])
        (replaceAll ('的' :: '平' :: '方' :: '根' :: []) ('s' :: 'q' :: 'r' :: 't' :: [])
          (replaceAll ['除'] ['/'] (replaceAll ['乘'] ['*']
            (replaceAll ['减'] ['-'] (replaceAll ['加'] ['+'] s))))) := rfl

/-- On a string containing none of 加减乘除的, the replacement pass is the
  identity. -/
theorem applyReps_clean {s : List Char} (h : ∀ c ∈ repHeadChars, c ∉ s) :
    applyReps s = s := by
  rw [applyReps_eq]
  rw [replaceAll_id (c := '加') (by simp) (h '加' (by simp [repHeadChars]))]
  rw [replaceAll_id (c := '减') (by simp) (h '减' (by simp [repHeadChars]))]
  rw [replaceAll_id (c := '乘') (by simp) (h '乘' (by simp [repHeadChars]))]
  rw [replaceAll_id (c := '除') (by simp) (h '除' (by simp [repHeadChars]))]
  rw [replaceAll_id (c := '的') (by simp) (h '的' (by simp [repHeadChars]))]
  rw [replaceAll_id (c := '的') (by simp) (h '的' (by simp [repHeadChars]))]

theorem spc_false : spc false = [] := rfl

theorem spc_true : spc true = [' '] := rfl

theorem spc_classes (b : Bool) : ∀ x ∈ spc b, x = ' ' := by
  cases b <;> simp [spc]

theorem mkBin_classes {a b : NumLit} (ha : a.wfB = true) (hb : b.wfB = true)
    (op : Char) (s1 s2 : Bool) :
    ∀ x ∈ mkBin a op s1 s2 b,
      isDigitChar x = true ∨ x = '.' ∨ x = ' ' ∨ x = op := by
  intro x hx
  unfold mkBin at hx
  simp only [List.append_assoc, List.mem_append, List.mem_cons] at hx
  rcases hx with h1 | h1 | h1 | h1 | h1
  · rcases a.chars_classes ha x h1 with h | h
    · exact Or.inl h
    · exact Or.inr (Or.inl h)
  · exact Or.inr (Or.inr (Or.inl (spc_classes s1 x h1)))
  · exact Or.inr (Or.inr (Or.inr h1))
  · exact Or.inr (Or.inr (Or.inl (spc_classes s2 x h1)))
  · rcases b.chars_classes hb x h1 with h | h
    · exact Or.inl h
    · exact Or.inr (Or.inl h)

theorem not_mem_mkBin {a b : NumLit} (ha : a.wfB = true) (hb : b.wfB = true)
    {op : Char} {s1 s2 : Bool} {c : Char}
    (h1 : isDigitChar c = false) (h2 : c ≠ '.') (h3 : c ≠ ' ') (h4 : c ≠ op) :
    c ∉ mkBin a op s1 s2 b := by
  intro hm
  rcases mkBin_classes ha hb op s1 s2 c hm with h | h | h | h
  · rw [h] at h1
    exact Bool.noConfusion h1
  · exact h2 h
  · exact h3 h
  · exact h4 h

/-- `skipWs` jumps over an optional single space onto a non-whitespace head. -/
theorem skipWs_spc {t : List Char} (sp : Bool)
    (ht : ∀ c, t.head? = some c → isWsChar c = false) :
    skipWs (spc sp ++ t) = t := by
  cases sp with
  | false =>
    simp only [spc, List.nil_append]
    exact skipWs_eq_self ht
  | true =>
    simp only [spc, List.cons_append, skipWs, List.dropWhile]
    rw [show isWsChar ' ' = true from by decide]
    simp only []
    exact dropWhile_self_of_head ht

theorem mkBin_decomp (a : NumLit) (op : Char) (s1 s2 : Bool) (b : NumLit) :
    mkBin a op s1 s2 b = (a.chars ++ spc s1) ++ [op] ++ (spc s2 ++ b.chars) := by
  simp [mkBin]

theorem not_mem_concat3 {x y : List Char} {m c : Char}
    (hx : c ∉ x) (hm : c ≠ m) (hy : c ∉ y) : c ∉ x ++ [m] ++ y := by
  intro h
  simp only [List.append_assoc, List.mem_append, List.mem_cons, List.not_mem_nil,
    or_false] at h
  rcases h with h | h | h
  exacts [hx h, hm h, hy h]

theorem not_mem_left_side {a : NumLit} (ha : a.wfB = true) (s1 : Bool) {c : Char}
    (h1 : isDigitChar c = false) (h2 : c ≠ '.') (h3 : c ≠ ' ') :
    c ∉ a.chars ++ spc s1 := by
  intro hm
  rcases List.mem_append.mp hm with h | h
  · rcases a.chars_classes ha c h with hd | hd
    · rw [hd] at h1
      exact Bool.noConfusion h1
    · exact h2 hd
  · exact h3 (spc_classes s1 c h)

theorem not_mem_right_side {b : NumLit} (hb : b.wfB = true) (s2 : Bool) {c : Char}
    (h1 : isDigitChar c = false) (h2 : c ≠ '.') (h3 : c ≠ ' ') :
    c ∉ spc s2 ++ b.chars := by
  intro hm
  rcases List.mem_append.mp hm with h | h
  · exact h3 (spc_classes s2 c h)
  · rcases b.chars_classes hb c h with hd | hd
    · rw [hd] at h1
      exact Bool.noConfusion h1
    · exact h2 hd

/-- On a symbolic-operator input the Chinese-operator replacement pass is the
  identity. -/
theorem applyReps_mkBin_sym {a b : NumLit} (ha : a.wfB = true) (hb : b.wfB = true)
    (o : AOp) (s1 s2 : Bool) :
    applyReps (mkBin a (opSym o) s1 s2 b) = mkBin a (opSym o) s1 s2 b := by
  apply applyReps_clean
  intro c hc
  simp only [repHeadChars, List.mem_cons, List.not_mem_nil, or_false] at hc
  rcases hc with h | h | h | h | h <;> subst h <;>
    exact not_mem_mkBin ha hb (by decide) (by decide) (by decide) (by cases o <;> decide)

/-- On a Chinese-operator input the replacement pass translates the operator
  to its symbol and changes nothing else. -/
theorem applyReps_mkBin_cn {a b : NumLit} (ha : a.wfB = true) (hb : b.wfB = true)
    (o : AOp) (s1 s2 : Bool) :
    applyReps (mkBin a (opCN o) s1 s2 b) = mkBin a (opSym o) s1 s2 b := by
  have hX := fun (c : Char) h1 h2 h3 => not_mem_left_side ha s1 (c := c) h1 h2 h3
  have hY := fun (c : Char) h1 h2 h3 => not_mem_right_side hb s2 (c := c) h1 h2 h3
  rw [mkBin_decomp, mkBin_decomp, applyReps_eq]
  cases o with
  | add =>
    simp only [opCN, opSym]
    rw [replaceAll_boundary (w := ['加']) rfl (hX '加' (by decide) (by decide) (by decide)),
      replaceAll_id (c := '加') (by simp) (hY '加' (by decide) (by decide) (by decide)),
      replaceAll_id (c := '减') (by simp)
        (not_mem_concat3 (hX '减' (by decide) (by decide) (by decide)) (by decide)
          (hY '减' (by decide) (by decide) (by decide))),
      replaceAll_id (c := '乘') (by simp)
        (not_mem_concat3 (hX '乘' (by decide) (by decide) (by decide)) (by decide)
          (hY '乘' (by decide) (by decide) (by decide))),
      replaceAll_id (c := '除') (by simp)
        (not_mem_concat3 (hX '除' (by decide) (by decide) (by decide)) (by decide)
          (hY '除' (by decide) (by decide) (by decide))),
      replaceAll_id (c := '的') (by simp)
        (not_mem_concat3 (hX '的' (by decide) (by decide) (by decide)) (by decide)
          (hY '的' (by decide) (by decide) (by decide))),
      replaceAll_id (c := '的') (by simp)
        (not_mem_concat3 (hX '的' (by decide) (by decide) (by decide)) (by decide)
          (hY '的' (by decide) (by decide) (by decide)))]
  | sub =>
    simp only [opCN, opSym]
    rw [replaceAll_id (c := '加') (by simp)
        (not_mem_concat3 (hX '加' (by decide) (by decide) (by decide)) (by decide)
          (hY '加' (by decide) (by decide) (by decide))),
      replaceAll_boundary (w := ['减']) rfl (hX '减' (by decide) (by decide) (by decide)),
      replaceAll_id (c := '减') (by simp) (hY '减' (by decide) (by decide) (by decide)),
      replaceAll_id (c := '乘') (by simp)
        (not_mem_concat3 (hX '乘' (by decide) (by decide) (by decide)) (by decide)
          (hY '乘' (by decide) (by decide) (by decide))),
      replaceAll_id (c := '除') (by simp)
        (not_mem_concat3 (hX '除' (by decide) (by decide) (by decide)) (by decide)
          (hY '除' (by decide) (by decide) (by decide))),
      replaceAll_id (c := '的') (by simp)
        (not_mem_concat3 (hX '的' (by decide) (by decide) (by decide)) (by decide)
          (hY '的' (by decide) (by decide) (by decide))),
      replaceAll_id (c := '的') (by simp)
        (not_mem_concat3 (hX '的' (by decide) (by decide) (by decide)) (by decide)
          (hY '的' (by decide) (by decide) (by decide)))]
  | mul =>
    simp only [opCN, opSym]
    rw [replaceAll_id (c := '加') (by simp)
        (not_mem_concat3 (hX '加' (by decide) (by decide) (by decide)) (by decide)
          (hY '加' (by decide) (by decide) (by decide))),
      replaceAll_id (c := '减') (by simp)
        (not_mem_concat3 (hX '减' (by decide) (by decide) (by decide)) (by decide)
          (hY '减' (by decide) (by decide) (by decide))),
      replaceAll_boundary (w := ['乘']) rfl (hX '乘' (by decide) (by decide) (by decide)),
      replaceAll_id (c := '乘') (by simp) (hY '乘' (by decide) (by decide) (by decide)),
      replaceAll_id (c := '除') (by simp)
        (not_mem_concat3 (hX '除' (by decide) (by decide) (by decide)) (by decide)
          (hY '除' (by decide) (by decide) (by decide))),
      replaceAll_id (c := '的') (by simp)
        (not_mem_concat3 (hX '的' (by decide) (by decide) (by decide)) (by decide)
          (hY '的' (by decide) (by decide) (by decide))),
      replaceAll_id (c := '的') (by simp)
        (not_mem_concat3 (hX '的' (by decide) (by decide) (by decide)) (by decide)
          (hY '的' (by decide) (by decide) (by decide)))]
  | div =>
    simp only [opCN, opSym]
    rw [replaceAll_id (c := '加') (by simp)
        (not_mem_concat3 (hX '加' (by decide) (by decide) (by decide)) (by decide)
          (hY '加' (by decide) (by decide) (by decide))),
      replaceAll_id (c := '减') (by simp)
        (not_mem_concat3 (hX '减' (by decide) (by decide) (by decide)) (by decide)
          (hY '减' (by decide) (by decide) (by decide))),
      replaceAll_id (c := '乘') (by simp)
        (not_mem_concat3 (hX '乘' (by decide) (by decide) (by decide)) (by decide)
          (hY '乘' (by decide) (by decide) (by decide))),
      replaceAll_boundary (w := ['除']) rfl (hX '除' (by decide) (by decide) (by decide)),
      replaceAll_id (c := '除') (by simp) (hY '除' (by decide) (by decide) (by decide)),
      replaceAll_id (c := '的') (by simp)
        (not_mem_concat3 (hX '的' (by decide) (by decide) (by decide)) (by decide)
          (hY '的' (by decide) (by decide) (by decide))),
      replaceAll_id (c := '的') (by simp)
        (not_mem_concat3 (hX '的' (by decide) (by decide) (by decide)) (by decide)
          (hY '的' (by decide) (by decide) (by decide)))]

theorem ne_nil_of_head? {s : List Char} {c : Char} (h : s.head? = some c) : s ≠ [] := by
  cases s with
  | nil => simp at h
  | cons a l => simp

/-- The normalizer is the identity on any binary-arithmetic surface form
  whose operator character is neither whitespace nor stripped punctuation. -/
theorem preprocess_mkBin {a b : NumLit} (ha : a.wfB = true) (hb : b.wfB = true)
    (op : Char) (s1 s2 : Bool) (hw : isWsChar op = false) (hp : isPunctChar op = false) :
    preprocessInput (mkBin a op s1 s2 b) = mkBin a op s1 s2 b := by
  obtain ⟨da, hda, hdiga⟩ := a.chars_head ha
  obtain ⟨db, hdb, hdigb⟩ := b.chars_last hb
  obtain ⟨db0, hdb0, hdigb0⟩ := b.chars_head hb
  have hbne : b.chars ≠ [] := ne_nil_of_head? hdb0
  have hane : a.chars ≠ [] := ne_nil_of_head? hda
  have hhead : ∀ c, (mkBin a op s1 s2 b).head? = some c → isWsChar c = false := by
    intro c hc
    unfold mkBin at hc
    rw [List.append_assoc, List.head?_append_of_ne_nil _ hane] at hc
    rw [hda] at hc
    cases hc
    exact isWsChar_of_digit hdiga
  have hdecomp2 : mkBin a op s1 s2 b = (a.chars ++ spc s1 ++ op :: spc s2) ++ b.chars := by
    simp [mkBin]
  have hlast : ∀ c, (mkBin a op s1 s2 b).getLast? = some c → isWsChar c = false := by
    intro c hc
    rw [hdecomp2, List.getLast?_append_of_ne_nil _ hbne, hdb] at hc
    cases hc
    exact isWsChar_of_digit hdigb
  have hb_ws : ∀ c, b.chars.head? = some c → isWsChar c = false := by
    intro c hc
    rw [hdb0] at hc
    cases hc
    exact isWsChar_of_digit hdigb0
  have hcol : collapseWs (mkBin a op s1 s2 b) = mkBin a op s1 s2 b := by
    unfold mkBin collapseWs
    simp only [List.append_assoc]
    rw [collapseWsAux_append_nonws _ (fun c hc => (a.chars_clean ha c hc).1)]
    have htail : collapseWsAux false (op :: (spc s2 ++ b.chars))
        = op :: (spc s2 ++ b.chars) := by
      rw [collapseWsAux_cons_nonws false _ hw]
      cases s2 with
      | false =>
        simp only [spc_false, List.nil_append]
        rw [collapseWsAux_all_nonws false (fun c hc => (b.chars_clean hb c hc).1)]
      | true =>
        simp only [spc_true, List.cons_append, List.nil_append]
        rw [collapseWsAux_cons_ws _ (by decide)]
        rw [collapseWsAux_true_eq_false hb_ws]
        rw [collapseWsAux_all_nonws false (fun c hc => (b.chars_clean hb c hc).1)]
    cases s1 with
    | false =>
      simp only [spc_false, List.nil_append]
      rw [htail]
    | true =>
      simp only [spc_true, List.cons_append, List.nil_append]
      rw [collapseWsAux_cons_ws _ (by decide)]
      have h5 : collapseWsAux true (op :: (spc s2 ++ b.chars))
          = collapseWsAux false (op :: (spc s2 ++ b.chars)) :=
        collapseWsAux_true_eq_false (by
          intro c hc
          simp only [List.head?_cons, Option.some.injEq] at hc
          subst hc
          exact hw)
      rw [h5, htail]
  unfold preprocessInput
  rw [jsTrim_eq_self hhead hlast, hcol]
  apply stripPunct_eq_self
  intro c hc
  rcases mkBin_classes ha hb op s1 s2 c hc with h | h | h | h
  · exact isPunctChar_of_digit h
  · subst h
    decide
  · subst h
    decide
  · subst h
    exact hp

/-- `basicScan` (the handler's `basicMatch`) captures exactly the two literals
  and the operator of a symbolic binary input. -/
theorem basicScan_mkBin {a b : NumLit} (ha : a.wfB = true) (hb : b.wfB = true)
    (o : AOp) (s1 s2 : Bool) :
    basicScan (mkBin a (opSym o) s1 s2 b) = some (a.chars, opSym o, b.chars) := by
  obtain ⟨db0, hdb0, hdigb0⟩ := b.chars_head hb
  have hb_ws : ∀ c, b.chars.head? = some c → isWsChar c = false := by
    intro c hc
    rw [hdb0] at hc
    cases hc
    exact isWsChar_of_digit hdigb0
  have hop_ws : ∀ c, (opSym o :: (spc s2 ++ b.chars)).head? = some c → isWsChar c = false := by
    intro c hc
    simp only [List.head?_cons, Option.some.injEq] at hc
    subst hc
    cases o <;> decide
  have hsep : sepOkB (spc s1 ++ (opSym o :: (spc s2 ++ b.chars))) = true := by
    cases s1 with
    | true => simp +decide [spc, sepOkB]
    | false => cases o <;> simp +decide [spc, sepOkB]
  have hopc : isOpChar (opSym o) = true := by cases o <;> decide
  have hb2 : scanNum b.chars = some (b.chars, []) := by
    have h0 := scanNum_lit b hb [] (by decide)
    simpa using h0
  unfold mkBin
  simp only [basicScan, List.append_assoc, scanNum_lit a ha _ hsep,
    skipWs_spc s1 hop_ws, hopc, skipWs_spc s2 hb_ws, hb2, List.isEmpty_nil, if_true]

/-- On a Chinese-operator input the handler's `basicMatch` does not apply
  directly (the operator is not in the symbol class). -/
theorem basicScan_mkBin_cn {a b : NumLit} (ha : a.wfB = true) (_hb : b.wfB = true)
    (o : AOp) (s1 s2 : Bool) :
    basicScan (mkBin a (opCN o) s1 s2 b) = none := by
  have hop_ws : ∀ c, (opCN o :: (spc s2 ++ b.chars)).head? = some c → isWsChar c = false := by
    intro c hc
    simp only [List.head?_cons, Option.some.injEq] at hc
    subst hc
    cases o <;> decide
  have hsep : sepOkB (spc s1 ++ (opCN o :: (spc s2 ++ b.chars))) = true := by
    cases s1 with
    | true => simp +decide [spc, sepOkB]
    | false => cases o <;> simp +decide [spc, sepOkB]
  have hopc : isOpChar (opCN o) = false := by cases o <;> decide
  unfold mkBin
  simp only [basicScan, List.append_assoc, scanNum_lit a ha _ hsep,
    skipWs_spc s1 hop_ws, hopc]
  simp

theorem math1Match_mkBin {a b : NumLit} (ha : a.wfB = true) (hb : b.wfB = true)
    (o : AOp) (s1 s2 : Bool) :
    math1Match (mkBin a (opSym o) s1 s2 b) = true := by
  unfold math1Match
  rw [basicScan_mkBin ha hb o s1 s2]
  rfl

theorem math1Match_mkBin_cn {a b : NumLit} (ha : a.wfB = true) (hb : b.wfB = true)
    (o : AOp) (s1 s2 : Bool) :
    math1Match (mkBin a (opCN o) s1 s2 b) = false := by
  unfold math1Match
  rw [basicScan_mkBin_cn ha hb o s1 s2]
  rfl

theorem math2Match_mkBin_cn {a b : NumLit} (ha : a.wfB = true) (hb : b.wfB = true)
    (o : AOp) (s1 s2 : Bool) :
    math2Match (mkBin a (opCN o) s1 s2 b) = true := by
  obtain ⟨db0, hdb0, hdigb0⟩ := b.chars_head hb
  have hb_ws : ∀ c, b.chars.head? = some c → isWsChar c = false := by
    intro c hc
    rw [hdb0] at hc
    cases hc
    exact isWsChar_of_digit hdigb0
  have hop_ws : ∀ c, (opCN o :: (spc s2 ++ b.chars)).head? = some c → isWsChar c = false := by
    intro c hc
    simp only [List.head?_cons, Option.some.injEq] at hc
    subst hc
    cases o <;> decide
  have hsep : sepOkB (spc s1 ++ (opCN o :: (spc s2 ++ b.chars))) = true := by
    cases s1 with
    | true => simp +decide [spc, sepOkB]
    | false => cases o <;> simp +decide [spc, sepOkB]
  have hb2 : scanNum b.chars = some (b.chars, []) := by
    have h0 := scanNum_lit b hb [] (by decide)
    simpa using h0
  unfold math2Match mkBin
  simp only [List.append_assoc, scanNum_lit a ha _ hsep, skipWs_spc s1 hop_ws]
  cases o <;>
    simp [scanWord, List.isPrefixOf, opCN, skipWs_spc s2 hb_ws, hb2]

/-! ### `Q` versus `ℚ`: the structural operations agree with the field
  operations under `Q.toRat`. -/

theorem numVal_den_ne (s : List Char) : (numVal s).den ≠ 0 := by
  unfold numVal
  simp

theorem toRat_ne_zero_num {q : Q} (h : q.toRat ≠ 0) : q.num ≠ 0 := by
  intro h0
  apply h
  unfold Q.toRat
  rw [h0]
  simp

theorem toRat_zero_num {q : Q} (hden : q.den ≠ 0) (h : q.toRat = 0) : q.num = 0 := by
  unfold Q.toRat at h
  have hd : ((q.den : ℚ)) ≠ 0 := Nat.cast_ne_zero.mpr hden
  rcases div_eq_zero_iff.mp h with h1 | h1
  · exact_mod_cast h1
  · exact absurd h1 hd

theorem qIsZero_false_of_toRat {q : Q} (h : q.toRat ≠ 0) : qIsZero q = false := by
  unfold qIsZero
  simp [toRat_ne_zero_num h]

theorem qIsZero_true_of_toRat {q : Q} (hden : q.den ≠ 0) (h : q.toRat = 0) :
    qIsZero q = true := by
  unfold qIsZero
  simp [toRat_zero_num hden h]

theorem qadd_toRat {x y : Q} (hx : x.den ≠ 0) (hy : y.den ≠ 0) :
    (qadd x y).toRat = x.toRat + y.toRat := by
  unfold qadd Q.toRat
  have hx' : ((x.den : ℚ)) ≠ 0 := Nat.cast_ne_zero.mpr hx
  have hy' : ((y.den : ℚ)) ≠ 0 := Nat.cast_ne_zero.mpr hy
  push_cast
  field_simp
  try ring

theorem qsub_toRat {x y : Q} (hx : x.den ≠ 0) (hy : y.den ≠ 0) :
    (qsub x y).toRat = x.toRat - y.toRat := by
  unfold qsub Q.toRat
  have hx' : ((x.den : ℚ)) ≠ 0 := Nat.cast_ne_zero.mpr hx
  have hy' : ((y.den : ℚ)) ≠ 0 := Nat.cast_ne_zero.mpr hy
  push_cast
  field_simp
  try ring

theorem qmul_toRat {x y : Q} (hx : x.den ≠ 0) (hy : y.den ≠ 0) :
    (qmul x y).toRat = x.toRat * y.toRat := by
  unfold qmul Q.toRat
  have hx' : ((x.den : ℚ)) ≠ 0 := Nat.cast_ne_zero.mpr hx
  have hy' : ((y.den : ℚ)) ≠ 0 := Nat.cast_ne_zero.mpr hy
  push_cast
  field_simp

theorem qdiv_toRat {x y : Q} (hx : x.den ≠ 0) (hy : y.den ≠ 0) (hn : y.num ≠ 0) :
    (qdiv x y).toRat = x.toRat / y.toRat := by
  unfold qdiv Q.toRat
  have hx' : ((x.den : ℚ)) ≠ 0 := Nat.cast_ne_zero.mpr hx
  have hy' : ((y.den : ℚ)) ≠ 0 := Nat.cast_ne_zero.mpr hy
  have hn' : ((y.num : ℚ)) ≠ 0 := Int.cast_ne_zero.mpr hn
  by_cases hpos : 0 ≤ y.num
  · rw [if_pos hpos]
    simp only []
    push_cast
    have habs : ((y.num.natAbs : ℕ) : ℚ) = (y.num : ℚ) := by
      rw [Int.cast_natAbs]
      exact_mod_cast abs_of_nonneg hpos
    rw [habs]
    field_simp
    try ring
  · rw [if_neg hpos]
    push_neg at hpos
    simp only []
    push_cast
    have habs : ((y.num.natAbs : ℕ) : ℚ) = -(y.num : ℚ) := by
      rw [Int.cast_natAbs]
      exact_mod_cast abs_of_neg hpos
    rw [habs]
    field_simp
    try ring

/-- The operator switch computes the exact rational value of `a op b`. -/
theorem opQ_toRat (o : AOp) {x y : Q} (hx : x.den ≠ 0) (hy : y.den ≠ 0)
    (hn : o = AOp.div → y.num ≠ 0) :
    (opQ o x y).toRat = opEval o x.toRat y.toRat := by
  cases o with
  | add => exact qadd_toRat hx hy
  | sub => exact qsub_toRat hx hy
  | mul => exact qmul_toRat hx hy
  | div => exact qdiv_toRat hx hy (hn rfl)

theorem toRat_ne_zero {q : Q} (hn : q.num ≠ 0) (hd : q.den ≠ 0) : q.toRat ≠ 0 := by
  unfold Q.toRat
  exact div_ne_zero (Int.cast_ne_zero.mpr hn) (Nat.cast_ne_zero.mpr hd)

theorem roundF64_zero {q : Q} (h : q.num = 0) : roundF64 q = .fin 0 0 := by
  simp [roundF64, h]

/-- rounding a non-negative rational never yields a negative double -/
theorem roundF64_nonneg {q : Q} (h : 0 ≤ q.num) : fIsNeg (roundF64 q) = false := by
  unfold roundF64
  by_cases h0 : q.num = 0
  · rw [if_pos h0]
    rfl
  · rw [if_neg h0]
    have hpos : 0 < q.num := lt_of_le_of_ne h (Ne.symm h0)
    by_cases hd : q.den = 0
    · rw [if_pos hd, if_pos hpos]
      rfl
    · rw [if_neg hd]
      cases hr : roundPos q.num.natAbs q.den with
      | none =>
        simp only [if_pos hpos]
        rfl
      | some me =>
        obtain ⟨m, e⟩ := me
        by_cases hm : m = 0
        · simp only [hm, if_pos rfl]
          rfl
        · simp only [if_neg hm, if_pos hpos]
          unfold fIsNeg
          simp

/-- rounding never yields NaN -/
theorem roundF64_ne_nan (q : Q) : roundF64 q ≠ .nan := by
  unfold roundF64
  by_cases h0 : q.num = 0
  · simp [h0]
  · rw [if_neg h0]
    by_cases hd : q.den = 0
    · rw [if_pos hd]
      split <;> simp
    · rw [if_neg hd]
      cases hr : roundPos q.num.natAbs q.den with
      | none =>
        simp only []
        split <;> simp
      | some me =>
        obtain ⟨m, e⟩ := me
        simp only []
        split
        · simp
        · split <;> simp

/-- The operator switch's display: outside division-by-zero it shows the
  rendering of the binary64 result. -/
theorem binDisplay_opF (o : AOp) (x y : F64) (h : o = AOp.div → fIsZero y = false) :
    binDisplay (opSym o) x y = f64ToStr (opF o x y) := by
  cases o with
  | add => simp +decide [binDisplay, opSym, opF]
  | sub => simp +decide [binDisplay, opSym, opF]
  | mul => simp +decide [binDisplay, opSym, opF]
  | div => simp +decide [binDisplay, opSym, opF, h rfl]

/-! ### The math handler on binary inputs -/

theorem handleMath_mkBin (rt : JsRuntime) {a b : NumLit} (ha : a.wfB = true)
    (hb : b.wfB = true) (o : AOp) (useCN : Bool) (s1 s2 : Bool) :
    handleMathCalculation rt (mkBin a (if useCN then opCN o else opSym o) s1 s2 b)
      = .ok (some ⟨RType.calculation,
          "= ".toList ++ binDisplay (opSym o) (parseF64 a.chars) (parseF64 b.chars)⟩) := by
  have hexpr : applyReps (mkBin a (if useCN then opCN o else opSym o) s1 s2 b)
      = mkBin a (opSym o) s1 s2 b := by
    cases useCN with
    | false =>
      simp only [Bool.false_eq_true, if_false]
      exact applyReps_mkBin_sym ha hb o s1 s2
    | true =>
      simp only [if_true]
      exact applyReps_mkBin_cn ha hb o s1 s2
  have hq : containsSub "sqrt".toList (mkBin a (opSym o) s1 s2 b) = false :=
    containsSub_false_of_not_mem (c := 'q') (by decide)
      (not_mem_mkBin ha hb (by decide) (by decide) (by decide) (by cases o <;> decide))
  have hcb : containsSub "cbrt".toList (mkBin a (opSym o) s1 s2 b) = false :=
    containsSub_false_of_not_mem (c := 'b') (by decide)
      (not_mem_mkBin ha hb (by decide) (by decide) (by decide) (by cases o <;> decide))
  simp only [handleMathCalculation, hexpr, hq, hcb, Bool.false_eq_true, if_false,
    basicScan_mkBin ha hb o s1 s2]

/-- On a fresh cache, an input the math rule resolves is answered by the math
  handler (the math rule is first in the declared order). -/
theorem process_math_hit (rt : JsRuntime) (now : ℕ) {input : List Char} {r : Result}
    (hpre : preprocessInput input = input)
    (hmatch : ∃ p ∈ [math1Match, math2Match, math3Match], p input = true)
    (hhandler : handleMathCalculation rt input = .ok (some r)) :
    process rt now [] input = (some r, [(input, r)]) := by
  unfold process
  have hm : assocGet (preprocessInput input) ([] : Cache) = none := by
    rw [hpre]
    rfl
  have ht : tryRules (engineRules rt now) (preprocessInput input) = some r := by
    rw [hpre]
    unfold engineRules
    exact tryRules_cons_some (tryPatterns_hit _ hhandler hmatch)
  rw [processWith_miss_some hm ht, hpre]
  rfl

/-! ## Claims -/

/-- C2: For every input of the form "a op b" where a and b are unsigned numeric
  literals (integer or decimal), op is one of + - * / or its Chinese spelling
  加/减/乘/除, and b is nonzero when op is division, `process` returns a Result
  with type calculation whose display string is "= " followed by the exact
  value of a op b, with no rounding applied.  At "0.1+0.2" the program has to
  round: it displays the shortest decimal of the binary64 sum,
  "= 0.30000000000000004", although the exact value of the operands' sum is
  3/10 and the computed double differs from it — the exactness clause of the
  claim is false of the code. -/
theorem c2_counterexample :
    (process rtDemo 0 [] "0.1+0.2".toList).1
        = some ⟨RType.calculation, "= 0.30000000000000004".toList⟩
      ∧ ("= 0.30000000000000004".toList : List Char) ≠ "= 0.3".toList
      ∧ (numVal "0.1".toList).toRat + (numVal "0.2".toList).toRat = 3 / 10
      ∧ (F64.toQ (fadd (parseF64 "0.1".toList) (parseF64 "0.2".toList))).toRat
          ≠ 3 / 10 := by
  refine ⟨by decide, by decide, ?_, ?_⟩
  · show ((⟨1, 10⟩ : Q).toRat + (⟨2, 10⟩ : Q).toRat = 3 / 10)
    unfold Q.toRat
    norm_num
  · intro hEq
    have hsub : (qsub (F64.toQ (fadd (parseF64 "0.1".toList) (parseF64 "0.2".toList)))
          ⟨3, 10⟩).toRat
        = (F64.toQ (fadd (parseF64 "0.1".toList) (parseF64 "0.2".toList))).toRat
          - (⟨3, 10⟩ : Q).toRat :=
      qsub_toRat (by decide) (by decide)
    have h310 : (⟨3, 10⟩ : Q).toRat = 3 / 10 := by
      unfold Q.toRat
      norm_num
    have hnz : qIsZero (qsub (F64.toQ (fadd (parseF64 "0.1".toList)
        (parseF64 "0.2".toList))) ⟨3, 10⟩) = false := by decide
    rw [qIsZero, decide_eq_false_iff_not] at hnz
    exact toRat_ne_zero hnz (by decide)
      (by rw [hsub, h310, hEq]; ring)

/-- C2 (amended): For every input "a op b" of the claim's shape (with the
  division guard now on the parsed double, as the code tests it), `process`
  returns a calculation Result displaying "= " followed by the JS rendering
  (shortest round-tripping decimal) of the binary64 result of `a op b`
  computed on the parsed doubles — correct rounding at every step, but not
  the exact rational value. -/
theorem c2_arith_rounded (rt : JsRuntime) (now : ℕ) (o : AOp) (useCN s1 s2 : Bool)
    (a b : NumLit) (ha : a.wfB = true) (hb : b.wfB = true)
    (hdiv : o = AOp.div → fIsZero (parseF64 b.chars) = false) :
    (process rt now [] (mkBin a (if useCN then opCN o else opSym o) s1 s2 b)).1
        = some ⟨RType.calculation,
            "= ".toList ++ f64ToStr (opF o (parseF64 a.chars) (parseF64 b.chars))⟩ := by
  have hws : isWsChar (if useCN then opCN o else opSym o) = false := by
    cases useCN <;> cases o <;> decide
  have hpc : isPunctChar (if useCN then opCN o else opSym o) = false := by
    cases useCN <;> cases o <;> decide
  have hpre := preprocess_mkBin ha hb (if useCN then opCN o else opSym o) s1 s2 hws hpc
  have hmatch : ∃ p ∈ [math1Match, math2Match, math3Match],
      p (mkBin a (if useCN then opCN o else opSym o) s1 s2 b) = true := by
    cases useCN with
    | false =>
      refine ⟨math1Match, by simp, ?_⟩
      simp only [Bool.false_eq_true, if_false]
      exact math1Match_mkBin ha hb o s1 s2
    | true =>
      refine ⟨math2Match, by simp, ?_⟩
      simp only [if_true]
      exact math2Match_mkBin_cn ha hb o s1 s2
  have hdisp : binDisplay (opSym o) (parseF64 a.chars) (parseF64 b.chars)
      = f64ToStr (opF o (parseF64 a.chars) (parseF64 b.chars)) := by
    apply binDisplay_opF
    intro ho
    subst ho
    exact hdiv rfl
  have hhand := handleMath_mkBin rt ha hb o useCN s1 s2
  rw [hdisp] at hhand
  rw [process_math_hit rt now hpre hmatch hhand]

/-- C2 witness at `7乘6`: the binary64 product is exact and displays 42. -/
theorem c2_arith_rounded_witness :
    fIsZero (parseF64 "6".toList) = false
      ∧ (process rtDemo 0 []
          (mkBin ⟨"7".toList, none⟩ (if true then opCN AOp.mul else opSym AOp.mul)
            false false ⟨"6".toList, none⟩)).1
        = some ⟨RType.calculation,
            "= ".toList ++ f64ToStr (opF AOp.mul (parseF64 "7".toList)
              (parseF64 "6".toList))⟩
      ∧ f64ToStr (opF AOp.mul (parseF64 "7".toList) (parseF64 "6".toList))
          = "42".toList := by
  refine ⟨by decide, ?_, by decide⟩
  exact c2_arith_rounded rtDemo 0 AOp.mul true false false
    ⟨"7".toList, none⟩ ⟨"6".toList, none⟩ (by decide) (by decide)
    (by intro hh; exact absurd hh (by decide))

/-- C3 counterexample: the claim says the display string is exactly the literal
  text 除数不能为0; the code produces "= 除数不能为0" (the notice spliced after
  the "= " prefix), so the claim as stated is false at input "5/0". -/
theorem c3_counterexample :
    (process rtDemo 0 [] "5/0".toList).1
        = some ⟨RType.calculation, "= 除数不能为0".toList⟩
      ∧ "= 除数不能为0".toList ≠ "除数不能为0".toList := by
  constructor
  · decide
  · decide

/-- C3 (amended): For every division input with divisor of value 0 ("a/0",
  the Chinese spelling "a除0", and any zero-valued divisor literal), `process`
  returns a Result whose display string is exactly "= 除数不能为0" — the
  division-by-zero notice after the "= " prefix — not a numeric value and not
  a raised fault. -/
theorem c3_div_zero_notice (rt : JsRuntime) (now : ℕ) (useCN s1 s2 : Bool)
    (a b : NumLit) (ha : a.wfB = true) (hb : b.wfB = true) (hb0 : b.val = 0) :
    (process rt now [] (mkBin a (if useCN then opCN AOp.div else opSym AOp.div) s1 s2 b)).1
      = some ⟨RType.calculation, "= 除数不能为0".toList⟩ := by
  have hws : isWsChar (if useCN then opCN AOp.div else opSym AOp.div) = false := by
    cases useCN <;> decide
  have hpc : isPunctChar (if useCN then opCN AOp.div else opSym AOp.div) = false := by
    cases useCN <;> decide
  have hpre := preprocess_mkBin ha hb (if useCN then opCN AOp.div else opSym AOp.div)
    s1 s2 hws hpc
  have hmatch : ∃ p ∈ [math1Match, math2Match, math3Match],
      p (mkBin a (if useCN then opCN AOp.div else opSym AOp.div) s1 s2 b) = true := by
    cases useCN with
    | false =>
      refine ⟨math1Match, by simp, ?_⟩
      simp only [Bool.false_eq_true, if_false]
      exact math1Match_mkBin ha hb AOp.div s1 s2
    | true =>
      refine ⟨math2Match, by simp, ?_⟩
      simp only [if_true]
      exact math2Match_mkBin_cn ha hb AOp.div s1 s2
  have hzq : (numVal b.chars).num = 0 := by
    have := qIsZero_true_of_toRat (numVal_den_ne b.chars) hb0
    rw [qIsZero, decide_eq_true_eq] at this
    exact this
  have hz : fIsZero (parseF64 b.chars) = true := by
    unfold parseF64
    rw [roundF64_zero hzq]
    decide
  have hdisp : binDisplay (opSym AOp.div) (parseF64 a.chars) (parseF64 b.chars)
      = "除数不能为0".toList := by
    simp +decide [binDisplay, opSym, hz]
  have hhand := handleMath_mkBin rt ha hb AOp.div useCN s1 s2
  rw [hdisp] at hhand
  have hjoin : ("= ".toList ++ "除数不能为0".toList : List Char)
      = "= 除数不能为0".toList := by decide
  rw [hjoin] at hhand
  rw [process_math_hit rt now hpre hmatch hhand]

theorem c3_div_zero_notice_witness :
    (process rtDemo 0 [] "9除0".toList).1
      = some ⟨RType.calculation, "= 除数不能为0".toList⟩ := by
  have h := c3_div_zero_notice rtDemo 0 true false false
    ⟨"9".toList, none⟩ ⟨"0".toList, none⟩ (by decide) (by decide)
    (by
      show NumLit.val ⟨"0".toList, none⟩ = 0
      unfold NumLit.val Q.toRat
      norm_num
      exact Or.inl (by decide))
  exact h

/-- C1: For every normalized input, `processWith` (the dispatch loop of
  `process`) tries rules in declared list order; the first rule with a
  syntactically matching pattern whose handler returns a non-null Result wins,
  that Result is cached keyed by the normalized input and returned
  immediately, and no later rule or pattern is consulted — the conclusion
  holds for every tail of rules after the winning one, and only requires of
  the earlier rules that none of them resolves (no pattern match, or a null
  result, or a caught fault). -/
theorem c1_first_match_wins (pre tail : List Rule) (r0 : Rule) (cache : Cache)
    (input : List Char) (res : Result)
    (hcm : assocGet (preprocessInput input) cache = none)
    (hEarlier : ∀ rl ∈ pre,
      (∀ p ∈ rl.patterns, p (preprocessInput input) = false) ∨
      rl.handler (preprocessInput input) = .ok none ∨
      (∃ e, rl.handler (preprocessInput input) = .error e))
    (hMatch : ∃ p ∈ r0.patterns, p (preprocessInput input) = true)
    (hRes : r0.handler (preprocessInput input) = .ok (some res)) :
    processWith (pre ++ r0 :: tail) cache input
      = (some res, cacheSet (preprocessInput input) res cache) := by
  apply processWith_miss_some hcm
  revert hEarlier
  induction pre with
  | nil =>
    intro _
    simp only [List.nil_append]
    exact tryRules_cons_some (tryPatterns_hit _ hRes hMatch)
  | cons rl rest ih =>
    intro hEarlier
    simp only [List.cons_append]
    have hskip : tryPatterns rl.handler rl.patterns (preprocessInput input) = none := by
      rcases hEarlier rl (by simp) with h | h | ⟨e, h⟩
      · exact tryPatterns_all_false _ h
      · exact tryPatterns_handler_none _ h
      · exact tryPatterns_handler_error _ h
    rw [tryRules_cons_none hskip]
    exact ih fun rl2 hrl2 => hEarlier rl2 (by simp [hrl2])

theorem c1_first_match_wins_witness :
    processWith (engineRules rtDemo 0) [] "1+1".toList
      = (some ⟨RType.calculation, "= 2".toList⟩,
         [("1+1".toList, ⟨RType.calculation, "= 2".toList⟩)]) := by
  have h := c1_first_match_wins []
    [dateRule rtDemo 0, timezoneRule rtDemo 0, unitRule, currencyRule, formulaRule]
    (mathRule rtDemo) [] "1+1".toList ⟨RType.calculation, "= 2".toList⟩
    (by decide)
    (by intro rl hrl; simp at hrl)
    ⟨math1Match, by simp [mathRule], by decide⟩
    (by rfl)
  exact h

/-- C9: The inputs 下周 and 上周 are matched syntactically by the date rule's
  deictic pattern `date2Match`, but the date handler's special-dates table has
  no entry for them, so the handler returns null and `process` returns null
  for these inputs (for every runtime and instant). -/
theorem c9_weeks_unsupported (rt : JsRuntime) (now : ℕ) :
    date2Match "下周".toList = true ∧ date2Match "上周".toList = true ∧
    handleDateCalculation rt now "下周".toList = .ok none ∧
    handleDateCalculation rt now "上周".toList = .ok none ∧
    (process rt now [] "下周".toList).1 = none ∧
    (process rt now [] "上周".toList).1 = none := by
  refine ⟨by decide, by decide, rfl, rfl, rfl, rfl⟩

/-- C6: A handler fault is caught at the dispatch boundary and treated as a
  non-match: a rule whose handler raises is skipped and dispatch continues
  with the remaining rules unchanged; and the call still returns a Result or
  null (the return type of `processWith` carries no fault — in the model the
  `Except` layer is consumed inside the pattern loop). -/
theorem c6_fault_skipped (pre tail : List Rule) (rbad : Rule) (cache : Cache)
    (input : List Char) (e : String)
    (herr : rbad.handler (preprocessInput input) = .error e) :
    processWith (pre ++ rbad :: tail) cache input = processWith (pre ++ tail) cache input
      ∧ ((processWith (pre ++ rbad :: tail) cache input).1 = none ∨
          ∃ r, (processWith (pre ++ rbad :: tail) cache input).1 = some r) := by
  have htr : tryRules (pre ++ rbad :: tail) (preprocessInput input)
      = tryRules (pre ++ tail) (preprocessInput input) := by
    induction pre with
    | nil =>
      simp only [List.nil_append]
      exact tryRules_cons_none (tryPatterns_handler_error _ herr)
    | cons rl rest ih =>
      simp only [List.cons_append]
      cases hp : tryPatterns rl.handler rl.patterns (preprocessInput input) with
      | some r => rw [tryRules_cons_some hp, tryRules_cons_some hp]
      | none =>
        rw [tryRules_cons_none hp, tryRules_cons_none hp]
        exact ih
  have heq : processWith (pre ++ rbad :: tail) cache input
      = processWith (pre ++ tail) cache input := by
    cases hc : assocGet (preprocessInput input) cache with
    | some r => rw [processWith_hit hc, processWith_hit hc]
    | none =>
      cases ht : tryRules (pre ++ tail) (preprocessInput input) with
      | some r => rw [processWith_miss_some hc (htr.trans ht), processWith_miss_some hc ht]
      | none => rw [processWith_miss_none hc (htr.trans ht), processWith_miss_none hc ht]
  refine ⟨heq, ?_⟩
  cases hv : (processWith (pre ++ rbad :: tail) cache input).1 with
  | none => exact Or.inl rfl
  | some r => exact Or.inr ⟨r, rfl⟩

theorem c6_fault_skipped_witness :
    processWith (ruleBoom :: engineRules rtDemo 0) [] "1+1".toList
        = processWith (engineRules rtDemo 0) [] "1+1".toList
      ∧ ((processWith (ruleBoom :: engineRules rtDemo 0) [] "1+1".toList).1 = none ∨
          ∃ r, (processWith (ruleBoom :: engineRules rtDemo 0) [] "1+1".toList).1 = some r) := by
  have h := c6_fault_skipped [] (engineRules rtDemo 0) ruleBoom [] "1+1".toList "x" rfl
  exact h

/-! ### Timezone dispatch helpers (C4) -/

/-- A timezone query that misses the cache is answered by the timezone handler
  with the clock formatted at the call instant. -/
theorem process_tz_hit (rt : JsRuntime) (now : ℕ) (cache : Cache)
    {input tz : List Char}
    (hpre : preprocessInput input = input)
    (hmiss : assocGet input cache = none)
    (hm1 : math1Match input = false) (hm2 : math2Match input = false)
    (hm3 : math3Match input = false) (hd1 : date1Match input = false)
    (hd2 : date2Match input = false) (htz : tz1Match input = true)
    (hscan : (cityScan input).bind (fun c => assocGet c timezoneMap) = some tz) :
    process rt now cache input
      = (some ⟨RType.timezone, "（".toList ++ rt.fmtTime tz now ++ "）".toList⟩,
         cacheSet input
           ⟨RType.timezone, "（".toList ++ rt.fmtTime tz now ++ "）".toList⟩ cache) := by
  unfold process
  have hhand : handleTimezoneQuery rt now input
      = .ok (some ⟨RType.timezone, "（".toList ++ rt.fmtTime tz now ++ "）".toList⟩) := by
    cases hc : cityScan input with
    | none =>
      rw [hc] at hscan
      simp at hscan
    | some c =>
      rw [hc] at hscan
      simp only [Option.some_bind] at hscan
      simp only [handleTimezoneQuery, hc, hscan]
  have hmathskip : tryPatterns (mathRule rt).handler (mathRule rt).patterns input = none := by
    apply tryPatterns_all_false
    intro p hp
    simp only [mathRule, List.mem_cons, List.not_mem_nil, or_false] at hp
    rcases hp with h | h | h <;> subst h
    exacts [hm1, hm2, hm3]
  have hdateskip : tryPatterns (dateRule rt now).handler (dateRule rt now).patterns input
      = none := by
    apply tryPatterns_all_false
    intro p hp
    simp only [dateRule, List.mem_cons, List.not_mem_nil, or_false] at hp
    rcases hp with h | h <;> subst h
    exacts [hd1, hd2]
  have ht : tryRules (engineRules rt now) (preprocessInput input)
      = some ⟨RType.timezone, "（".toList ++ rt.fmtTime tz now ++ "）".toList⟩ := by
    rw [hpre]
    unfold engineRules
    rw [tryRules_cons_none hmathskip, tryRules_cons_none hdateskip]
    exact tryRules_cons_some (tryPatterns_hit _ hhand ⟨tz1Match, by simp [timezoneRule], htz⟩)
  have hm : assocGet (preprocessInput input) cache = none := by
    rw [hpre]
    exact hmiss
  rw [processWith_miss_some hm ht, hpre]

/-- A call whose normalized input is already cached returns the cached Result
  unchanged, whatever the current instant. -/
theorem process_cached (rt : JsRuntime) (now : ℕ) (cache : Cache)
    {input : List Char} {v : Result} (hpre : preprocessInput input = input) :
    process rt now (cacheSet input v cache) input = (some v, cacheSet input v cache) := by
  unfold process
  apply processWith_hit
  rw [hpre]
  exact assocGet_cacheSet

/-- C4 counterexample: with a clock whose display differs between instants 0
  and 1, the first call at instant 0 resolves 纽约时间 to the instant-0 time;
  a second call with the identical input at instant 1, threading the engine's
  cache, returns the instant-0 Result again (the cached data), not the
  instant-1 time — so the time is not re-evaluated at the moment of the call. -/
theorem c4_counterexample :
    (process rtTick 0 [] "纽约时间".toList).1
        = some ⟨RType.timezone, "（08:00）".toList⟩
      ∧ (process rtTick 1 ((process rtTick 0 [] "纽约时间".toList).2) "纽约时间".toList).1
        = some ⟨RType.timezone, "（08:00）".toList⟩
      ∧ ("（08:00）".toList : List Char) ≠ "（08:01）".toList
      ∧ rtTick.fmtTime "America/New_York".toList 1 = "08:01".toList := by
  refine ⟨by decide, by decide, by decide, by decide⟩

/-- C4 (amended): For a timezone query on a city in the fixture map, the time
  shown is evaluated from the wall clock at the moment of the first
  (cache-missing) call; every later call with the same normalized input, at
  any instant, returns the cached Result unchanged, so the shown time does
  not change. -/
theorem c4_time_first_call_then_cache (rt : JsRuntime) (now now2 : ℕ) (cache : Cache)
    (city tz : List Char) (hmem : (city, tz) ∈ timezoneMap)
    (hmiss : assocGet (city ++ "时间".toList) cache = none) :
    process rt now cache (city ++ "时间".toList)
        = (some ⟨RType.timezone, "（".toList ++ rt.fmtTime tz now ++ "）".toList⟩,
           cacheSet (city ++ "时间".toList)
             ⟨RType.timezone, "（".toList ++ rt.fmtTime tz now ++ "）".toList⟩ cache)
      ∧ process rt now2
          (cacheSet (city ++ "时间".toList)
            ⟨RType.timezone, "（".toList ++ rt.fmtTime tz now ++ "）".toList⟩ cache)
          (city ++ "时间".toList)
        = (some ⟨RType.timezone, "（".toList ++ rt.fmtTime tz now ++ "）".toList⟩,
           cacheSet (city ++ "时间".toList)
             ⟨RType.timezone, "（".toList ++ rt.fmtTime tz now ++ "）".toList⟩ cache) := by
  simp only [timezoneMap, List.mem_cons, List.not_mem_nil, or_false] at hmem
  rcases hmem with h | h | h | h | h | h | h | h <;>
    (rw [Prod.mk.injEq] at h
     obtain ⟨h1, h2⟩ := h
     subst h1
     subst h2
     exact ⟨process_tz_hit rt now cache (by decide) hmiss (by decide) (by decide)
         (by decide) (by decide) (by decide) (by decide) (by decide),
       process_cached rt now2 cache (by decide)⟩)

theorem c4_time_first_call_then_cache_witness :
    process rtDemo 0 [] ("东京".toList ++ "时间".toList)
        = (some ⟨RType.timezone,
             "（".toList ++ rtDemo.fmtTime "Asia/Tokyo".toList 0 ++ "）".toList⟩,
           cacheSet ("东京".toList ++ "时间".toList)
             ⟨RType.timezone,
               "（".toList ++ rtDemo.fmtTime "Asia/Tokyo".toList 0 ++ "）".toList⟩ [])
      ∧ process rtDemo 5
          (cacheSet ("东京".toList ++ "时间".toList)
            ⟨RType.timezone,
              "（".toList ++ rtDemo.fmtTime "Asia/Tokyo".toList 0 ++ "）".toList⟩ [])
          ("东京".toList ++ "时间".toList)
        = (some ⟨RType.timezone,
             "（".toList ++ rtDemo.fmtTime "Asia/Tokyo".toList 0 ++ "）".toList⟩,
           cacheSet ("东京".toList ++ "时间".toList)
             ⟨RType.timezone,
               "（".toList ++ rtDemo.fmtTime "Asia/Tokyo".toList 0 ++ "）".toList⟩ []) := by
  exact c4_time_first_call_then_cache rtDemo 0 5 [] ("东京".toList)
    ("Asia/Tokyo".toList) (by decide) (by decide)

theorem noDoubleWsB_cons_nonws {c : Char} {t : List Char}
    (hc : isWsChar c = false) (ht : noDoubleWsB t = true) :
    noDoubleWsB (c :: t) = true := by
  cases t with
  | nil => rfl
  | cons d r =>
    unfold noDoubleWsB
    simp [hc, ht]

theorem noDoubleWsB_cons_sp {t : List Char}
    (hh : headNonWsB t = true) (ht : noDoubleWsB t = true) :
    noDoubleWsB (' ' :: t) = true := by
  cases t with
  | nil => rfl
  | cons d r =>
    unfold noDoubleWsB
    unfold headNonWsB at hh
    simp only [List.head?_cons, Bool.not_eq_true'] at hh
    simp [hh, ht]

theorem collapseWsAux_cons_ws_true {c : Char} (r : List Char) (h : isWsChar c = true) :
    collapseWsAux true (c :: r) = collapseWsAux true r := by
  simp [collapseWsAux, h]

/-- The collapse pass never emits two adjacent whitespace characters, and in
  run-mode its output starts with a non-whitespace character. -/
theorem collapseWsAux_inv (s : List Char) :
    noDoubleWsB (collapseWsAux true s) = true ∧
    headNonWsB (collapseWsAux true s) = true ∧
    noDoubleWsB (collapseWsAux false s) = true := by
  induction s with
  | nil => exact ⟨rfl, rfl, rfl⟩
  | cons c r ih =>
    by_cases hw : isWsChar c = true
    · rw [collapseWsAux_cons_ws_true r hw, collapseWsAux_cons_ws r hw]
      exact ⟨ih.1, ih.2.1, noDoubleWsB_cons_sp ih.2.1 ih.1⟩
    · rw [Bool.not_eq_true] at hw
      rw [collapseWsAux_cons_nonws true r hw, collapseWsAux_cons_nonws false r hw]
      refine ⟨noDoubleWsB_cons_nonws hw ih.2.2, ?_, noDoubleWsB_cons_nonws hw ih.2.2⟩

      unfold headNonWsB
      simp [hw]

theorem lastNonWsB_cons_of_ne_nil {c : Char} {t : List Char} (ht : t ≠ []) :
    lastNonWsB (c :: t) = lastNonWsB t := by
  cases t with
  | nil => exact absurd rfl ht
  | cons d r =>
    unfold lastNonWsB
    rw [List.getLast?_cons_cons]

/-- The collapse pass preserves a non-whitespace final character. -/
theorem collapseWsAux_last :
    ∀ (s : List Char) (b : Bool), s ≠ [] → lastNonWsB s = true →
      collapseWsAux b s ≠ [] ∧ lastNonWsB (collapseWsAux b s) = true := by
  intro s
  induction s with
  | nil => intro b h; exact absurd rfl h
  | cons c r ih =>
    intro b _ hlast
    cases hr : r with
    | nil =>
      subst hr
      have hc : isWsChar c = false := by
        unfold lastNonWsB at hlast
        simp only [List.getLast?_singleton, Bool.not_eq_true'] at hlast
        exact hlast
      rw [collapseWsAux_cons_nonws b [] hc]
      exact ⟨by simp, by rw [collapseWsAux_nil]; exact hlast⟩
    | cons d r' =>
      subst hr
      have hlast2 : lastNonWsB (d :: r') = true := by
        rwa [lastNonWsB_cons_of_ne_nil (by simp)] at hlast
      have iht := ih (b := false) (by simp) hlast2
      by_cases hw : isWsChar c = true
      · cases b with
        | true =>
          rw [collapseWsAux_cons_ws_true _ hw]
          exact ih (b := true) (by simp) hlast2
        | false =>
          rw [collapseWsAux_cons_ws _ hw]
          have ihtrue := ih (b := true) (by simp) hlast2
          refine ⟨by simp, ?_⟩
          rw [lastNonWsB_cons_of_ne_nil ihtrue.1]
          exact ihtrue.2
      · rw [Bool.not_eq_true] at hw
        rw [collapseWsAux_cons_nonws b _ hw]
        refine ⟨by simp, ?_⟩
        rw [lastNonWsB_cons_of_ne_nil iht.1]
        exact iht.2

theorem collapseWs_head {x : List Char} (h : headNonWsB x = true) :
    headNonWsB (collapseWs x) = true := by
  cases x with
  | nil => rfl
  | cons c r =>
    unfold headNonWsB at h
    simp only [List.head?_cons, Bool.not_eq_true'] at h
    unfold collapseWs
    rw [collapseWsAux_cons_nonws false r h]
    unfold headNonWsB
    simp [h]

theorem dropWhile_head_not {p : Char → Bool} :
    ∀ {l : List Char} {c : Char}, (l.dropWhile p).head? = some c → p c = false := by
  intro l
  induction l with
  | nil => intro c h; simp at h
  | cons a r ih =>
    intro c h
    by_cases ha : p a = true
    · rw [List.dropWhile_cons_of_pos ha] at h
      exact ih h
    · rw [Bool.not_eq_true] at ha
      rw [List.dropWhile_cons_of_neg (by simp [ha])] at h
      simp only [List.head?_cons, Option.some.injEq] at h
      subst h
      exact ha

/-- `trim` leaves no leading whitespace. -/
theorem jsTrim_head (s : List Char) : headNonWsB (jsTrim s) = true := by
  unfold jsTrim
  cases hD : ((s.dropWhile isWsChar).reverse.dropWhile isWsChar).reverse with
  | nil => rfl
  | cons c r =>
    have hsplit : ((s.dropWhile isWsChar).reverse.dropWhile isWsChar).reverse
        ++ ((s.dropWhile isWsChar).reverse.takeWhile isWsChar).reverse
        = s.dropWhile isWsChar := by
      rw [← List.reverse_append, List.takeWhile_append_dropWhile, List.reverse_reverse]
    have hhA : (s.dropWhile isWsChar).head? = some c := by
      rw [← hsplit, List.head?_append_of_ne_nil _ (by rw [hD]; simp), hD]
      rfl
    unfold headNonWsB
    simp only [List.head?_cons]
    simp [dropWhile_head_not hhA]

/-- `trim` leaves no trailing whitespace. -/
theorem jsTrim_last (s : List Char) : lastNonWsB (jsTrim s) = true := by
  unfold jsTrim lastNonWsB
  rw [List.getLast?_reverse]
  cases hh : ((s.dropWhile isWsChar).reverse.dropWhile isWsChar).head? with
  | none => rfl
  | some c => simp [dropWhile_head_not hh]

theorem mem_collapseWsAux {c : Char} :
    ∀ {b : Bool} {s : List Char}, c ∈ collapseWsAux b s → c = ' ' ∨ c ∈ s := by
  intro b s
  induction s generalizing b with
  | nil =>
    rw [collapseWsAux_nil]
    intro h
    simp at h
  | cons a r ih =>
    intro h
    by_cases hw : isWsChar a = true
    · cases b with
      | true =>
        rw [collapseWsAux_cons_ws_true r hw] at h
        rcases ih h with h1 | h1
        · exact Or.inl h1
        · exact Or.inr (by simp [h1])
      | false =>
        rw [collapseWsAux_cons_ws r hw] at h
        rcases List.mem_cons.mp h with h1 | h1
        · exact Or.inl h1
        · rcases ih h1 with h2 | h2
          · exact Or.inl h2
          · exact Or.inr (by simp [h2])
    · rw [Bool.not_eq_true] at hw
      rw [collapseWsAux_cons_nonws b r hw] at h
      rcases List.mem_cons.mp h with h1 | h1
      · exact Or.inr (by simp [h1])
      · rcases ih h1 with h2 | h2
        · exact Or.inl h2
        · exact Or.inr (by simp [h2])

theorem mem_jsTrim {c : Char} {s : List Char} (h : c ∈ jsTrim s) : c ∈ s := by
  unfold jsTrim at h
  rw [List.mem_reverse] at h
  have h1 : c ∈ (s.dropWhile isWsChar).reverse :=
    (List.dropWhile_sublist isWsChar).subset h
  rw [List.mem_reverse] at h1
  exact (List.dropWhile_sublist isWsChar).subset h1

/-- C5 counterexample: normalizing "a ， b" first collapses the whitespace
  runs (already single spaces) and only then removes the full-width comma,
  leaving "a  b" — a normalized output with an internal run of two spaces,
  contradicting the claim for this raw input. -/
theorem c5_counterexample :
    preprocessInput "a ， b".toList = "a  b".toList ∧
    noDoubleWsB (preprocessInput "a ， b".toList) = false := by
  exact ⟨by decide, by decide⟩

/-- C5 (amended): For every raw input the normalizer is a total deterministic
  function whose output contains none of the six full-width punctuation marks;
  and whenever the raw input itself contains none of those marks (so the
  punctuation-removal pass — which runs after whitespace collapsing — is the
  identity), the output additionally has no leading or trailing whitespace
  and no internal run of two or more whitespace characters. -/
theorem c5_normalizer (s : List Char) :
    noPunctB (preprocessInput s) = true ∧
    (noPunctB s = true →
      headNonWsB (preprocessInput s) = true ∧
      lastNonWsB (preprocessInput s) = true ∧
      noDoubleWsB (preprocessInput s) = true) := by
  constructor
  · unfold preprocessInput stripPunct noPunctB
    rw [List.all_eq_true]
    intro c hc
    simp only [List.mem_filter] at hc
    exact hc.2
  · intro hs
    have hsmem : ∀ c ∈ s, isPunctChar c = false := by
      intro c hc
      unfold noPunctB at hs
      rw [List.all_eq_true] at hs
      have := hs c hc
      simpa using this
    have hid : stripPunct (collapseWs (jsTrim s)) = collapseWs (jsTrim s) := by
      apply stripPunct_eq_self
      intro c hc
      rcases mem_collapseWsAux (b := false) hc with h | h
      · subst h
        decide
      · exact hsmem c (mem_jsTrim h)
    unfold preprocessInput
    rw [hid]
    refine ⟨collapseWs_head (jsTrim_head s), ?_, (collapseWsAux_inv (jsTrim s)).2.2⟩
    cases hn : jsTrim s with
    | nil => rfl
    | cons c r =>
      have h2 := collapseWsAux_last (c :: r) false (by simp)
        (by rw [← hn]; exact jsTrim_last s)
      exact h2.2

theorem c5_normalizer_witness :
    noPunctB (preprocessInput " a  b ".toList) = true ∧
    headNonWsB (preprocessInput " a  b ".toList) = true ∧
    lastNonWsB (preprocessInput " a  b ".toList) = true ∧
    noDoubleWsB (preprocessInput " a  b ".toList) = true := by
  have h := c5_normalizer (" a  b ".toList)
  exact ⟨h.1, (h.2 (by decide)).1, (h.2 (by decide)).2.1, (h.2 (by decide)).2.2⟩

/-! ### Handler-null lemmas for inputs of the shape `literal ++ word` (C7, C8).

  Each lemma's side conditions on the word are decidable, so concrete words
  discharge them by `decide` while the literal stays abstract. -/

theorem headNonWs_to {rest : List Char} (h : headNonWsB rest = true) :
    ∀ c, rest.head? = some c → isWsChar c = false := by
  intro c hc
  unfold headNonWsB at h
  rw [hc] at h
  simpa using h

theorem not_mem_lit_word {L : NumLit} (hL : L.wfB = true) {rest : List Char} {c : Char}
    (h1 : isDigitChar c = false) (h2 : c ≠ '.') (h3 : c ∉ rest) :
    c ∉ L.chars ++ rest := by
  intro hm
  rcases List.mem_append.mp hm with h | h
  · rcases L.chars_classes hL c h with hd | hd
    · rw [hd] at h1
      exact Bool.noConfusion h1
    · exact h2 hd
  · exact h3 h

theorem handleMath_none (rt : JsRuntime) {L : NumLit} (hL : L.wfB = true)
    (rest : List Char) (hcond : mathNullOk rest = true) :
    handleMathCalculation rt (L.chars ++ rest) = .ok none := by
  unfold mathNullOk at hcond
  simp only [Bool.and_eq_true, decide_eq_true_eq] at hcond
  obtain ⟨⟨⟨⟨⟨⟨⟨⟨⟨hsep, hhead⟩, ha1⟩, ha2⟩, ha3⟩, ha4⟩, ha5⟩, hq⟩, hb⟩, hopm⟩ := hcond
  have hexpr : applyReps (L.chars ++ rest) = L.chars ++ rest := by
    apply applyReps_clean
    intro c hc
    simp only [repHeadChars, List.mem_cons, List.not_mem_nil, or_false] at hc
    rcases hc with h | h | h | h | h <;> subst h <;>
      exact not_mem_lit_word hL (by decide) (by decide) (by assumption)
  have hq2 : containsSub "sqrt".toList (L.chars ++ rest) = false :=
    containsSub_false_of_not_mem (c := 'q') (by decide)
      (not_mem_lit_word hL (by decide) (by decide) hq)
  have hb2 : containsSub "cbrt".toList (L.chars ++ rest) = false :=
    containsSub_false_of_not_mem (c := 'b') (by decide)
      (not_mem_lit_word hL (by decide) (by decide) hb)
  have hbasic : basicScan (L.chars ++ rest) = none := by
    simp only [basicScan, scanNum_lit L hL rest hsep,
      skipWs_eq_self (headNonWs_to hhead)]
    cases rest with
    | nil => rfl
    | cons c r =>
      have : isOpChar c = false := by
        have := hopm
        simpa using this
      simp [this]
  simp only [handleMathCalculation, hexpr, hq2, hb2, hbasic, Bool.false_eq_true, if_false]

theorem handleDate_none (rt : JsRuntime) (now : ℕ) {L : NumLit} (hL : L.wfB = true)
    (rest : List Char) (hcond : dateNullOk rest = true) :
    handleDateCalculation rt now (L.chars ++ rest) = .ok none := by
  unfold dateNullOk at hcond
  simp only [Bool.and_eq_true, Option.isNone_iff_eq_none] at hcond
  obtain ⟨⟨hsep, hhead⟩, hunits⟩ := hcond
  have hrel : relativeScan (L.chars ++ rest) = none := by
    simp only [relativeScan, scanDigits_lit L hL rest hsep]
    cases hf : L.fracPart with
    | some f =>
      have hfc : L.fracChars = '.' :: f := by
        unfold NumLit.fracChars
        rw [hf]
      rw [hfc]
      rw [show (('.' :: f) ++ rest : List Char) = '.' :: (f ++ rest) by simp]
      rw [skipWs_eq_self (by
        intro c hc
        simp only [List.head?_cons, Option.some.injEq] at hc
        subst hc
        decide)]
      rw [scanWord_none _ _ (by
        intro w hw
        simp only [List.mem_cons, List.not_mem_nil, or_false] at hw
        rcases hw with h | h | h | h | h <;> subst h <;>
          exact isPrefixOf_false_of_head rfl rfl (by decide))]
    | none =>
      have hfc : L.fracChars = [] := by
        unfold NumLit.fracChars
        rw [hf]
      rw [hfc, List.nil_append, skipWs_eq_self (headNonWs_to hhead), hunits]
  have hspecial : assocGet (L.chars ++ rest) specialDates = none := by
    obtain ⟨d, hd, hdig⟩ := L.chars_head hL
    have hane : L.chars ≠ [] := ne_nil_of_head? hd
    apply assocGet_none_of_digit_head (d := d) ?_ hdig specialDates (by decide)
    rw [List.head?_append_of_ne_nil _ hane]
    exact hd
  simp only [handleDateCalculation, hrel, hspecial]

theorem cityScan_none_of_last {input : List Char}
    (h : ∀ c, input.getLast? = some c → c ≠ '间') :
    cityScan input = none := by
  unfold cityScan
  cases hr : input.reverse with
  | nil => rfl
  | cons c r =>
    have hlast : input.getLast? = some c := by
      rw [← List.head?_reverse, hr]
      rfl
    have hc := h c hlast
    split
    · rename_i heq
      exfalso
      rw [List.cons.injEq] at heq
      exact hc heq.1
    · rfl

theorem handleTz_none (rt : JsRuntime) (now : ℕ) {L : NumLit}
    (rest : List Char) (hcond : tzNullOk rest = true) :
    handleTimezoneQuery rt now (L.chars ++ rest) = .ok none := by
  have hrest : rest ≠ [] := by
    intro he
    subst he
    simp [tzNullOk] at hcond
  have hscan : cityScan (L.chars ++ rest) = none := by
    apply cityScan_none_of_last
    intro c hc
    rw [List.getLast?_append_of_ne_nil _ hrest] at hc
    unfold tzNullOk at hcond
    rw [hc] at hcond
    simpa using hcond
  simp only [handleTimezoneQuery, hscan]

theorem handleUnit_none {L : NumLit} (hL : L.wfB = true)
    (rest : List Char) (hcond : unitNullOk rest = true) :
    handleUnitConversion (L.chars ++ rest) = .ok none := by
  unfold unitNullOk at hcond
  simp only [Bool.and_eq_true, Option.isNone_iff_eq_none] at hcond
  obtain ⟨⟨⟨hsep, hhead⟩, htemp⟩, hlen⟩ := hcond
  have htempscan : tempScan (L.chars ++ rest) = none := by
    simp only [tempScan, scanNum_lit L hL rest hsep,
      skipWs_eq_self (headNonWs_to hhead), htemp]
  cases hlw : scanWord lenWords rest with
  | none =>
    have hlenscan : lengthScan (L.chars ++ rest) = none := by
      simp only [lengthScan, scanNum_lit L hL rest hsep,
        skipWs_eq_self (headNonWs_to hhead), hlw]
    simp only [handleUnitConversion, htempscan, hlenscan]
  | some ur =>
    obtain ⟨u, r⟩ := ur
    rw [hlw] at hlen
    simp only [Bool.and_eq_true, decide_eq_true_eq] at hlen
    have hlenscan : lengthScan (L.chars ++ rest) = some (L.chars, u) := by
      simp only [lengthScan, scanNum_lit L hL rest hsep,
        skipWs_eq_self (headNonWs_to hhead), hlw]
    simp only [handleUnitConversion, htempscan, hlenscan]
    rw [if_neg (by
      intro hor
      rcases hor with h | h
      · exact hlen.1 h
      · exact hlen.2 h)]

theorem handleCurrency_none {L : NumLit} (hL : L.wfB = true)
    (rest : List Char) (hcond : curNullOk rest = true) :
    handleCurrencyConversion (L.chars ++ rest) = .ok none := by
  unfold curNullOk at hcond
  simp only [Bool.and_eq_true] at hcond
  obtain ⟨⟨hsep, hhead⟩, hcur⟩ := hcond
  cases hlw : scanWord curWords rest with
  | none =>
    have hscan : currencyScan (L.chars ++ rest) = none := by
      simp only [currencyScan, scanNum_lit L hL rest hsep,
        skipWs_eq_self (headNonWs_to hhead), hlw]
    simp only [handleCurrencyConversion, hscan]
  | some ur =>
    obtain ⟨u, r⟩ := ur
    rw [hlw] at hcur
    cases r with
    | cons x xs =>
      have hscan : currencyScan (L.chars ++ rest) = none := by
        simp only [currencyScan, scanNum_lit L hL rest hsep,
          skipWs_eq_self (headNonWs_to hhead), hlw]
        rfl
      simp only [handleCurrencyConversion, hscan]
    | nil =>
      simp only [List.isEmpty_nil, Bool.not_true, Bool.false_or, Bool.and_eq_true,
        decide_eq_true_eq] at hcur
      have hscan : currencyScan (L.chars ++ rest) = some (L.chars, u) := by
        simp only [currencyScan, scanNum_lit L hL rest hsep,
          skipWs_eq_self (headNonWs_to hhead), hlw, List.isEmpty_nil, if_true]
      simp only [handleCurrencyConversion, hscan]
      rw [if_neg hcur.1, if_neg hcur.2]

theorem handleFormula_none {L : NumLit} (hL : L.wfB = true) (rest : List Char) :
    handleFormulaQuery (L.chars ++ rest) = .ok none := by
  obtain ⟨d, hd, hdig⟩ := L.chars_head hL
  have hane : L.chars ≠ [] := ne_nil_of_head? hd
  have hget : assocGet (L.chars ++ rest) formulaDatabase = none := by
    apply assocGet_none_of_digit_head (d := d) ?_ hdig formulaDatabase (by decide)
    rw [List.head?_append_of_ne_nil _ hane]
    exact hd
  simp only [handleFormulaQuery, hget]
  rfl

theorem preprocess_lit_word {L : NumLit} (hL : L.wfB = true) {rest : List Char}
    (hclean : wordCleanOk rest = true) :
    preprocessInput (L.chars ++ rest) = L.chars ++ rest := by
  unfold wordCleanOk at hclean
  rw [List.all_eq_true] at hclean
  apply preprocessInput_eq_self_of_clean
  · intro c hc
    rcases List.mem_append.mp hc with h | h
    · exact (L.chars_clean hL c h).1
    · have := hclean c h
      simp only [Bool.and_eq_true, Bool.not_eq_true'] at this
      exact this.1
  · intro c hc
    rcases List.mem_append.mp hc with h | h
    · exact (L.chars_clean hL c h).2
    · have := hclean c h
      simp only [Bool.and_eq_true, Bool.not_eq_true'] at this
      exact this.2

set_option maxHeartbeats 1000000 in
/-- Master lemma: on `lit ++ word` where every rule's handler yields null (or
  no pattern applies), `process` returns null. -/
theorem process_none_lit_word (rt : JsRuntime) (now : ℕ) {L : NumLit}
    (hL : L.wfB = true) (rest : List Char)
    (hclean : wordCleanOk rest = true)
    (h1 : mathNullOk rest = true) (h2 : dateNullOk rest = true)
    (h3 : tzNullOk rest = true) (h4 : unitNullOk rest = true)
    (h5 : curNullOk rest = true) :
    (process rt now [] (L.chars ++ rest)).1 = none := by
  have hpre := preprocess_lit_word hL hclean
  unfold process engineRules
  have hm : assocGet (preprocessInput (L.chars ++ rest)) ([] : Cache) = none := by
    rw [hpre]
    rfl
  have ht : tryRules
      [mathRule rt, dateRule rt now, timezoneRule rt now, unitRule, currencyRule,
        formulaRule] (preprocessInput (L.chars ++ rest)) = none := by
    rw [hpre]
    rw [tryRules_cons_none (r := mathRule rt)
      (tryPatterns_handler_none _ (handleMath_none rt hL rest h1))]
    rw [tryRules_cons_none (r := dateRule rt now)
      (tryPatterns_handler_none _ (handleDate_none rt now hL rest h2))]
    rw [tryRules_cons_none (r := timezoneRule rt now)
      (tryPatterns_handler_none _ (handleTz_none rt now (L := L) rest h3))]
    rw [tryRules_cons_none (r := unitRule)
      (tryPatterns_handler_none _ (handleUnit_none hL rest h4))]
    rw [tryRules_cons_none (r := currencyRule)
      (tryPatterns_handler_none _ (handleCurrency_none hL rest h5))]
    rw [tryRules_cons_none (r := formulaRule)
      (tryPatterns_handler_none _ (handleFormula_none hL rest))]
    rfl
  rw [processWith_miss_none hm ht]

/-! ### Positive conversion paths on `lit ++ word` (currency and unit rules) -/

theorem currencyScan_lit {L : NumLit} (hL : L.wfB = true) (rest u : List Char)
    (hsep : sepOkB rest = true) (hhead : headNonWsB rest = true)
    (hsw : scanWord curWords rest = some (u, [])) :
    currencyScan (L.chars ++ rest) = some (L.chars, u) := by
  simp only [currencyScan, scanNum_lit L hL rest hsep,
    skipWs_eq_self (headNonWs_to hhead), hsw, List.isEmpty_nil, if_true]

theorem handleCurrency_usd {L : NumLit} (hL : L.wfB = true) (rest u : List Char)
    (hsep : sepOkB rest = true) (hhead : headNonWsB rest = true)
    (hsw : scanWord curWords rest = some (u, []))
    (hmap : (assocGet u currencyMap).getD u = "USD".toList) :
    handleCurrencyConversion (L.chars ++ rest)
      = .ok (some ⟨.currency, "（".toList
          ++ f64ToFixed 4 (fmul (parseF64 L.chars) (rateOf "USD".toList "CNY".toList))
          ++ " 人民币）".toList⟩) := by
  simp only [handleCurrencyConversion, currencyScan_lit hL rest u hsep hhead hsw, hmap]
  rw [if_pos trivial]

theorem handleCurrency_cny {L : NumLit} (hL : L.wfB = true) (rest u : List Char)
    (hsep : sepOkB rest = true) (hhead : headNonWsB rest = true)
    (hsw : scanWord curWords rest = some (u, []))
    (hmap : (assocGet u currencyMap).getD u = "CNY".toList) :
    handleCurrencyConversion (L.chars ++ rest)
      = .ok (some ⟨.currency, "（".toList
          ++ f64ToFixed 4 (fmul (parseF64 L.chars) (rateOf "CNY".toList "USD".toList))
          ++ " 美元）".toList⟩) := by
  simp only [handleCurrencyConversion, currencyScan_lit hL rest u hsep hhead hsw, hmap]
  rw [if_neg (by decide), if_pos trivial]

set_option maxHeartbeats 1000000 in
/-- On `lit ++ word` where the first four rules' handlers yield null and the
  currency pattern and handler hit, `process` returns the handler's result. -/
theorem process_currency_lit_word (rt : JsRuntime) (now : ℕ) {L : NumLit}
    (hL : L.wfB = true) (rest : List Char) {res : Result}
    (hclean : wordCleanOk rest = true)
    (h1 : mathNullOk rest = true) (h2 : dateNullOk rest = true)
    (h3 : tzNullOk rest = true) (h4 : unitNullOk rest = true)
    (hpat : cur1Match (L.chars ++ rest) = true)
    (hres : handleCurrencyConversion (L.chars ++ rest) = .ok (some res)) :
    (process rt now [] (L.chars ++ rest)).1 = some res := by
  have hpre := preprocess_lit_word hL hclean
  unfold process engineRules
  have hm : assocGet (preprocessInput (L.chars ++ rest)) ([] : Cache) = none := by
    rw [hpre]
    rfl
  have ht : tryRules
      [mathRule rt, dateRule rt now, timezoneRule rt now, unitRule, currencyRule,
        formulaRule] (preprocessInput (L.chars ++ rest)) = some res := by
    rw [hpre]
    rw [tryRules_cons_none (r := mathRule rt)
      (tryPatterns_handler_none _ (handleMath_none rt hL rest h1))]
    rw [tryRules_cons_none (r := dateRule rt now)
      (tryPatterns_handler_none _ (handleDate_none rt now hL rest h2))]
    rw [tryRules_cons_none (r := timezoneRule rt now)
      (tryPatterns_handler_none _ (handleTz_none rt now (L := L) rest h3))]
    rw [tryRules_cons_none (r := unitRule)
      (tryPatterns_handler_none _ (handleUnit_none hL rest h4))]
    exact tryRules_cons_some (r := currencyRule)
      (tryPatterns_hit _ hres ⟨cur1Match, by simp [currencyRule], hpat⟩)
  rw [processWith_miss_some hm ht]

theorem unit2Match_lit {L : NumLit} (hL : L.wfB = true) (rest u r : List Char)
    (hsep : sepOkB rest = true) (hhead : headNonWsB rest = true)
    (hlw : scanWord lenWords rest = some (u, r))
    (hend : optWordEnd [('等' :: '于' :: []), ('转' :: '换' :: '为' :: [])] r = true) :
    unit2Match (L.chars ++ rest) = true := by
  simp only [unit2Match, scanNum_lit L hL rest hsep,
    skipWs_eq_self (headNonWs_to hhead), hlw, hend]

theorem handleUnit_meters {L : NumLit} (hL : L.wfB = true) (rest u r : List Char)
    (hsep : sepOkB rest = true) (hhead : headNonWsB rest = true)
    (htemp : (scanWord tempWords rest).isNone = true)
    (hlw : scanWord lenWords rest = some (u, r))
    (hu : u = ['米'] ∨ u = ['m']) :
    handleUnitConversion (L.chars ++ rest)
      = .ok (some ⟨.conversion,
          f64ToFixed 2 (fmul (parseF64 L.chars) (fLit 328084 100000)) ++ "英尺".toList⟩) := by
  rw [Option.isNone_iff_eq_none] at htemp
  have htempscan : tempScan (L.chars ++ rest) = none := by
    simp only [tempScan, scanNum_lit L hL rest hsep,
      skipWs_eq_self (headNonWs_to hhead), htemp]
  have hlenscan : lengthScan (L.chars ++ rest) = some (L.chars, u) := by
    simp only [lengthScan, scanNum_lit L hL rest hsep,
      skipWs_eq_self (headNonWs_to hhead), hlw]
  simp only [handleUnitConversion, htempscan, hlenscan]
  rw [if_pos hu]

set_option maxHeartbeats 1000000 in
/-- On `lit ++ word` where the first three rules' handlers yield null and the
  unit pattern and handler hit, `process` returns the handler's result. -/
theorem process_unit_lit_word (rt : JsRuntime) (now : ℕ) {L : NumLit}
    (hL : L.wfB = true) (rest : List Char) {res : Result}
    (hclean : wordCleanOk rest = true)
    (h1 : mathNullOk rest = true) (h2 : dateNullOk rest = true)
    (h3 : tzNullOk rest = true)
    (hpat : unit2Match (L.chars ++ rest) = true)
    (hres : handleUnitConversion (L.chars ++ rest) = .ok (some res)) :
    (process rt now [] (L.chars ++ rest)).1 = some res := by
  have hpre := preprocess_lit_word hL hclean
  unfold process engineRules
  have hm : assocGet (preprocessInput (L.chars ++ rest)) ([] : Cache) = none := by
    rw [hpre]
    rfl
  have ht : tryRules
      [mathRule rt, dateRule rt now, timezoneRule rt now, unitRule, currencyRule,
        formulaRule] (preprocessInput (L.chars ++ rest)) = some res := by
    rw [hpre]
    rw [tryRules_cons_none (r := mathRule rt)
      (tryPatterns_handler_none _ (handleMath_none rt hL rest h1))]
    rw [tryRules_cons_none (r := dateRule rt now)
      (tryPatterns_handler_none _ (handleDate_none rt now hL rest h2))]
    rw [tryRules_cons_none (r := timezoneRule rt now)
      (tryPatterns_handler_none _ (handleTz_none rt now (L := L) rest h3))]
    exact tryRules_cons_some (r := unitRule)
      (tryPatterns_hit _ hres ⟨unit2Match, by simp [unitRule], hpat⟩)
  rw [processWith_miss_some hm ht]

theorem mathAny_head {input : List Char} (hm : mathAnyMatch input = true) :
    ∃ d, input.head? = some d ∧ isDigitChar d = true := by
  by_cases hd : ∃ d, input.head? = some d ∧ isDigitChar d = true
  · exact hd
  · exfalso
    have hn : ∀ c, input.head? = some c → isDigitChar c = false := by
      intro c hc
      cases h : isDigitChar c with
      | false => rfl
      | true => exact absurd ⟨c, hc, h⟩ hd
    have hsn := scanNum_none_of_head hn
    unfold mathAnyMatch math1Match math2Match math3Match basicScan at hm
    rw [hsn] at hm
    simp at hm

theorem mem_replaceAllAux {w r : List Char} {c : Char} (hw : c ∉ w) :
    ∀ (fuel : ℕ) (s : List Char), c ∈ s → c ∈ replaceAllAux w r fuel s := by
  intro fuel
  induction fuel with
  | zero =>
    intro s hc
    exact hc
  | succ f ih =>
    intro s hc
    rw [replaceAllAux_succ]
    by_cases hp : w.isPrefixOf s = true ∧ w.isEmpty = false
    · rw [if_pos (by simp only [Bool.and_eq_true, Bool.not_eq_true']; exact hp)]
      obtain ⟨t, ht⟩ := List.isPrefixOf_iff_prefix.mp hp.1
      have hcd : c ∈ s.drop w.length := by
        rw [← ht, List.drop_left]
        rw [← ht] at hc
        rcases List.mem_append.mp hc with h | h
        · exact absurd h hw
        · exact h
      exact List.mem_append_right _ (ih _ hcd)
    · rw [if_neg (by simp only [Bool.and_eq_true, Bool.not_eq_true']; exact hp)]
      cases s with
      | nil => exact absurd hc (List.not_mem_nil c)
      | cons a l =>
        show c ∈ a :: replaceAllAux w r f l
        rcases List.mem_cons.mp hc with he | hmem
        · exact he ▸ List.mem_cons_self a _
        · exact List.mem_cons.mpr (Or.inr (ih _ hmem))

theorem mem_replaceAll {w r s : List Char} {c : Char} (hc : c ∈ s) (hw : c ∉ w) :
    c ∈ replaceAll w r s :=
  mem_replaceAllAux hw _ s hc

theorem not_mem_of_digit {d : Char} {w : List Char} (hd : isDigitChar d = true)
    (hw : w.all (fun c => !isDigitChar c) = true) : d ∉ w := by
  intro hm
  rw [List.all_eq_true] at hw
  have h := hw d hm
  rw [hd] at h
  exact Bool.noConfusion h

/-- a digit of the input survives all six Chinese-operator replacements
  (every replacement pattern is digit-free) -/
theorem mem_applyReps_digit {s : List Char} {d : Char} (hd : isDigitChar d = true)
    (hc : d ∈ s) : d ∈ applyReps s := by
  unfold applyReps repPats
  simp only [List.foldl_cons, List.foldl_nil]
  exact mem_replaceAll (mem_replaceAll (mem_replaceAll (mem_replaceAll (mem_replaceAll
    (mem_replaceAll hc (not_mem_of_digit hd (by decide)))
    (not_mem_of_digit hd (by decide))) (not_mem_of_digit hd (by decide)))
    (not_mem_of_digit hd (by decide))) (not_mem_of_digit hd (by decide)))
    (not_mem_of_digit hd (by decide))

theorem dropWhile_ne_nil_of_mem {p : Char → Bool} :
    ∀ {l : List Char} {c : Char}, c ∈ l → p c = false → l.dropWhile p ≠ [] := by
  intro l
  induction l with
  | nil =>
    intro c hc _
    exact absurd hc (List.not_mem_nil c)
  | cons a t ih =>
    intro c hc hp
    by_cases ha : p a = true
    · rw [List.dropWhile_cons_of_pos ha]
      rcases List.mem_cons.mp hc with he | hmem
      · subst he
        rw [ha] at hp
        exact Bool.noConfusion hp
      · exact ih hmem hp
    · rw [List.dropWhile_cons_of_neg ha]
      simp

theorem scanNum_isSome_of_head {c : Char} {l : List Char} (hc : isDigitChar c = true) :
    (scanNum (c :: l)).isSome = true := by
  simp only [scanNum, List.takeWhile_cons_of_pos hc, List.isEmpty_cons,
    Bool.false_eq_true, if_false]
  split
  · rfl
  · split
    · split
      · rfl
      · rfl
    · rfl

theorem numVal_nonneg (s : List Char) : qIsNeg (numVal s) = false := by
  simp only [qIsNeg, numVal, decide_eq_false_iff_not, not_lt]
  positivity

/-- an expression containing a digit always yields an extracted literal -/
theorem extractNum_some_of_digit {s : List Char} {d : Char} (hd : isDigitChar d = true)
    (hc : d ∈ s) : ∃ n, extractNum s = some n := by
  have hne : s.dropWhile (fun c => !isDigitChar c) ≠ [] :=
    dropWhile_ne_nil_of_mem hc (by simp [hd])
  obtain ⟨c, t, hct⟩ := List.exists_cons_of_ne_nil hne
  have hcd : isDigitChar c = true := by
    have h := dropWhile_head_not (p := fun c => !isDigitChar c)
      (l := s) (c := c) (by rw [hct]; rfl)
    simpa using h
  have hsome : (scanNum (s.dropWhile (fun c => !isDigitChar c))).isSome = true := by
    rw [hct]
    exact scanNum_isSome_of_head hcd
  obtain ⟨⟨n, r2⟩, hsn⟩ := Option.isSome_iff_exists.mp hsome
  refine ⟨n, ?_⟩
  simp only [extractNum, hsn]

theorem unit2Match_lit_ok {L : NumLit} (hL : L.wfB = true) (rest : List Char)
    (hcond : unit2Ok rest = true) : unit2Match (L.chars ++ rest) = true := by
  unfold unit2Ok at hcond
  simp only [Bool.and_eq_true] at hcond
  obtain ⟨⟨hsep, hhead⟩, hm⟩ := hcond
  cases hlw : scanWord lenWords rest with
  | none =>
    rw [hlw] at hm
    exact Bool.noConfusion hm
  | some ur =>
    obtain ⟨u, r⟩ := ur
    rw [hlw] at hm
    exact unit2Match_lit hL rest u r hsep hhead hlw (by simpa using hm)

/-! ### The general currency family: every input matched by a currency
  pattern is `amount ++ ws ++ word ++ ws ++ suffix?`, and on the EUR/GBP
  words every rule's handler yields null (C7). -/

theorem ws_not_digit {c : Char} (h : isWsChar c = true) : isDigitChar c = false := by
  unfold isWsChar at h
  simp only [Bool.or_eq_true, decide_eq_true_eq] at h
  rw [Bool.eq_false_iff]
  intro hcon
  unfold isDigitChar at hcon
  simp only [Bool.and_eq_true, decide_eq_true_eq] at hcon
  omega

theorem ws_ne_dot {c : Char} (h : isWsChar c = true) : c ≠ '.' := by
  intro he
  subst he
  exact absurd h (by decide)

theorem ws_not_op {c : Char} (h : isWsChar c = true) : isOpChar c = false := by
  have h1 : c ≠ '+' := fun he => by subst he; exact absurd h (by decide)
  have h2 : c ≠ '-' := fun he => by subst he; exact absurd h (by decide)
  have h3 : c ≠ '*' := fun he => by subst he; exact absurd h (by decide)
  have h4 : c ≠ '/' := fun he => by subst he; exact absurd h (by decide)
  simp [isOpChar, h1, h2, h3, h4]

theorem isPrefixOf_false_of_second {a b c : Char} {w t : List Char} (h : b ≠ c) :
    (a :: b :: w).isPrefixOf (a :: c :: t) = false := by
  simp [List.isPrefixOf_cons₂, h]

theorem skipWs_ws_append {W X : List Char} (hW : ∀ c ∈ W, isWsChar c = true)
    (hX : ∀ c, X.head? = some c → isWsChar c = false) :
    skipWs (W ++ X) = X := by
  induction W with
  | nil => exact skipWs_eq_self hX
  | cons c w ih =>
    rw [List.cons_append]
    show List.dropWhile isWsChar (c :: (w ++ X)) = X
    rw [List.dropWhile_cons_of_pos (hW c (by simp))]
    exact ih fun c2 hc2 => hW c2 (by simp [hc2])

theorem sepOkB_ws_append {W X : List Char} (hW : ∀ c ∈ W, isWsChar c = true)
    (hX : ∀ c, X.head? = some c → isDigitChar c = false ∧ c ≠ '.') :
    sepOkB (W ++ X) = true := by
  unfold sepOkB
  cases W with
  | nil =>
    simp only [List.nil_append]
    cases X with
    | nil => rfl
    | cons c r =>
      have h := hX c rfl
      simp [h.1, h.2]
  | cons c w =>
    have hws := hW c (by simp)
    simp [ws_not_digit hws, ws_ne_dot hws]

theorem not_mem_uws {c : Char} {u W2 S : List Char} (hu : c ∉ u) (hS : c ∉ S)
    (hW2 : ∀ x ∈ W2, isWsChar x = true) (hcw : isWsChar c = false) :
    c ∉ u ++ (W2 ++ S) := by
  intro hm
  rcases List.mem_append.mp hm with h | h
  · exact hu h
  · rcases List.mem_append.mp h with h | h
    · rw [hW2 c h] at hcw
      exact Bool.noConfusion hcw
    · exact hS h

theorem not_mem_full {L : NumLit} (hL : L.wfB = true) {W1 X : List Char} {c : Char}
    (hW1 : ∀ x ∈ W1, isWsChar x = true)
    (hdig : isDigitChar c = false) (hdot : c ≠ '.') (hws : isWsChar c = false)
    (hX : c ∉ X) : c ∉ L.chars ++ (W1 ++ X) := by
  intro hm
  rcases List.mem_append.mp hm with h | h
  · rcases L.chars_classes hL c h with h2 | h2
    · rw [h2] at hdig
      exact Bool.noConfusion hdig
    · exact hdot h2
  · rcases List.mem_append.mp h with h | h
    · rw [hW1 c h] at hws
      exact Bool.noConfusion hws
    · exact hX h

/-- inversion of the greedy literal scan: a successful `scanNum` consumed
  exactly a well-formed unsigned literal -/
theorem scanNum_decomp {s a r : List Char} (h : scanNum s = some (a, r)) :
    ∃ L : NumLit, L.wfB = true ∧ L.chars = a ∧ s = a ++ r := by
  simp only [scanNum] at h
  by_cases hemp : (s.takeWhile isDigitChar).isEmpty = true
  · rw [if_pos hemp] at h
    exact absurd h (by simp)
  · rw [if_neg hemp] at h
    rw [Bool.not_eq_true] at hemp
    have hall : (s.takeWhile isDigitChar).all isDigitChar = true :=
      List.all_eq_true.mpr fun c hc => List.mem_takeWhile_imp hc
    have hsplit := List.takeWhile_append_dropWhile isDigitChar s
    split at h
    · simp only [Option.some.injEq, Prod.mk.injEq] at h
      obtain ⟨ha, hr⟩ := h
      refine ⟨⟨s.takeWhile isDigitChar, none⟩, ?_, ?_, ?_⟩
      · simp [NumLit.wfB, hemp, hall]
      · simp [NumLit.chars, NumLit.fracChars, ha]
      · rw [← ha, ← hr]
        exact hsplit.symm
    · rename_i c r2 heq
      split at h
      · rename_i hdot
        subst hdot
        split at h
        · simp only [Option.some.injEq, Prod.mk.injEq] at h
          obtain ⟨ha, hr⟩ := h
          refine ⟨⟨s.takeWhile isDigitChar, none⟩, ?_, ?_, ?_⟩
          · simp [NumLit.wfB, hemp, hall]
          · simp [NumLit.chars, NumLit.fracChars, ha]
          · rw [← ha, ← hr]
            exact hsplit.symm
        · rename_i hfe
          rw [Bool.not_eq_true] at hfe
          simp only [Option.some.injEq, Prod.mk.injEq] at h
          obtain ⟨ha, hr⟩ := h
          have hfall : (r2.takeWhile isDigitChar).all isDigitChar = true :=
            List.all_eq_true.mpr fun x hx => List.mem_takeWhile_imp hx
          refine ⟨⟨s.takeWhile isDigitChar, some (r2.takeWhile isDigitChar)⟩, ?_, ?_, ?_⟩
          · simp [NumLit.wfB, hemp, hall, hfe, hfall]
          · simp [NumLit.chars, NumLit.fracChars, ha]
          · rw [← ha, ← hr]
            have hr2split := List.takeWhile_append_dropWhile isDigitChar r2
            calc s = s.takeWhile isDigitChar ++ s.dropWhile isDigitChar := hsplit.symm
              _ = s.takeWhile isDigitChar ++ ('.' :: r2) := by rw [heq]
              _ = s.takeWhile isDigitChar
                    ++ ('.' :: (r2.takeWhile isDigitChar ++ r2.dropWhile isDigitChar)) := by
                    rw [hr2split]
              _ = (s.takeWhile isDigitChar ++ '.' :: r2.takeWhile isDigitChar)
                    ++ r2.dropWhile isDigitChar := by simp
      · simp only [Option.some.injEq, Prod.mk.injEq] at h
        obtain ⟨ha, hr⟩ := h
        refine ⟨⟨s.takeWhile isDigitChar, none⟩, ?_, ?_, ?_⟩
        · simp [NumLit.wfB, hemp, hall]
        · simp [NumLit.chars, NumLit.fracChars, ha]
        · rw [← ha, ← hr]
          exact hsplit.symm

/-- inversion of the word alternation: the matched word is a member and a
  prefix -/
theorem scanWord_decomp {ws : List (List Char)} {s u r : List Char}
    (h : scanWord ws s = some (u, r)) : u ∈ ws ∧ s = u ++ r := by
  induction ws with
  | nil => exact absurd h (by simp [scanWord])
  | cons w rest ih =>
    rw [scanWord] at h
    by_cases hp : w.isPrefixOf s = true
    · rw [if_pos hp] at h
      simp only [Option.some.injEq, Prod.mk.injEq] at h
      obtain ⟨hu, hr⟩ := h
      subst hu
      obtain ⟨t, ht⟩ := List.isPrefixOf_iff_prefix.mp hp
      refine ⟨List.mem_cons_self _ _, ?_⟩
      rw [← ht, List.drop_left] at hr
      rw [← ht, hr]
    · rw [if_neg hp] at h
      obtain ⟨hm, hs⟩ := ih h
      exact ⟨List.mem_cons_of_mem _ hm, hs⟩

theorem scanWord_append_split {l1 l2 : List (List Char)} {s : List Char}
    {x : List Char × List Char} (h : scanWord (l1 ++ l2) s = some x) :
    scanWord l1 s = some x ∨ (scanWord l1 s = none ∧ scanWord l2 s = some x) := by
  induction l1 with
  | nil => exact Or.inr ⟨rfl, by simpa using h⟩
  | cons w rest ih =>
    rw [List.cons_append, scanWord] at h
    by_cases hp : w.isPrefixOf s = true
    · rw [if_pos hp] at h
      left
      rw [scanWord, if_pos hp]
      exact h
    · rw [if_neg hp] at h
      rcases ih h with h1 | ⟨h1, h2⟩
      · left
        rw [scanWord, if_neg hp]
        exact h1
      · refine Or.inr ⟨?_, h2⟩
        rw [scanWord, if_neg hp]
        exact h1

/-- inversion of the optional-trailing-word check -/
theorem optWordEnd_decomp {ws : List (List Char)} {r : List Char}
    (h : optWordEnd ws r = true) :
    (∀ c ∈ r, isWsChar c = true) ∨
      ∃ w2 u, (∀ c ∈ w2, isWsChar c = true) ∧ u ∈ ws ∧ r = w2 ++ u := by
  simp only [optWordEnd] at h
  by_cases hemp : (skipWs r).isEmpty = true
  · left
    have hnil : skipWs r = [] := by
      cases hs : skipWs r with
      | nil => rfl
      | cons a l =>
        rw [hs] at hemp
        simp at hemp
    exact List.dropWhile_eq_nil_iff.mp hnil
  · rw [if_neg (by simpa using hemp)] at h
    right
    cases hsw : scanWord ws (skipWs r) with
    | none =>
      rw [hsw] at h
      exact absurd h (by simp)
    | some ur =>
      obtain ⟨u, r4⟩ := ur
      rw [hsw] at h
      obtain ⟨hm, hs⟩ := scanWord_decomp hsw
      have hr4 : r4 = [] := by
        cases r4 with
        | nil => rfl
        | cons a l => simp at h
      refine ⟨r.takeWhile isWsChar, u, fun c hc => List.mem_takeWhile_imp hc, hm, ?_⟩
      conv_lhs => rw [← List.takeWhile_append_dropWhile isWsChar r]
      rw [show r.dropWhile isWsChar = skipWs r from rfl, hs, hr4, List.append_nil]

/-- the four rule handlers before the currency rule yield null on the
  currency family shape -/
theorem handleMath_none_ws (rt : JsRuntime) {L : NumLit} (hL : L.wfB = true)
    {W1 X : List Char} (hW1 : ∀ c ∈ W1, isWsChar c = true)
    (hhead : ∀ c, X.head? = some c →
      isWsChar c = false ∧ isOpChar c = false ∧ isDigitChar c = false ∧ c ≠ '.')
    (hclean : ∀ c ∈ repHeadChars, c ∉ L.chars ++ (W1 ++ X))
    (hq : 'q' ∉ L.chars ++ (W1 ++ X)) (hb : 'b' ∉ L.chars ++ (W1 ++ X)) :
    handleMathCalculation rt (L.chars ++ (W1 ++ X)) = .ok none := by
  have hsep : sepOkB (W1 ++ X) = true :=
    sepOkB_ws_append hW1 fun c hc => ⟨(hhead c hc).2.2.1, (hhead c hc).2.2.2⟩
  have hexpr : applyReps (L.chars ++ (W1 ++ X)) = L.chars ++ (W1 ++ X) :=
    applyReps_clean hclean
  have hq2 : containsSub "sqrt".toList (L.chars ++ (W1 ++ X)) = false :=
    containsSub_false_of_not_mem (c := 'q') (by decide) hq
  have hb2 : containsSub "cbrt".toList (L.chars ++ (W1 ++ X)) = false :=
    containsSub_false_of_not_mem (c := 'b') (by decide) hb
  have hbasic : basicScan (L.chars ++ (W1 ++ X)) = none := by
    simp only [basicScan, scanNum_lit L hL _ hsep,
      skipWs_ws_append hW1 (fun c hc => (hhead c hc).1)]
    cases X with
    | nil => rfl
    | cons c r => simp [(hhead c rfl).2.1]
  simp only [handleMathCalculation, hexpr, hq2, hb2, hbasic, Bool.false_eq_true, if_false]

theorem handleDate_none_ws (rt : JsRuntime) (now : ℕ) {L : NumLit} (hL : L.wfB = true)
    {W1 X : List Char} (hW1 : ∀ c ∈ W1, isWsChar c = true)
    (hhead : ∀ c, X.head? = some c →
      isWsChar c = false ∧ isDigitChar c = false ∧ c ≠ '.')
    (hunits : scanWord [['天'], ['日'], ['周'], ['月'], ['年']] X = none) :
    handleDateCalculation rt now (L.chars ++ (W1 ++ X)) = .ok none := by
  have hsep : sepOkB (W1 ++ X) = true :=
    sepOkB_ws_append hW1 fun c hc => ⟨(hhead c hc).2.1, (hhead c hc).2.2⟩
  have hrel : relativeScan (L.chars ++ (W1 ++ X)) = none := by
    simp only [relativeScan, scanDigits_lit L hL _ hsep]
    cases hf : L.fracPart with
    | some f =>
      have hfc : L.fracChars = '.' :: f := by
        unfold NumLit.fracChars
        rw [hf]
      rw [hfc]
      rw [show (('.' :: f) ++ (W1 ++ X) : List Char) = '.' :: (f ++ (W1 ++ X)) by simp]
      rw [skipWs_eq_self (by
        intro c hc
        simp only [List.head?_cons, Option.some.injEq] at hc
        subst hc
        decide)]
      rw [scanWord_none _ _ (by
        intro w hw
        simp only [List.mem_cons, List.not_mem_nil, or_false] at hw
        rcases hw with h | h | h | h | h <;> subst h <;>
          exact isPrefixOf_false_of_head rfl rfl (by decide))]
    | none =>
      have hfc : L.fracChars = [] := by
        unfold NumLit.fracChars
        rw [hf]
      rw [hfc, List.nil_append, skipWs_ws_append hW1 (fun c hc => (hhead c hc).1), hunits]
  have hspecial : assocGet (L.chars ++ (W1 ++ X)) specialDates = none := by
    obtain ⟨d, hd, hdig⟩ := L.chars_head hL
    apply assocGet_none_of_digit_head (d := d) ?_ hdig specialDates (by decide)
    rw [List.head?_append_of_ne_nil _ (ne_nil_of_head? hd)]
    exact hd
  simp only [handleDateCalculation, hrel, hspecial]

theorem handleTz_none_last (rt : JsRuntime) (now : ℕ) (input : List Char)
    (h : ∀ c, input.getLast? = some c → c ≠ '间') :
    handleTimezoneQuery rt now input = .ok none := by
  simp only [handleTimezoneQuery, cityScan_none_of_last h]

theorem handleUnit_none_ws {L : NumLit} (hL : L.wfB = true)
    {W1 X : List Char} (hW1 : ∀ c ∈ W1, isWsChar c = true)
    (hhead : ∀ c, X.head? = some c →
      isWsChar c = false ∧ isDigitChar c = false ∧ c ≠ '.')
    (htempw : scanWord tempWords X = none) (hlenw : scanWord lenWords X = none) :
    handleUnitConversion (L.chars ++ (W1 ++ X)) = .ok none := by
  have hsep : sepOkB (W1 ++ X) = true :=
    sepOkB_ws_append hW1 fun c hc => ⟨(hhead c hc).2.1, (hhead c hc).2.2⟩
  have hskip := skipWs_ws_append hW1 fun c hc => (hhead c hc).1
  have ht : tempScan (L.chars ++ (W1 ++ X)) = none := by
    simp only [tempScan, scanNum_lit L hL _ hsep, hskip, htempw]
  have hl : lengthScan (L.chars ++ (W1 ++ X)) = none := by
    simp only [lengthScan, scanNum_lit L hL _ hsep, hskip, hlenw]
  simp only [handleUnitConversion, ht, hl]

theorem handleCurrency_none_src {input : List Char}
    (h : ∀ a u, currencyScan input = some (a, u) →
      (assocGet u currencyMap).getD u ≠ "USD".toList ∧
      (assocGet u currencyMap).getD u ≠ "CNY".toList) :
    handleCurrencyConversion input = .ok none := by
  cases hscan : currencyScan input with
  | none => simp only [handleCurrencyConversion, hscan]
  | some au =>
    obtain ⟨a, u⟩ := au
    have hne := h a u hscan
    simp only [handleCurrencyConversion, hscan]
    rw [if_neg hne.1, if_neg hne.2]

/-- last character of the family shape is never 间 -/
theorem family_last_ne {L : NumLit} (hL : L.wfB = true) (W1 u W2 S : List Char)
    (hW2 : ∀ c ∈ W2, isWsChar c = true)
    (hu : u.all (fun c => c != '间') = true)
    (hs : S.all (fun c => c != '间') = true)
    (hune : u ≠ []) :
    ∀ c, (L.chars ++ (W1 ++ (u ++ (W2 ++ S)))).getLast? = some c → c ≠ '间' := by
  intro c hc he
  subst he
  rw [List.all_eq_true] at hu hs
  cases hS : S with
  | cons s ss =>
    rw [hS] at hc
    rw [List.getLast?_append_of_ne_nil _ (by simp [hune]),
      List.getLast?_append_of_ne_nil _ (by simp [hune]),
      List.getLast?_append_of_ne_nil _ (by simp),
      List.getLast?_append_of_ne_nil _ (by simp)] at hc
    have hcm := mem_of_getLast? hc
    have := hs '间' (by rw [hS]; exact hcm)
    simp at this
  | nil =>
    rw [hS, List.append_nil] at hc
    cases hW2n : W2 with
    | nil =>
      rw [hW2n, List.append_nil] at hc
      rw [List.getLast?_append_of_ne_nil _ (by simp [hune]),
        List.getLast?_append_of_ne_nil _ hune] at hc
      have hcm := mem_of_getLast? hc
      have := hu '间' hcm
      simp at this
    | cons w2c w2r =>
      rw [hW2n] at hc
      rw [List.getLast?_append_of_ne_nil _ (by simp [hune]),
        List.getLast?_append_of_ne_nil _ (by simp),
        List.getLast?_append_of_ne_nil _ (by simp)] at hc
      have hcm := mem_of_getLast? hc
      have := hW2 '间' (by rw [hW2n]; exact hcm)
      exact absurd this (by decide)

/-- the word-level scans on an EUR/GBP currency word followed by anything -/
theorem scans_eurgbp {u : List Char} (hu : u ∈ eurGbpWords) (t : List Char) :
    scanWord [['天'], ['日'], ['周'], ['月'], ['年']] (u ++ t) = none ∧
    scanWord tempWords (u ++ t) = none ∧
    scanWord lenWords (u ++ t) = none ∧
    scanWord curWords (u ++ t) = some (u, t) := by
  simp only [eurGbpWords, List.mem_cons, List.not_mem_nil, or_false] at hu
  rcases hu with h | h | h | h <;> subst h <;>
    refine ⟨?_, ?_, ?_, ?_⟩ <;>
    simp +decide [scanWord, tempWords, lenWords, curWords, List.isPrefixOf,
      List.cons_append]

set_option maxHeartbeats 1000000 in
/-- On the family shape with an EUR/GBP word, every rule's handler yields
  null, so the whole dispatch does. -/
theorem tryRules_null_family (rt : JsRuntime) (now : ℕ) {L : NumLit} (hL : L.wfB = true)
    (W1 u W2 S : List Char)
    (hW1 : ∀ c ∈ W1, isWsChar c = true) (hW2 : ∀ c ∈ W2, isWsChar c = true)
    (hcond : famOkB u S = true)
    (hdate : scanWord [['天'], ['日'], ['周'], ['月'], ['年']] (u ++ (W2 ++ S)) = none)
    (htempw : scanWord tempWords (u ++ (W2 ++ S)) = none)
    (hlenw : scanWord lenWords (u ++ (W2 ++ S)) = none)
    (hcurw : scanWord curWords (u ++ (W2 ++ S)) = some (u, W2 ++ S))
    (hsrc : (assocGet u currencyMap).getD u ≠ "USD".toList ∧
      (assocGet u currencyMap).getD u ≠ "CNY".toList) :
    tryRules (engineRules rt now) (L.chars ++ (W1 ++ (u ++ (W2 ++ S)))) = none := by
  unfold famOkB at hcond
  simp only [Bool.and_eq_true] at hcond
  obtain ⟨⟨⟨hhd, hju⟩, hjs⟩, hrepc⟩ := hcond
  have hune : u ≠ [] := by
    intro he
    rw [he] at hhd
    simp at hhd
  have hhead : ∀ c, (u ++ (W2 ++ S)).head? = some c →
      isWsChar c = false ∧ isOpChar c = false ∧ isDigitChar c = false ∧ c ≠ '.' := by
    cases hu0 : u with
    | nil => exact absurd hu0 hune
    | cons c0 ur =>
      rw [hu0] at hhd
      simp only [List.head?_cons, Bool.and_eq_true, Bool.not_eq_true', bne_iff_ne] at hhd
      intro c hc
      simp only [List.cons_append, List.head?_cons, Option.some.injEq] at hc
      subst hc
      exact ⟨hhd.1.1.1, hhd.1.1.2, hhd.1.2, hhd.2⟩
  have hreps : ∀ c ∈ ('加' :: '减' :: '乘' :: '除' :: '的' :: 'q' :: 'b' :: []),
      c ∉ u ++ (W2 ++ S) ∧ isWsChar c = false ∧ isDigitChar c = false ∧ c ≠ '.' := by
    rw [List.all_eq_true] at hrepc
    intro c hc
    have h1 := hrepc c hc
    simp only [Bool.and_eq_true, decide_eq_true_eq, Bool.not_eq_true'] at h1
    refine ⟨not_mem_uws h1.1.1 h1.1.2 hW2 h1.2, h1.2, ?_, ?_⟩
    · simp only [List.mem_cons, List.not_mem_nil, or_false] at hc
      rcases hc with h | h | h | h | h | h | h <;> subst h <;> decide
    · simp only [List.mem_cons, List.not_mem_nil, or_false] at hc
      rcases hc with h | h | h | h | h | h | h <;> subst h <;> decide
  have hmathnull : handleMathCalculation rt (L.chars ++ (W1 ++ (u ++ (W2 ++ S))))
      = .ok none := by
    apply handleMath_none_ws rt hL hW1 hhead
    · intro c hc
      have h2 := hreps c (by
        simp only [repHeadChars, List.mem_cons, List.not_mem_nil, or_false] at hc
        simp only [List.mem_cons, List.not_mem_nil, or_false]
        tauto)
      exact not_mem_full hL hW1 h2.2.2.1 h2.2.2.2 h2.2.1 h2.1
    · have h2 := hreps 'q' (by simp)
      exact not_mem_full hL hW1 h2.2.2.1 h2.2.2.2 h2.2.1 h2.1
    · have h2 := hreps 'b' (by simp)
      exact not_mem_full hL hW1 h2.2.2.1 h2.2.2.2 h2.2.1 h2.1
  have hdatenull : handleDateCalculation rt now (L.chars ++ (W1 ++ (u ++ (W2 ++ S))))
      = .ok none :=
    handleDate_none_ws rt now hL hW1
      (fun c hc => ⟨(hhead c hc).1, (hhead c hc).2.2.1, (hhead c hc).2.2.2⟩) hdate
  have htznull : handleTimezoneQuery rt now (L.chars ++ (W1 ++ (u ++ (W2 ++ S))))
      = .ok none :=
    handleTz_none_last rt now _ (family_last_ne hL W1 u W2 S hW2 hju hjs hune)
  have hunitnull : handleUnitConversion (L.chars ++ (W1 ++ (u ++ (W2 ++ S))))
      = .ok none :=
    handleUnit_none_ws hL hW1
      (fun c hc => ⟨(hhead c hc).1, (hhead c hc).2.2.1, (hhead c hc).2.2.2⟩)
      htempw hlenw
  have hsep : sepOkB (W1 ++ (u ++ (W2 ++ S))) = true :=
    sepOkB_ws_append hW1 fun c hc => ⟨(hhead c hc).2.2.1, (hhead c hc).2.2.2⟩
  have hskip := skipWs_ws_append hW1 fun c hc => (hhead c hc).1
  have hcurnull : handleCurrencyConversion (L.chars ++ (W1 ++ (u ++ (W2 ++ S))))
      = .ok none := by
    apply handleCurrency_none_src
    intro a u' hscan
    simp only [currencyScan, scanNum_lit L hL _ hsep, hskip, hcurw] at hscan
    by_cases he : (W2 ++ S).isEmpty = true
    · rw [if_pos he] at hscan
      simp only [Option.some.injEq, Prod.mk.injEq] at hscan
      rw [← hscan.2]
      exact hsrc
    · rw [if_neg he] at hscan
      exact absurd hscan (by simp)
  have hformnull : handleFormulaQuery (L.chars ++ (W1 ++ (u ++ (W2 ++ S))))
      = .ok none :=
    handleFormula_none hL _
  unfold engineRules
  rw [tryRules_cons_none (r := mathRule rt) (tryPatterns_handler_none _ hmathnull)]
  rw [tryRules_cons_none (r := dateRule rt now) (tryPatterns_handler_none _ hdatenull)]
  rw [tryRules_cons_none (r := timezoneRule rt now) (tryPatterns_handler_none _ htznull)]
  rw [tryRules_cons_none (r := unitRule) (tryPatterns_handler_none _ hunitnull)]
  rw [tryRules_cons_none (r := currencyRule) (tryPatterns_handler_none _ hcurnull)]
  rw [tryRules_cons_none (r := formulaRule) (tryPatterns_handler_none _ hformnull)]
  rfl

set_option maxHeartbeats 1000000 in
/-- Master: every input whose normalized form is matched by a currency
  pattern with an EUR/GBP source makes `process` return null. -/
theorem process_eurgbp_null (rt : JsRuntime) (now : ℕ) (input : List Char)
    (hm : matchedEurGbp (preprocessInput input) = true) :
    (process rt now [] input).1 = none := by
  unfold matchedEurGbp at hm
  rw [Bool.and_eq_true] at hm
  obtain ⟨hpat, hscan⟩ := hm
  cases hsn : scanNum (preprocessInput input) with
  | none =>
    rw [hsn] at hscan
    exact absurd hscan (by simp)
  | some ar =>
    obtain ⟨a, r1⟩ := ar
    cases hsw : scanWord curWords (skipWs r1) with
    | none =>
      simp only [hsn, hsw] at hscan
      exact Bool.noConfusion hscan
    | some ur =>
      obtain ⟨u, r2⟩ := ur
      simp only [hsn, hsw, Bool.or_eq_true, decide_eq_true_eq] at hscan
      obtain ⟨L, hL, hLa, hna⟩ := scanNum_decomp hsn
      subst hLa
      obtain ⟨humem, hsplit2⟩ := scanWord_decomp hsw
      have hW1 : ∀ c ∈ r1.takeWhile isWsChar, isWsChar c = true :=
        fun c hc => List.mem_takeWhile_imp hc
      have hr2struct : ∃ W2 S, (∀ c ∈ W2, isWsChar c = true) ∧
          S ∈ [([] : List Char), ('等' :: '于' :: []), ('换' :: '算' :: '成' :: [])] ∧
          r2 = W2 ++ S := by
        rw [Bool.or_eq_true] at hpat
        rcases hpat with hc1 | hc2
        · refine ⟨r2, [], ?_, by simp, by simp⟩
          unfold cur1Match at hc1
          have hcs : currencyScan (preprocessInput input)
              = if r2.isEmpty then some (L.chars, u) else none := by
            simp only [currencyScan, hsn, hsw]
          rw [hcs] at hc1
          by_cases he : r2.isEmpty = true
          · have : r2 = [] := by
              cases r2 with
              | nil => rfl
              | cons x xs => simp at he
            intro c hcm
            rw [this] at hcm
            exact absurd hcm (List.not_mem_nil c)
          · rw [if_neg he] at hc1
            exact absurd hc1 (by simp)
        · unfold cur2Match at hc2
          simp only [hsn] at hc2
          have hcw : curWords = cnCurWords
              ++ [('U' :: 'S' :: 'D' :: []), ('C' :: 'N' :: 'Y' :: []),
                  ('E' :: 'U' :: 'R' :: []), ('G' :: 'B' :: 'P' :: [])] := rfl
          rw [hcw] at hsw
          rcases scanWord_append_split hsw with hleft | ⟨hnone, hright⟩
          · simp only [hleft] at hc2
            rcases optWordEnd_decomp hc2 with hws | ⟨w2, sfx, hw2, hsfx, heq⟩
            · exact ⟨r2, [], hws, by simp, by simp⟩
            · refine ⟨w2, sfx, hw2, ?_, heq⟩
              simp only [List.mem_cons, List.not_mem_nil, or_false] at hsfx
              rcases hsfx with h | h <;> subst h <;> simp
          · simp only [hnone] at hc2
            exact absurd hc2 (by simp)
      obtain ⟨W2, S, hW2, hS3, hr2e⟩ := hr2struct
      have hn2 : preprocessInput input
          = L.chars ++ (r1.takeWhile isWsChar ++ (u ++ (W2 ++ S))) := by
        rw [hna]
        congr 1
        conv_lhs => rw [← List.takeWhile_append_dropWhile isWsChar r1]
        rw [show r1.dropWhile isWsChar = skipWs r1 from rfl, hsplit2, hr2e]
      have humem4 : u ∈ eurGbpWords := by
        simp only [curWords, List.mem_cons, List.not_mem_nil, or_false] at humem
        rcases humem with h | h | h | h | h | h | h | h <;> subst h <;>
          first
          | (rcases hscan with h2 | h2 <;> exact absurd h2 (by decide))
          | decide
      have hscans := scans_eurgbp humem4 (W2 ++ S)
      have hsrc2 : (assocGet u currencyMap).getD u ≠ "USD".toList ∧
          (assocGet u currencyMap).getD u ≠ "CNY".toList := by
        rcases hscan with h2 | h2 <;> rw [h2] <;> exact ⟨by decide, by decide⟩
      have hcond : famOkB u S = true := by
        simp only [eurGbpWords, List.mem_cons, List.not_mem_nil, or_false] at humem4
        simp only [List.mem_cons, List.not_mem_nil, or_false] at hS3
        rcases humem4 with h | h | h | h <;> subst h <;>
          rcases hS3 with h2 | h2 | h2 <;> subst h2 <;> decide
      have htr := tryRules_null_family rt now hL (r1.takeWhile isWsChar) u W2 S
        hW1 hW2 hcond hscans.1 hscans.2.1 hscans.2.2.1 hscans.2.2.2 hsrc2
      unfold process
      have hcm : assocGet (preprocessInput input) ([] : Cache) = none := rfl
      have ht2 : tryRules (engineRules rt now) (preprocessInput input) = none := by
        rw [hn2]
        exact htr
      rw [processWith_miss_none hcm ht2]

/-- C7: Currency conversion is defined exactly for USD source (converted to
  CNY) and CNY source (converted to USD): for every well-formed unsigned
  literal amount, the USD spellings 美元/USD yield the CNY display built from
  the fixture rate rounded to 4 decimals, the CNY spellings 人民币/CNY yield
  the USD display likewise, the stored USD→CNY rate is the double of the
  fixture literal 7.1776 (so `1美元` displays `（7.1776 人民币）`), and every
  input whose normalized form is recognized by a currency pattern with an
  EUR/GBP source — any amount, spacing, spelling and optional suffix — makes
  `process` return null. -/
theorem c7_currency_paths (rt : JsRuntime) (now : ℕ) (L : NumLit) (hL : L.wfB = true) :
    ((process rt now [] (L.chars ++ "美元".toList)).1
        = some ⟨.currency, "（".toList
            ++ f64ToFixed 4 (fmul (parseF64 L.chars) (rateOf "USD".toList "CNY".toList))
            ++ " 人民币）".toList⟩)
    ∧ ((process rt now [] (L.chars ++ "USD".toList)).1
        = some ⟨.currency, "（".toList
            ++ f64ToFixed 4 (fmul (parseF64 L.chars) (rateOf "USD".toList "CNY".toList))
            ++ " 人民币）".toList⟩)
    ∧ ((process rt now [] (L.chars ++ "人民币".toList)).1
        = some ⟨.currency, "（".toList
            ++ f64ToFixed 4 (fmul (parseF64 L.chars) (rateOf "CNY".toList "USD".toList))
            ++ " 美元）".toList⟩)
    ∧ ((process rt now [] (L.chars ++ "CNY".toList)).1
        = some ⟨.currency, "（".toList
            ++ f64ToFixed 4 (fmul (parseF64 L.chars) (rateOf "CNY".toList "USD".toList))
            ++ " 美元）".toList⟩)
    ∧ rateOf "USD".toList "CNY".toList = parseF64 "7.1776".toList
    ∧ f64ToFixed 4 (fmul (parseF64 ['1']) (rateOf "USD".toList "CNY".toList))
        = "7.1776".toList
    ∧ ∀ input, matchedEurGbp (preprocessInput input) = true →
        (process rt now [] input).1 = none := by
  refine ⟨?_, ?_, ?_, ?_, by decide, by decide, ?_⟩
  · have hsw : scanWord curWords ("美元".toList) = some ("美元".toList, []) := by decide
    have hpat : cur1Match (L.chars ++ "美元".toList) = true := by
      unfold cur1Match
      rw [currencyScan_lit hL _ _ (by decide) (by decide) hsw]
      rfl
    exact process_currency_lit_word rt now hL _ (by decide) (by decide) (by decide)
      (by decide) (by decide) hpat
      (handleCurrency_usd hL _ _ (by decide) (by decide) hsw (by decide))
  · have hsw : scanWord curWords ("USD".toList) = some ("USD".toList, []) := by decide
    have hpat : cur1Match (L.chars ++ "USD".toList) = true := by
      unfold cur1Match
      rw [currencyScan_lit hL _ _ (by decide) (by decide) hsw]
      rfl
    exact process_currency_lit_word rt now hL _ (by decide) (by decide) (by decide)
      (by decide) (by decide) hpat
      (handleCurrency_usd hL _ _ (by decide) (by decide) hsw (by decide))
  · have hsw : scanWord curWords ("人民币".toList) = some ("人民币".toList, []) := by decide
    have hpat : cur1Match (L.chars ++ "人民币".toList) = true := by
      unfold cur1Match
      rw [currencyScan_lit hL _ _ (by decide) (by decide) hsw]
      rfl
    exact process_currency_lit_word rt now hL _ (by decide) (by decide) (by decide)
      (by decide) (by decide) hpat
      (handleCurrency_cny hL _ _ (by decide) (by decide) hsw (by decide))
  · have hsw : scanWord curWords ("CNY".toList) = some ("CNY".toList, []) := by decide
    have hpat : cur1Match (L.chars ++ "CNY".toList) = true := by
      unfold cur1Match
      rw [currencyScan_lit hL _ _ (by decide) (by decide) hsw]
      rfl
    exact process_currency_lit_word rt now hL _ (by decide) (by decide) (by decide)
      (by decide) (by decide) hpat
      (handleCurrency_cny hL _ _ (by decide) (by decide) hsw (by decide))
  · exact fun input h => process_eurgbp_null rt now input h

/-- C7 witness: the spec's own example `1美元` → `（7.1776 人民币）`, and a
  spaced EUR input `5 欧元` (currency pattern matched, no conversion path)
  yielding null. -/
theorem c7_currency_paths_witness :
    ((⟨['1'], none⟩ : NumLit).wfB = true)
    ∧ (process rtDemo 0 [] ((⟨['1'], none⟩ : NumLit).chars ++ "美元".toList)).1
        = some ⟨.currency, "（7.1776 人民币）".toList⟩
    ∧ matchedEurGbp (preprocessInput "5 欧元".toList) = true
    ∧ (process rtDemo 0 [] "5 欧元".toList).1 = none := by
  have h := c7_currency_paths rtDemo 0 ⟨['1'], none⟩ (by decide)
  refine ⟨by decide, ?_, by decide, ?_⟩
  · rw [h.1]
    decide
  · exact h.2.2.2.2.2.2 "5 欧元".toList (by decide)

/-- C8: Of the length conversions only meters→feet is computed
  (`feet = meters × 3.28084`, displayed with 2 decimals): for every
  well-formed unsigned literal amount the units 米 and m produce that
  conversion, while for every other recognized length unit (厘米/千米/英尺/
  英寸/cm/km/ft/in, with or without a trailing 等于/转换为) the dispatch
  pattern `unit2Match` matches syntactically but the handler yields null and
  `process` returns null. -/
theorem c8_length_only_meters (rt : JsRuntime) (now : ℕ) (L : NumLit) (hL : L.wfB = true) :
    ((process rt now [] (L.chars ++ "米".toList)).1
        = some ⟨.conversion,
            f64ToFixed 2 (fmul (parseF64 L.chars) (fLit 328084 100000)) ++ "英尺".toList⟩)
    ∧ ((process rt now [] (L.chars ++ "m".toList)).1
        = some ⟨.conversion,
            f64ToFixed 2 (fmul (parseF64 L.chars) (fLit 328084 100000)) ++ "英尺".toList⟩)
    ∧ fLit 328084 100000 = parseF64 "3.28084".toList
    ∧ f64ToFixed 2 (fmul (parseF64 ('1' :: '0' :: '0' :: [])) (fLit 328084 100000))
        = "328.08".toList
    ∧ ∀ u ∈ otherLenUnits, ∀ suf ∈ unitSuffixes,
        unit2Match (L.chars ++ (u ++ suf)) = true
        ∧ handleUnitConversion (L.chars ++ (u ++ suf)) = .ok none
        ∧ (process rt now [] (L.chars ++ (u ++ suf))).1 = none := by
  refine ⟨?_, ?_, by decide, by decide, ?_⟩
  · have hlw : scanWord lenWords ("米".toList) = some (['米'], []) := by decide
    have hpat := unit2Match_lit hL _ _ _ (by decide) (by decide) hlw (by decide)
    exact process_unit_lit_word rt now hL _ (by decide) (by decide) (by decide)
      (by decide) hpat
      (handleUnit_meters hL _ _ _ (by decide) (by decide) (by decide) hlw (Or.inl rfl))
  · have hlw : scanWord lenWords ("m".toList) = some (['m'], []) := by decide
    have hpat := unit2Match_lit hL _ _ _ (by decide) (by decide) hlw (by decide)
    exact process_unit_lit_word rt now hL _ (by decide) (by decide) (by decide)
      (by decide) hpat
      (handleUnit_meters hL _ _ _ (by decide) (by decide) (by decide) hlw (Or.inr rfl))
  · intro u hu suf hsuf
    simp only [otherLenUnits, List.mem_cons, List.not_mem_nil, or_false] at hu
    simp only [unitSuffixes, List.mem_cons, List.not_mem_nil, or_false] at hsuf
    rcases hu with h | h | h | h | h | h | h | h <;> subst h <;>
      rcases hsuf with h2 | h2 | h2 <;> subst h2 <;>
      exact ⟨unit2Match_lit_ok hL _ (by decide), handleUnit_none hL _ (by decide),
        process_none_lit_word rt now hL _ (by decide) (by decide) (by decide)
          (by decide) (by decide) (by decide)⟩

/-- C8 witness: `100米` converts (328.08英尺); `100厘米` matches the pattern
  but yields null. -/
theorem c8_length_only_meters_witness :
    ((⟨['1', '0', '0'], none⟩ : NumLit).wfB = true)
    ∧ (process rtDemo 0 [] ((⟨['1', '0', '0'], none⟩ : NumLit).chars ++ "米".toList)).1
        = some ⟨.conversion, "328.08英尺".toList⟩
    ∧ unit2Match ((⟨['1', '0', '0'], none⟩ : NumLit).chars ++ ("厘米".toList ++ [])) = true
    ∧ (process rtDemo 0 []
        ((⟨['1', '0', '0'], none⟩ : NumLit).chars ++ ("厘米".toList ++ []))).1 = none := by
  have h := c8_length_only_meters rtDemo 0 ⟨['1', '0', '0'], none⟩ (by decide)
  refine ⟨by decide, ?_, ?_, ?_⟩
  · rw [h.1]
    decide
  · exact (h.2.2.2.2 _ (by decide) _ (by decide)).1
  · exact (h.2.2.2.2 _ (by decide) _ (by decide)).2.2

/-- C10: The square-root computation can never receive a negative operand
  through the public `process` interface: whenever a math dispatch pattern
  matched (the gate under which `process` invokes the math handler) and the
  replaced expression routes to the sqrt branch, the extracted operand exists,
  is the value of an unsigned literal (hence non-negative), `Math.sqrt`
  returns a number (never NaN), and the handler displays the runtime's
  square-root value — the NaN display is unreachable. -/
theorem c10_sqrt_operand_nonneg (rt : JsRuntime) (input : List Char)
    (hm : mathAnyMatch input = true)
    (hs : containsSub "sqrt".toList (applyReps input) = true) :
    ∃ n, extractNum (applyReps input) = some n
      ∧ qIsNeg (numVal n) = false
      ∧ fIsNeg (parseF64 n) = false
      ∧ mathSqrt rt (parseF64 n) = rt.sqrtFn (parseF64 n)
      ∧ handleMathCalculation rt input
          = .ok (some ⟨RType.calculation,
              "= ".toList ++ f64ToStr (rt.sqrtFn (parseF64 n))⟩) := by
  obtain ⟨d, hd, hdig⟩ := mathAny_head hm
  have hmem : d ∈ input := mem_of_head? hd
  have hmem2 : d ∈ applyReps input := mem_applyReps_digit hdig hmem
  obtain ⟨n, hex⟩ := extractNum_some_of_digit hdig hmem2
  have hnn := numVal_nonneg n
  have hfn : fIsNeg (parseF64 n) = false := by
    apply roundF64_nonneg
    rw [qIsNeg, decide_eq_false_iff_not, not_lt] at hnn
    exact hnn
  have hnan : parseF64 n ≠ .nan := roundF64_ne_nan (numVal n)
  have hms : mathSqrt rt (parseF64 n) = rt.sqrtFn (parseF64 n) := by
    unfold mathSqrt
    rw [if_neg hnan]
    simp [hfn]
  refine ⟨n, hex, hnn, hfn, hms, ?_⟩
  simp only [handleMathCalculation, hs, if_true]
  unfold sqrtBranch
  rw [hex]
  simp [hms]

/-- C10 witness: `9的平方根` routes to the sqrt branch with operand 9. -/
theorem c10_sqrt_operand_nonneg_witness :
    mathAnyMatch ("9的平方根".toList) = true
    ∧ containsSub "sqrt".toList (applyReps ("9的平方根".toList)) = true
    ∧ ∃ n, extractNum (applyReps ("9的平方根".toList)) = some n
        ∧ qIsNeg (numVal n) = false
        ∧ fIsNeg (parseF64 n) = false
        ∧ mathSqrt rtDemo (parseF64 n) = rtDemo.sqrtFn (parseF64 n)
        ∧ handleMathCalculation rtDemo ("9的平方根".toList)
            = .ok (some ⟨RType.calculation,
                "= ".toList ++ f64ToStr (rtDemo.sqrtFn (parseF64 n))⟩) :=
  ⟨by decide, by decide, c10_sqrt_operand_nonneg rtDemo _ (by decide) (by decide)⟩

end CSC

